import Mathlib

/-!
# auto_derivator: tensor storage, broadcasting and reverse-mode autodiff

A shallow embedding of `src/autograd/{IntArrRef,Slice,Tensor,TensorFactory,
AutogradFunction,TensorOps}.h` and of `src/grad_demo.cpp`.

Conventions of the embedding

* `int` values are unbounded `Int`s and `size_t` values are `Nat`s: the model
  describes the executions in which no machine integer overflows.
* An `IntArrRef` is a `List Int`.  `at(i)` and `operator[]` read with
  `List.getD _ i 0`; in-place writes are `List.set`.
* `std::shared_ptr<T[]>` buffers live in a `Heap`; a buffer is identified by its
  address (its position in the heap), so that tensors sharing a buffer alias each
  other exactly as in the source.  Reading or writing outside a buffer is
  reported as `NumError.outOfBounds`.
* The element type `T` is any linearly ordered field `α` (exact arithmetic).
  `std::pow` and `std::exp` are supplied through `Libm`.
* A throwing function returns `Except NumError _`.
-/

set_option autoImplicit false

namespace num

/-! ## NumErrors.h -/

/-- The failures of the library: `IndexError`, `ShapeMismatchError`, and the
standard `std::invalid_argument` and `std::out_of_range`; `outOfBounds` marks an
access outside an allocated buffer and `outOfFuel` a loop that did not finish
within its iteration bound. -/
inductive NumError where
  | IndexError
  | ShapeMismatchError
  | invalid_argument
  | out_of_range
  | outOfBounds
  | outOfFuel
  deriving DecidableEq, Repr

deriving instance DecidableEq for Except

/-- A counted loop `for (int i = 0; i < n; i++) body`, started at `i`. -/
def forLoopFrom {σ : Type} (body : Nat → σ → Except NumError σ) :
    Nat → Nat → σ → Except NumError σ
  | 0, _, s => .ok s
  | n + 1, i, s => do
    let s1 ← body i s
    forLoopFrom body n (i + 1) s1

/-- A counted loop `for (int i = 0; i < n; i++) body`. -/
def forLoop {σ : Type} (n : Nat) (body : Nat → σ → Except NumError σ) (s : σ) :
    Except NumError σ :=
  forLoopFrom body n 0 s

/-! ## IntArrRef.h -/

/-- `IntArrRef`: a fixed-length sequence of `int`s. -/
abbrev IntArrRef := List Int

/-- `INT_MAX` of `<climits>`. -/
def INT_MAX : Int := 2147483647

/-- The value that an `int` expression takes when its exact value is `x`: 32-bit
two's-complement wrap-around. -/
def wrapInt (x : Int) : Int := (x + 2147483648) % 4294967296 - 2147483648

namespace IntArrRef

/-- `IntArrRef(size, fill)`. -/
def fill (size : Nat) (v : Int) : IntArrRef :=
  List.replicate size v

/-- `binaryExpr(a, b, fn)`. -/
def binaryExpr (a b : IntArrRef) (fn : Int → Int → Int) : Except NumError IntArrRef :=
  if a.length ≠ b.length then .error .ShapeMismatchError
  else .ok (List.zipWith fn a b)

/-- `IntArrRef::operator+`. -/
def add (a b : IntArrRef) : Except NumError IntArrRef :=
  binaryExpr a b (fun x y => x + y)

/-- `IntArrRef::operator-`. -/
def sub (a b : IntArrRef) : Except NumError IntArrRef :=
  binaryExpr a b (fun x y => x - y)

/-- The loop of `IntArrRef::pad`: `i` and `j` run down from `sz - 1` and
`noDims - 1` while both are non-negative. -/
def padLoop (arr : IntArrRef) : Nat → Nat → IntArrRef → IntArrRef
  | i + 1, j + 1, out => padLoop arr i j (out.set j (arr.getD i 0))
  | _, _, out => out

/-- `IntArrRef::pad(noDims)`. -/
def pad (arr : IntArrRef) (noDims : Nat) : IntArrRef :=
  padLoop arr arr.length noDims (fill noDims 1)

/-- The second loop of `IntArrRef::lessThan` with its final comparison: `n` is the
number of iterations left, `i` the axis. -/
def lessThanLoop (arr other : IntArrRef) : Nat → Nat → Bool
  | 0, i => decide (arr.getD i 0 < other.getD i 0)
  | n + 1, i =>
    if arr.getD i 0 < other.getD i 0 then true
    else if arr.getD i 0 > other.getD i 0 then false
    else lessThanLoop arr other n (i + 1)

/-- `IntArrRef::lessThan(other, limitOpt)`. -/
def lessThan (arr other : IntArrRef) (limitOpt : Option IntArrRef) :
    Except NumError Bool :=
  if other.length ≠ arr.length then .error .ShapeMismatchError
  else
    let limit := limitOpt.getD (fill arr.length INT_MAX)
    if (List.range arr.length).any (fun j => decide (arr.getD j 0 ≥ limit.getD j 0)) then
      .ok false
    else .ok (lessThanLoop arr other (arr.length - 1) 0)

/-- The loop of `IntArrRef::incr`, for the axes `i = n-1, .., 0`; returns the
vector and the value of `i` at the exit (`-1` when every axis carried). -/
def incrLoop (start limit step : IntArrRef) : Nat → IntArrRef → IntArrRef × Int
  | 0, arr => (arr, -1)
  | i + 1, arr =>
    let arr1 := arr.set i (arr.getD i 0 + step.getD i 0)
    if arr1.getD i 0 ≥ limit.getD i 0 then
      incrLoop start limit step i (arr1.set i (start.getD i 0))
    else (arr1, i)

/-- `IntArrRef::incr(startOpt, limitOpt, stepOpt)`: the updated vector and the
returned `int`, `(sz - 2) - i`. -/
def incr (arr : IntArrRef) (startOpt limitOpt stepOpt : Option IntArrRef) :
    Except NumError (IntArrRef × Int) :=
  let start := startOpt.getD (fill arr.length 0)
  let limit := limitOpt.getD (fill arr.length INT_MAX)
  let step := stepOpt.getD (fill arr.length 1)
  if limit.length ≠ arr.length then .error .ShapeMismatchError
  else
    let r := incrLoop start limit step arr.length arr
    .ok (r.1, ((arr.length : Int) - 2) - r.2)

end IntArrRef

/-! ## Slice.h -/

/-- `Slice`: the optional `start`, `end` and `step` of a half-open range. -/
structure Slice where
  start : Option Int
  end_ : Option Int
  step : Option Int

namespace Slice

/-- `Slice::toRangeTuple(dimSize)`. -/
def toRangeTuple (s : Slice) (dimSize : Int) : Int × Int × Int :=
  (s.start.getD 0, s.end_.getD dimSize, s.step.getD 1)

/-- `Slice::calcDimSize(range)`, `(end - start + (step - 1)) / step` on `int`: every
intermediate value wraps around to 32 bits, and `/` truncates towards zero. -/
def calcDimSize (range : Int × Int × Int) : Int :=
  (wrapInt (wrapInt (range.2.1 - range.1) + wrapInt (range.2.2 - 1))).tdiv range.2.2

end Slice

/-- `IdxSel = std::variant<Slice, int>`. -/
inductive IdxSel where
  | slice (s : Slice)
  | idx (i : Int)

/-! ## Heap of shared buffers -/

/-- The store of `shared_ptr<T[]>` buffers; the address of a buffer is its
position in `bufs`. -/
structure Heap (α : Type) where
  bufs : List (List α)
  deriving DecidableEq

namespace Heap

variable {α : Type}

/-- The buffer stored at address `p` (empty when nothing is allocated there). -/
def buf (h : Heap α) (p : Nat) : List α := h.bufs.getD p []

/-- `std::make_shared<T[]>(..)` with the given initial contents: a fresh address. -/
def alloc (h : Heap α) (b : List α) : Nat × Heap α :=
  (h.bufs.length, ⟨h.bufs ++ [b]⟩)

/-- `arr[i]` as an rvalue. -/
def read (h : Heap α) (p : Nat) (i : Int) : Except NumError α :=
  if i < 0 then .error .outOfBounds
  else match (h.buf p)[i.toNat]? with
    | some v => .ok v
    | none => .error .outOfBounds

/-- `arr[i] = v`. -/
def write (h : Heap α) (p : Nat) (i : Int) (v : α) : Except NumError (Heap α) :=
  if i < 0 then .error .outOfBounds
  else if i.toNat < (h.buf p).length then .ok ⟨h.bufs.set p ((h.buf p).set i.toNat v)⟩
  else .error .outOfBounds

end Heap

/-- The functions of `<cmath>` used by the library, `std::pow` and `std::exp`. -/
structure Libm (α : Type) where
  pow : α → α → α
  exp : α → α

/-! ## Tensor.h -/

/-- The backward rule stored in `Tensor::backwardFn`: the constructor's no-op
lambda (`leaf`) or `Derived::backward` of one of the operations. -/
inductive BackwardFn where
  | leaf | Add | Sub | Mul | Div | Pow | MatMul | Transpose | Sigmoid | ReLU
  deriving DecidableEq, Repr

/-- `Tensor<T>`: the shape, the graph edge, and the addresses of the two shared
buffers `arr` and `gradArr`, with the element count `sz`. -/
structure Tensor where
  dims : IntArrRef
  backwardFn : BackwardFn
  gradGraphChildren : List Tensor
  arr : Nat
  gradArr : Nat
  sz : Nat

namespace Tensor

variable {α : Type} [LinearOrderedField α]

/-- The body of the outer loop of `Tensor::getLinIdx`, run for the axes
`i = n-1, .., 0`; the inner loop multiplies `idx[i]` by the extents of the axes
after `i`. -/
def getLinIdxLoop (dims idx : IntArrRef) : Nat → Int → Except NumError Int
  | 0, linIdx => .ok linIdx
  | i + 1, linIdx =>
    let idx_reformatted :=
      if idx.getD i 0 ≥ 0 then idx.getD i 0 else dims.getD i 0 + idx.getD i 0
    if idx_reformatted ≥ dims.getD i 0 then .error .IndexError
    else
      let add := (dims.drop (i + 1)).foldl (fun acc d => acc * d) (idx.getD i 0)
      getLinIdxLoop dims idx i (linIdx + add)

/-- `Tensor::getLinIdx`. -/
def getLinIdx (t : Tensor) (idx : IntArrRef) : Except NumError Int :=
  if idx.length ≠ t.dims.length then .error .invalid_argument
  else getLinIdxLoop t.dims idx idx.length 0

/-- `Tensor::getSingle`. -/
def getSingle (h : Heap α) (t : Tensor) (idx : IntArrRef) : Except NumError α := do
  let linIdx ← t.getLinIdx idx
  h.read t.arr linIdx

/-- `Tensor::setSingle`. -/
def setSingle (h : Heap α) (t : Tensor) (val : α) (idx : IntArrRef) :
    Except NumError (Heap α) := do
  let linIdx ← t.getLinIdx idx
  h.write t.arr linIdx val

/-- The loop of `Tensor::idxIncr(idx)`, for the axes `i = n-1, .., 0`; returns the
index and the value of `i` at the exit. -/
def idxIncrLoop (dims : IntArrRef) : Nat → IntArrRef → IntArrRef × Int
  | 0, idx => (idx, -1)
  | i + 1, idx =>
    let idx1 := idx.set i (idx.getD i 0 + 1)
    if idx1.getD i 0 ≥ dims.getD i 0 then idxIncrLoop dims i (idx1.set i 0)
    else (idx1, i)

/-- `Tensor::idxIncr(idx)`: the incremented index and the number of carries,
`(idx.size() - 1) - i`. -/
def idxIncr (t : Tensor) (idx : IntArrRef) : IntArrRef × Int :=
  let r := idxIncrLoop t.dims idx.length idx
  (r.1, ((idx.length : Int) - 1) - r.2)

/-- The loop of `Tensor::idxIncr(idx, ranges)`; a range is `(start, end, step)`, and
`idx[i] += step` is an `int` addition, wrapping around to 32 bits. -/
def idxIncrRangesLoop (ranges : List (Int × Int × Int)) : Nat → IntArrRef → IntArrRef × Int
  | 0, idx => (idx, -1)
  | i + 1, idx =>
    let idx1 := idx.set i (wrapInt (idx.getD i 0 + (ranges.getD i (0, 0, 0)).2.2))
    if idx1.getD i 0 ≥ (ranges.getD i (0, 0, 0)).2.1 then
      idxIncrRangesLoop ranges i (idx1.set i (ranges.getD i (0, 0, 0)).1)
    else (idx1, i)

/-- `Tensor::idxIncr(idx, ranges)`: the incremented index and the returned `int`,
`(idx.size() - 2) - i`. -/
def idxIncrRanges (idx : IntArrRef) (ranges : List (Int × Int × Int)) : IntArrRef × Int :=
  let r := idxIncrRangesLoop ranges idx.length idx
  (r.1, ((idx.length : Int) - 2) - r.2)

/-- The fill loop of the constructor,
`for (dimCarries = 0; dimCarries < dims.size(); dimCarries = idxIncr(idx))`. -/
def ctorLoop (fillFn : IntArrRef → α) (t : Tensor) :
    Nat → Heap α → IntArrRef → Except NumError (Heap α)
  | 0, _, _ => .error .outOfFuel
  | fuel + 1, h, idx => do
    let h1 ← t.setSingle h (fillFn idx) idx
    let r := t.idxIncr idx
    if r.2 < t.dims.length then ctorLoop fillFn t fuel h1 r.1 else .ok h1

/-- `Tensor(dimensions, fillFn)`: both buffers are value-initialised (zero) by
`make_shared`, then the data buffer is filled index by index. -/
def ctor (h : Heap α) (dimensions : IntArrRef) (fillFn : IntArrRef → α) :
    Except NumError (Tensor × Heap α) :=
  if dimensions.length = 0 then .error .invalid_argument
  else if dimensions.any (fun dim => decide (dim < 0)) then .error .invalid_argument
  else
    let sz := (dimensions.foldl (fun acc dim => acc * dim) 1).toNat
    let a := h.alloc (List.replicate sz (0 : α))
    let g := a.2.alloc (List.replicate sz (0 : α))
    let t : Tensor := ⟨dimensions, .leaf, [], a.1, g.1, sz⟩
    do
      let h3 ← ctorLoop fillFn t (sz + 1) g.2 (IntArrRef.fill dimensions.length 0)
      .ok (t, h3)

/-- `Tensor(T val)`: a scalar is a tensor of shape `(1)`; `arr[0] = val`. -/
def ctorScalar (h : Heap α) (val : α) : Tensor × Heap α :=
  let a := h.alloc [val]
  let g := a.2.alloc [(0 : α)]
  (⟨[1], .leaf, [], a.1, g.1, 1⟩, g.2)

end Tensor

/-! ## TensorFactory.h -/

section Factory

variable {α : Type} [LinearOrderedField α]

/-- `zeros<T>(dims)`. -/
def zeros (h : Heap α) (dims : IntArrRef) : Except NumError (Tensor × Heap α) :=
  Tensor.ctor h dims (fun _ => 0)

/-- `ones<T>(dims)`. -/
def ones (h : Heap α) (dims : IntArrRef) : Except NumError (Tensor × Heap α) :=
  Tensor.ctor h dims (fun _ => 1)

end Factory

namespace Tensor

variable {α : Type} [LinearOrderedField α]

/-- `Tensor::zeroGradient`. -/
def zeroGradient (h : Heap α) (t : Tensor) : Except NumError (Heap α) :=
  forLoop t.sz (fun i h => h.write t.gradArr i 0) h

/-- `Tensor::clone`: the copy constructor keeps every field, then both buffers
are replaced by fresh ones holding `arr[i]` and `gradArr[i]` for `i < sz`. -/
def clone (h : Heap α) (t : Tensor) : Tensor × Heap α :=
  let a := h.alloc ((List.range t.sz).map (fun i => (h.buf t.arr).getD i 0))
  let g := a.2.alloc ((List.range t.sz).map (fun i => (h.buf t.gradArr).getD i 0))
  ({ t with arr := a.1, gradArr := g.1 }, g.2)

/-- `Tensor::getGradient`: a clone whose data pointer is its gradient buffer. -/
def getGradient (h : Heap α) (t : Tensor) : Tensor × Heap α :=
  let c := t.clone h
  ({ c.1 with arr := c.1.gradArr }, c.2)

/-- `Tensor::setGradient`: `gradArr[i] += grad.arr[i]`. -/
def setGradient (h : Heap α) (t grad : Tensor) : Except NumError (Heap α) :=
  if grad.dims ≠ t.dims then .error .ShapeMismatchError
  else
    forLoop t.sz (fun i h => do
      let g ← h.read grad.arr i
      let old ← h.read t.gradArr i
      h.write t.gradArr i (old + g)) h

/-- `Tensor::reshape`: `out` is a copy of `*this`, so the test compares `sz` with
itself; the result shares both buffers. -/
def reshape (t : Tensor) (newDims : IntArrRef) : Except NumError Tensor :=
  let out := t
  if out.sz ≠ t.sz then .error .ShapeMismatchError
  else .ok { out with dims := newDims }

/-- `Tensor::transpose`. -/
def transpose (h : Heap α) (t : Tensor) : Except NumError (Tensor × Heap α) :=
  if t.dims.length ≠ 2 then .error .ShapeMismatchError
  else
    let c := t.clone h
    let out : Tensor := { c.1 with dims := [t.dims.getD 1 0, t.dims.getD 0 0] }
    do
      let h2 ← forLoop (t.dims.getD 0 0).toNat (fun i h =>
        forLoop (t.dims.getD 1 0).toNat (fun j h => do
          let val ← t.getSingle h [(i : Int), (j : Int)]
          out.setSingle h val [(j : Int), (i : Int)]) h) c.2
      .ok (out, h2)

/-- `Tensor::applyUnary`: in place, `arr[i] = fn(arr[i])`. -/
def applyUnary (h : Heap α) (t : Tensor) (fn : α → α) : Except NumError (Heap α) :=
  forLoop t.sz (fun i h => do
    let v ← h.read t.arr i
    h.write t.arr i (fn v)) h

/-- `Tensor::pow_`. -/
def pow_ (m : Libm α) (h : Heap α) (t : Tensor) (power : α) : Except NumError (Heap α) :=
  t.applyUnary h (fun val => m.pow val power)

/-- `Tensor::pow`. -/
def pow (m : Libm α) (h : Heap α) (t : Tensor) (power : α) :
    Except NumError (Tensor × Heap α) := do
  let c := t.clone h
  let h1 ← c.1.pow_ m c.2 power
  .ok (c.1, h1)

/-- `Tensor::exp_`. -/
def exp_ (m : Libm α) (h : Heap α) (t : Tensor) : Except NumError (Heap α) :=
  t.applyUnary h (fun val => m.exp val)

/-- `Tensor::exp`. -/
def exp (m : Libm α) (h : Heap α) (t : Tensor) : Except NumError (Tensor × Heap α) := do
  let c := t.clone h
  let h1 ← c.1.exp_ m c.2
  .ok (c.1, h1)

/-- The source range of axis `i` in `Tensor::getCopyRanges`. -/
def srcRangeAt (bigger : Tensor) (idcs : List IdxSel) (i : Nat) : Int × Int × Int :=
  match idcs[i]? with
  | some (.slice s) => s.toRangeTuple (bigger.dims.getD i 0)
  | some (.idx idx) => (idx, idx + 1, 1)
  | none => (0, bigger.dims.getD i 0, 1)

/-- `Tensor::getCopyRanges(src, dst, idcs)`: `(srcRanges, dstRanges, outDims,
totalSize)`, one entry per axis of the bigger tensor. -/
def getCopyRanges (src dst : Tensor) (idcs : List IdxSel) :
    Except NumError (List (Int × Int × Int) × List (Int × Int × Int) × List Int × Nat) :=
  if src.dims.length ≠ dst.dims.length then .error .ShapeMismatchError
  else
    let bigger := if src.sz ≥ dst.sz then src else dst
    let srcRanges := (List.range bigger.dims.length).map (srcRangeAt bigger idcs)
    let outDims := srcRanges.map Slice.calcDimSize
    let dstRanges := outDims.map (fun dimSize => ((0 : Int), dimSize, (1 : Int)))
    .ok (srcRanges, dstRanges, outDims, if src.sz > dst.sz then dst.sz else src.sz)

/-- The first loop of `Tensor::copy`: `idx[i] = std::get<0>(ranges[i])` for every
`i < count`, on an index vector of `n` zeros. -/
def startIdx (n count : Nat) (ranges : List (Int × Int × Int)) : IntArrRef :=
  (List.range count).foldl (fun idx i => idx.set i (ranges.getD i (0, 0, 0)).1)
    (IntArrRef.fill n 0)

/-- `Tensor::copy(src, dst, srcRanges, dstRanges, totalSize)`. -/
def copy (h : Heap α) (src dst : Tensor) (srcRanges dstRanges : List (Int × Int × Int))
    (totalSize : Nat) : Except NumError (Heap α) := do
  let srcIdx := startIdx src.dims.length srcRanges.length srcRanges
  let dstIdx := startIdx dst.dims.length srcRanges.length dstRanges
  let r ← forLoop totalSize (fun _ (st : Heap α × IntArrRef × IntArrRef) => do
    let val ← src.getSingle st.1 st.2.1
    let h1 ← dst.setSingle st.1 val st.2.2
    .ok (h1, (idxIncrRanges st.2.1 srcRanges).1, (idxIncrRanges st.2.2 dstRanges).1))
    (h, srcIdx, dstIdx)
  .ok r.1

/-- `Tensor::get(idcs)`. -/
def get (h : Heap α) (t : Tensor) (idcs : List IdxSel) :
    Except NumError (Tensor × Heap α) := do
  let r ← getCopyRanges t t idcs
  let o ← ctor h r.2.2.1 (fun _ => (0 : α))
  let h2 ← copy o.2 t o.1 r.1 r.2.1 r.2.2.2
  .ok (o.1, h2)

/-- `Tensor::set(val, idcs)`. -/
def set (h : Heap α) (t val : Tensor) (idcs : List IdxSel) : Except NumError (Heap α) := do
  let r ← getCopyRanges val t idcs
  copy h val t r.2.1 r.1 r.2.2.2

end Tensor

section Broadcast

variable {α : Type} [LinearOrderedField α]

/-- The first loop of `applyBinaryWithBroadcast`, for `bIdx = n-1, .., 0`: checks
divisibility axis by axis and fills `dimReps`; `%` and `/` on `int` truncate. -/
def dimRepsLoop (bigger smaller : Tensor) (numDimsDiff : Int) :
    Nat → List Int → Except NumError (List Int)
  | 0, dimReps => .ok dimReps
  | bIdx + 1, dimReps =>
    let sIdx : Int := (bIdx : Int) - numDimsDiff
    if sIdx < 0 then
      dimRepsLoop bigger smaller numDimsDiff bIdx
        (dimReps.set 0 (dimReps.getD 0 0 * bigger.dims.getD bIdx 0))
    else if (bigger.dims.getD bIdx 0).tmod (smaller.dims.getD sIdx.toNat 0) ≠ 0 then
      .error .ShapeMismatchError
    else
      dimRepsLoop bigger smaller numDimsDiff bIdx
        (dimReps.set sIdx.toNat
          ((bigger.dims.getD bIdx 0).tdiv (smaller.dims.getD sIdx.toNat 0)))

/-- The `while` loop of `applyBinaryWithBroadcast` advancing the index into the
smaller operand, entered with `curSIdxDim = c - 1`; returns `sIdx`, `dimRepsLeft`
and the value of `curSIdxDim` at the exit. -/
def advanceSmall (smallerDims dimReps : List Int) :
    Nat → IntArrRef × List Int → IntArrRef × List Int × Int
  | 0, st => (st.1, st.2, -1)
  | c + 1, (sIdx, dimRepsLeft) =>
    let sIdx1 := sIdx.set c (sIdx.getD c 0 + 1)
    if sIdx1.getD c 0 ≥ smallerDims.getD c 0 then
      let sIdx2 := sIdx1.set c 0
      let left1 := dimRepsLeft.set c (dimRepsLeft.getD c 0 - 1)
      if left1.getD c 0 ≤ 0 then
        advanceSmall smallerDims dimReps c (sIdx2, left1.set c (dimReps.getD c 0))
      else (sIdx2, left1, c)
    else (sIdx1, dimRepsLeft, c)

/-- The body of the main loop of `applyBinaryWithBroadcast`; the state is the
heap, `bIdx`, `sIdx` and `dimRepsLeft`. -/
def broadcastStep (fn : α → α → α) (swapped : Bool) (bigger smaller out : Tensor)
    (dimReps : List Int) (st : Heap α × IntArrRef × IntArrRef × List Int) :
    Except NumError (Heap α × IntArrRef × IntArrRef × List Int) := do
  let valA ← bigger.getSingle st.1 st.2.1
  let valB ← smaller.getSingle st.1 st.2.2.1
  let h1 ← out.setSingle st.1 (if swapped then fn valB valA else fn valA valB) st.2.1
  let s := advanceSmall smaller.dims dimReps smaller.dims.length (st.2.2.1, st.2.2.2)
  .ok (h1, (bigger.idxIncr st.2.1).1, s.1, s.2.1)

/-- `applyBinaryWithBroadcast(a, b, fn)`. -/
def applyBinaryWithBroadcast (h : Heap α) (a b : Tensor) (fn : α → α → α) :
    Except NumError (Tensor × Heap α) :=
  let swapped : Bool := decide (a.sz < b.sz ∨ (a.sz = b.sz ∧ b.dims.length > a.dims.length))
  let bigger := if swapped then b else a
  let smaller := if swapped then a else b
  let numDimsDiff : Int := (bigger.dims.length : Int) - (smaller.dims.length : Int)
  do
    let dimReps ← dimRepsLoop bigger smaller numDimsDiff bigger.dims.length
      (List.replicate smaller.dims.length 0)
    let c := bigger.clone h
    let out := c.1
    let r ← forLoop bigger.sz
      (fun _ st => broadcastStep fn swapped bigger smaller out dimReps st)
      (c.2, IntArrRef.fill bigger.dims.length 0, IntArrRef.fill smaller.dims.length 0, dimReps)
    .ok (out, r.1)

end Broadcast

end num

/-! ## AutogradFunction.h: forward rules -/

namespace autofn

open num

variable {α : Type} [LinearOrderedField α]

/-- `Function<T, Derived>::apply(args)`: runs `Derived::forward` and records the
graph edge (`gradGraphChildren = inputs`, `backwardFn = Derived::backward`). -/
def Function.apply (forward : Heap α → List Tensor → Except NumError (Tensor × Heap α))
    (backward : BackwardFn) (h : Heap α) (args : List Tensor) :
    Except NumError (Tensor × Heap α) := do
  let out ← forward h args
  .ok ({ out.1 with gradGraphChildren := args, backwardFn := backward }, out.2)

/-- The common shape of `Add`/`Sub`/`Mul`/`Div`/`Pow::forward`: exactly two
operands, combined through `applyBinaryWithBroadcast`. -/
def binaryForward (fn : α → α → α) (h : Heap α) (args : List Tensor) :
    Except NumError (Tensor × Heap α) :=
  match args with
  | [a, b] => applyBinaryWithBroadcast h a b fn
  | _ => .error .invalid_argument

/-- `Add<T>::forward`. -/
def Add.forward (h : Heap α) (args : List Tensor) : Except NumError (Tensor × Heap α) :=
  binaryForward (fun a b => a + b) h args

/-- `Sub<T>::forward`. -/
def Sub.forward (h : Heap α) (args : List Tensor) : Except NumError (Tensor × Heap α) :=
  binaryForward (fun a b => a - b) h args

/-- `Mul<T>::forward`. -/
def Mul.forward (h : Heap α) (args : List Tensor) : Except NumError (Tensor × Heap α) :=
  binaryForward (fun a b => a * b) h args

/-- `Div<T>::forward`. -/
def Div.forward (h : Heap α) (args : List Tensor) : Except NumError (Tensor × Heap α) :=
  binaryForward (fun a b => a / b) h args

/-- `Pow<T>::forward`. -/
def Pow.forward (m : Libm α) (h : Heap α) (args : List Tensor) :
    Except NumError (Tensor × Heap α) :=
  binaryForward (fun a b => m.pow a b) h args

/-- `Pow<T>::operator()(base, power)` with a tensor exponent. -/
def pow (m : Libm α) (h : Heap α) (base power : Tensor) : Except NumError (Tensor × Heap α) :=
  Function.apply (Pow.forward m) .Pow h [base, power]

/-- `Pow<T>::operator()(base, power)` with a `double` exponent. -/
def powScalar (m : Libm α) (h : Heap α) (base : Tensor) (power : α) :
    Except NumError (Tensor × Heap α) :=
  let p := Tensor.ctorScalar h power
  Function.apply (Pow.forward m) .Pow p.2 [base, p.1]

/-- The three nested loops of `MatMul<T>::forward`. -/
def MatMul.loops (h : Heap α) (a b out : Tensor) : Except NumError (Heap α) :=
  forLoop (out.dims.getD 0 0).toNat (fun i h =>
    forLoop (out.dims.getD 1 0).toNat (fun j h => do
      let outVal ← forLoop (a.dims.getD 1 0).toNat (fun k (outVal : α) => do
        let x ← a.getSingle h [(i : Int), (k : Int)]
        let y ← b.getSingle h [(k : Int), (j : Int)]
        .ok (outVal + x * y)) 0
      out.setSingle h outVal [(i : Int), (j : Int)]) h) h

/-- `MatMul<T>::forward`; `args.at(i)` throws `std::out_of_range`. -/
def MatMul.forward (h : Heap α) (args : List Tensor) : Except NumError (Tensor × Heap α) :=
  match args[0]? with
  | none => .error .out_of_range
  | some a =>
    if a.dims.length ≠ 2 then .error .ShapeMismatchError
    else match args[1]? with
      | none => .error .out_of_range
      | some b =>
        if b.dims.length ≠ 2 then .error .ShapeMismatchError
        else do
          let o ← Tensor.ctor h [a.dims.getD 0 0, b.dims.getD 1 0] (fun _ => (0 : α))
          let h2 ← MatMul.loops o.2 a b o.1
          .ok (o.1, h2)

/-- `MatMul<T>::operator()`. -/
def mm (h : Heap α) (a b : Tensor) : Except NumError (Tensor × Heap α) :=
  Function.apply MatMul.forward .MatMul h [a, b]

/-- `Transpose<T>::forward`. -/
def Transpose.forward (h : Heap α) (args : List Tensor) :
    Except NumError (Tensor × Heap α) :=
  match args with
  | [a] =>
    if a.dims.length ≠ 2 then .error .ShapeMismatchError
    else
      let c := a.clone h
      let out : Tensor := { c.1 with dims := [a.dims.getD 1 0, a.dims.getD 0 0] }
      do
        let h2 ← forLoop (a.dims.getD 0 0).toNat (fun i h =>
          forLoop (a.dims.getD 1 0).toNat (fun j h => do
            let val ← a.getSingle h [(i : Int), (j : Int)]
            out.setSingle h val [(j : Int), (i : Int)]) h) c.2
        .ok (out, h2)
  | _ => .error .invalid_argument

/-- `Transpose<T>::operator()`. -/
def transpose (h : Heap α) (operand : Tensor) : Except NumError (Tensor × Heap α) :=
  Function.apply Transpose.forward .Transpose h [operand]

/-- `ReLU<T>::forward`. -/
def ReLU.forward (h : Heap α) (args : List Tensor) : Except NumError (Tensor × Heap α) :=
  match args with
  | [a] => do
    let c := a.clone h
    let h1 ← c.1.applyUnary c.2 (fun val => if val > 0 then val else 0)
    .ok (c.1, h1)
  | _ => .error .invalid_argument

/-- `ReLU<T>::operator()`. -/
def relu (h : Heap α) (operand : Tensor) : Except NumError (Tensor × Heap α) :=
  Function.apply ReLU.forward .ReLU h [operand]

end autofn

/-! ## TensorOps.h -/

namespace num

variable {α : Type} [LinearOrderedField α]

/-- `operator+(a, b)`. -/
def opAdd (h : Heap α) (a b : Tensor) : Except NumError (Tensor × Heap α) :=
  autofn.Function.apply autofn.Add.forward .Add h [a, b]

/-- `operator-(a, b)`. -/
def opSub (h : Heap α) (a b : Tensor) : Except NumError (Tensor × Heap α) :=
  autofn.Function.apply autofn.Sub.forward .Sub h [a, b]

/-- `operator-(a)`: `zeros(a.dims) - a`. -/
def opNeg (h : Heap α) (a : Tensor) : Except NumError (Tensor × Heap α) := do
  let z ← zeros h a.dims
  autofn.Function.apply autofn.Sub.forward .Sub z.2 [z.1, a]

/-- `operator*(a, b)`. -/
def opMul (h : Heap α) (a b : Tensor) : Except NumError (Tensor × Heap α) :=
  autofn.Function.apply autofn.Mul.forward .Mul h [a, b]

/-- `operator/(a, b)`. -/
def opDiv (h : Heap α) (a b : Tensor) : Except NumError (Tensor × Heap α) :=
  autofn.Function.apply autofn.Div.forward .Div h [a, b]

/-- `matmul(a, b)`. -/
def matmul (h : Heap α) (a b : Tensor) : Except NumError (Tensor × Heap α) :=
  autofn.Function.apply autofn.MatMul.forward .MatMul h [a, b]

/-! ## Tensor.h: iteration and gradient accumulation -/

namespace Tensor

/-- `v[i] = x` on an `IntArrRef` with an `int` position. -/
def setAt (v : IntArrRef) (i : Int) (x : Int) : IntArrRef :=
  if i < 0 then v else v.set i.toNat x

/-- The `while` loop of `Tensor::iter`; `s` is the state captured by the callback
`fn`, and the loop variables are `idx`, `offset` and `limit`. -/
def iterLoop {σ : Type} (fn : σ → Heap α → IntArrRef → Tensor → Except NumError (σ × Heap α))
    (t curIter : Tensor) (step : IntArrRef) :
    Nat → σ × Heap α × IntArrRef × IntArrRef × IntArrRef → Except NumError (σ × Heap α)
  | 0, _ => .error .outOfFuel
  | fuel + 1, (s, h, idx, offset, limit) => do
    let c ← IntArrRef.lessThan idx t.dims (some t.dims)
    if c then
      let val ← t.getSingle h idx
      let rel ← IntArrRef.sub idx offset
      let h1 ← curIter.setSingle h val rel
      let oldIdx := idx
      let r ← IntArrRef.incr idx (some offset) (some limit) none
      if r.2 ≥ (limit.length : Int) - 1 then
        let s1 ← fn s h1 oldIdx curIter
        let idx2 ← IntArrRef.add offset step
        let offset2 ← IntArrRef.add offset step
        let limit2 ← IntArrRef.add limit step
        iterLoop fn t curIter step fuel (s1.1, s1.2, idx2, offset2, limit2)
      else iterLoop fn t curIter step fuel (s, h1, r.1, offset, limit)
    else .ok (s, h)

/-- `Tensor::iter(fn, axis)`; the loop visits each element once, so `sz + 1`
iterations are allowed. -/
def iter {σ : Type} (fn : σ → Heap α → IntArrRef → Tensor → Except NumError (σ × Heap α))
    (s : σ) (h : Heap α) (t : Tensor) (axis : Int) : Except NumError (σ × Heap α) :=
  if axis > t.dims.length ∨ axis > 1 then .error .ShapeMismatchError
  else
    let axis1 := if axis < 0 then axis + t.dims.length else axis
    let step := setAt (IntArrRef.fill t.dims.length 0) ((axis1 + 1).tmod 2) 1
    let limit := setAt t.dims ((axis1 + 1).tmod 2) 1
    do
      let c ← ctor h limit (fun _ => (0 : α))
      iterLoop fn t c.1 step (t.sz + 1)
        (s, c.2, IntArrRef.fill step.length 0, IntArrRef.fill step.length 0, limit)

/-- `Tensor::setBroadcastGradient(gradient)`. -/
def setBroadcastGradient (h : Heap α) (t gradient : Tensor) : Except NumError (Heap α) := do
  let inputDims := IntArrRef.pad t.dims gradient.dims.length
  let c ← IntArrRef.lessThan inputDims gradient.dims none
  if c then
    let z ← zeros h inputDims
    let r ← gradient.iter (fun (newGrad : Tensor) h _ gradIter => opAdd h newGrad gradIter)
      z.1 z.2 0
    let g ← r.1.reshape (IntArrRef.pad r.1.dims t.dims.length)
    t.setGradient r.2 g
  else
    let g ← gradient.reshape t.dims
    t.setGradient h g

end Tensor

end num

/-! ## AutogradFunction.h: sigmoid and the backward rules -/

namespace autofn

open num

variable {α : Type} [LinearOrderedField α]

/-- `Sigmoid<T>::forward`: `one / (one + (one / args[0].exp()))`. -/
def Sigmoid.forward (m : Libm α) (h : Heap α) (args : List Tensor) :
    Except NumError (Tensor × Heap α) :=
  match args with
  | [a] => do
    let one := Tensor.ctorScalar h (1 : α)
    let e ← a.exp m one.2
    let q ← opDiv e.2 one.1 e.1
    let s ← opAdd q.2 one.1 q.1
    opDiv s.2 one.1 s.1
  | _ => .error .invalid_argument

/-- `Sigmoid<T>::operator()`. -/
def sigmoid (m : Libm α) (h : Heap α) (operand : Tensor) : Except NumError (Tensor × Heap α) :=
  Function.apply (Sigmoid.forward m) .Sigmoid h [operand]

/-- `oldInputs[i]` on the `std::vector` of operands. -/
def operand (oldInputs : List Tensor) (i : Nat) : Except NumError Tensor :=
  match oldInputs[i]? with
  | some t => .ok t
  | none => .error .outOfBounds

/-- `Add<T>::backward`. -/
def Add.backward (h : Heap α) (outGradient : Tensor) (oldInputs : List Tensor) :
    Except NumError (Heap α) := do
  let a ← operand oldInputs 0
  let h1 ← a.setBroadcastGradient h outGradient
  let b ← operand oldInputs 1
  b.setBroadcastGradient h1 outGradient

/-- `Sub<T>::backward`. -/
def Sub.backward (h : Heap α) (outGradient : Tensor) (oldInputs : List Tensor) :
    Except NumError (Heap α) := do
  let a ← operand oldInputs 0
  let h1 ← a.setBroadcastGradient h outGradient
  let b ← operand oldInputs 1
  let m1 := Tensor.ctorScalar h1 (-1 : α)
  let g ← opMul m1.2 m1.1 outGradient
  b.setBroadcastGradient g.2 g.1

/-- `Mul<T>::backward`. -/
def Mul.backward (h : Heap α) (outGradient : Tensor) (oldInputs : List Tensor) :
    Except NumError (Heap α) := do
  let a ← operand oldInputs 0
  let b ← operand oldInputs 1
  let ga ← opMul h b outGradient
  let h1 ← a.setBroadcastGradient ga.2 ga.1
  let gb ← opMul h1 a outGradient
  b.setBroadcastGradient gb.2 gb.1

/-- `Div<T>::backward`. -/
def Div.backward (m : Libm α) (h : Heap α) (outGradient : Tensor) (oldInputs : List Tensor) :
    Except NumError (Heap α) := do
  let a ← operand oldInputs 0
  let b ← operand oldInputs 1
  let ga ← opDiv h outGradient b
  let h1 ← a.setBroadcastGradient ga.2 ga.1
  let m1 := Tensor.ctorScalar h1 (-1 : α)
  let na ← opMul m1.2 m1.1 a
  let p ← b.pow m na.2 (-2 : α)
  let q ← opMul p.2 na.1 p.1
  let gb ← opMul q.2 q.1 outGradient
  b.setBroadcastGradient gb.2 gb.1

/-- `Pow<T>::backward`: only the base receives a gradient. -/
def Pow.backward (m : Libm α) (h : Heap α) (outGradient : Tensor) (oldInputs : List Tensor) :
    Except NumError (Heap α) := do
  let a ← operand oldInputs 0
  let p ← operand oldInputs 1
  let one := Tensor.ctorScalar h (1 : α)
  let p1 ← opSub one.2 p one.1
  let f ← Pow.forward m p1.2 [a, p1.1]
  let x ← opMul f.2 outGradient f.1
  let g ← opMul x.2 x.1 p
  a.setBroadcastGradient g.2 g.1

/-- `MatMul<T>::backward`. -/
def MatMul.backward (h : Heap α) (outGradient : Tensor) (oldInputs : List Tensor) :
    Except NumError (Heap α) := do
  let a ← operand oldInputs 0
  let b ← operand oldInputs 1
  let bt ← b.transpose h
  let ga ← MatMul.forward bt.2 [outGradient, bt.1]
  let h1 ← a.setBroadcastGradient ga.2 ga.1
  let at_ ← a.transpose h1
  let gb ← MatMul.forward at_.2 [at_.1, outGradient]
  b.setBroadcastGradient gb.2 gb.1

/-- `Transpose<T>::backward`. -/
def Transpose.backward (h : Heap α) (outGradient : Tensor) (oldInputs : List Tensor) :
    Except NumError (Heap α) := do
  let a ← operand oldInputs 0
  let g ← Transpose.forward h [outGradient]
  a.setBroadcastGradient g.2 g.1

/-- `Sigmoid<T>::backward`. -/
def Sigmoid.backward (m : Libm α) (h : Heap α) (outGradient : Tensor)
    (oldInputs : List Tensor) : Except NumError (Heap α) := do
  let out ← Sigmoid.forward m h oldInputs
  let a ← operand oldInputs 0
  let x ← opMul out.2 out.1 outGradient
  let one := Tensor.ctorScalar x.2 (1 : α)
  let y ← opSub one.2 one.1 out.1
  let g ← opMul y.2 x.1 y.1
  a.setBroadcastGradient g.2 g.1

/-- `ReLU<T>::backward`. -/
def ReLU.backward (h : Heap α) (outGradient : Tensor) (oldInputs : List Tensor) :
    Except NumError (Heap α) := do
  let a ← operand oldInputs 0
  let c := a.clone h
  let h1 ← c.1.applyUnary c.2 (fun val => if val > 0 then 1 else 0)
  let gradient ← opMul h1 c.1 outGradient
  a.setBroadcastGradient gradient.2 gradient.1

end autofn

/-! ## Tensor.h: the backward pass -/

namespace num

variable {α : Type} [LinearOrderedField α]

/-- The call `arr.backwardFn(grad, oldInputs)` through the stored function. -/
def BackwardFn.call (m : Libm α) (f : BackwardFn) (h : Heap α) (grad : Tensor)
    (oldInputs : List Tensor) : Except NumError (Heap α) :=
  match f with
  | .leaf => .ok h
  | .Add => autofn.Add.backward h grad oldInputs
  | .Sub => autofn.Sub.backward h grad oldInputs
  | .Mul => autofn.Mul.backward h grad oldInputs
  | .Div => autofn.Div.backward m h grad oldInputs
  | .Pow => autofn.Pow.backward m h grad oldInputs
  | .MatMul => autofn.MatMul.backward h grad oldInputs
  | .Transpose => autofn.Transpose.backward h grad oldInputs
  | .Sigmoid => autofn.Sigmoid.backward m h grad oldInputs
  | .ReLU => autofn.ReLU.backward h grad oldInputs

namespace Tensor

/-- The recursive lambda `topologicalSort` of `Tensor::backward`; the state is
`(sorted, visited)`, `visited` holding the data buffers already seen. -/
def topologicalSort : Tensor → List Tensor × List Nat → List Tensor × List Nat
  | ⟨dims, backwardFn, children, arr, gradArr, sz⟩, (sorted, visited) =>
    if visited.contains arr then (sorted, visited)
    else
      let r := sortChildren children (sorted, arr :: visited)
      (r.1 ++ [⟨dims, backwardFn, children, arr, gradArr, sz⟩], r.2)
where
  /-- The loop over `arr.gradGraphChildren`. -/
  sortChildren : List Tensor → List Tensor × List Nat → List Tensor × List Nat
    | [], st => st
    | child :: rest, st => sortChildren rest (topologicalSort child st)

/-- `Tensor::backward`. -/
def backward (m : Libm α) (h : Heap α) (t : Tensor) : Except NumError (Heap α) := do
  let sorted := (topologicalSort t ([], [])).1
  let o ← ones h t.dims
  let h1 ← t.setGradient o.2 o.1
  sorted.reverse.foldlM (fun (h : Heap α) (arr : Tensor) =>
    let g := arr.getGradient h
    arr.backwardFn.call m g.2 g.1 arr.gradGraphChildren) h1

end Tensor

end num

/-! ## grad_demo.cpp -/

namespace grad_demo

open num

/-- `std::pow` in exact arithmetic: `x ^ p` for an integer exponent `p` (the only
exponents with a rational value in general; the value `0` is returned otherwise). -/
def ratPow (x p : ℚ) : ℚ := if p.den = 1 then x ^ p.num else 0

/-- `<cmath>` over `ℚ`; `std::exp` is rational only at `0`. -/
def libm : Libm ℚ := ⟨ratPow, fun x => if x = 0 then 1 else 0⟩

/-- The body of `main` up to and including `g.backward()`: returns the contents of
`g`'s data buffer before the backward pass and the gradient buffers of `a` and `b`
after it (what the three output lines print). -/
def main : Except NumError (List ℚ × List ℚ × List ℚ) := do
  let a := Tensor.ctorScalar (⟨[]⟩ : Heap ℚ) (-4)
  let b := Tensor.ctorScalar a.2 2
  let c ← opAdd b.2 a.1 b.1
  -- d = a * b + pow(b, 3)
  let ab ← opMul c.2 a.1 b.1
  let b3 ← autofn.powScalar libm ab.2 b.1 3
  let d ← opAdd b3.2 ab.1 b3.1
  -- c = c + c + 1
  let cc ← opAdd d.2 c.1 c.1
  let one1 := Tensor.ctorScalar cc.2 (1 : ℚ)
  let c ← opAdd one1.2 cc.1 one1.1
  -- c = c + 1 + c + (-a)
  let one2 := Tensor.ctorScalar c.2 (1 : ℚ)
  let c1 ← opAdd one2.2 c.1 one2.1
  let c1c ← opAdd c1.2 c1.1 c.1
  let na ← opNeg c1c.2 a.1
  let c ← opAdd na.2 c1c.1 na.1
  -- d = d + d * 2 + relu(b + a)
  let two := Tensor.ctorScalar c.2 (2 : ℚ)
  let d2 ← opMul two.2 d.1 two.1
  let dd2 ← opAdd d2.2 d.1 d2.1
  let ba ← opAdd dd2.2 b.1 a.1
  let r1 ← autofn.relu ba.2 ba.1
  let d ← opAdd r1.2 dd2.1 r1.1
  -- d = d + 3 * d + relu(b - a)
  let three := Tensor.ctorScalar d.2 (3 : ℚ)
  let d3 ← opMul three.2 three.1 d.1
  let dd3 ← opAdd d3.2 d.1 d3.1
  let bma ← opSub dd3.2 b.1 a.1
  let r2 ← autofn.relu bma.2 bma.1
  let d ← opAdd r2.2 dd3.1 r2.1
  -- e = c - d; f = pow(e, 2); g = f / 2; g = g + 10 / f
  let e ← opSub d.2 c.1 d.1
  let f ← autofn.powScalar libm e.2 e.1 2
  let two2 := Tensor.ctorScalar f.2 (2 : ℚ)
  let g ← opDiv two2.2 f.1 two2.1
  let ten := Tensor.ctorScalar g.2 (10 : ℚ)
  let tf ← opDiv ten.2 ten.1 f.1
  let g ← opAdd tf.2 g.1 tf.1
  let gOut := g.2.buf g.1.arr
  let h ← g.1.backward libm g.2
  .ok (gOut, h.buf a.1.gradArr, h.buf b.1.gradArr)

end grad_demo

/-! ## Specification vocabulary -/

namespace num

/-- `I` is an index into the shape `D`: one coordinate per axis, `0 ≤ I[k] < D[k]`. -/
def ValidIdx : List Int → List Int → Prop
  | [], [] => True
  | d :: ds, x :: xs => (0 ≤ x ∧ x < d) ∧ ValidIdx ds xs
  | _, _ => False

/-- The row-major offset of `I` in the shape `D`: `Σ_k I[k] * Π_{j>k} D[j]`. -/
def rowMajor : List Int → List Int → Int
  | _ :: ds, x :: xs => x * ds.prod + rowMajor ds xs
  | _, _ => 0

/-- The index of shape `D` whose row-major offset is `n`. -/
def unravel : List Int → Int → List Int
  | [], _ => []
  | _ :: ds, n => n / ds.prod :: unravel ds (n % ds.prod)

/-- `t` is a tensor of the heap `h`: rank at least one, positive extents, `sz` the
product of the extents, and both buffers allocated with `sz` elements. -/
def Tensor.WF {α : Type} (h : Heap α) (t : Tensor) : Prop :=
  t.dims ≠ [] ∧ (∀ d ∈ t.dims, 0 < d) ∧ (t.sz : Int) = t.dims.prod ∧
  t.arr < h.bufs.length ∧ t.gradArr < h.bufs.length ∧
  (h.buf t.arr).length = t.sz ∧ (h.buf t.gradArr).length = t.sz

end num

/-! ## Concrete tensors used to instantiate the theorems -/

namespace examples

open num

/-- A heap over `ℚ` holding the data and gradient buffers of the tensors below. -/
def heap : Heap ℚ :=
  ⟨[[1, 2, 3, 4, 5, 6], [0, 0, 0, 0, 0, 0], [10, 20, 30], [0, 0, 0], [7], [0],
    [1, 0, 2, 1, 0, 3], [0, 0, 0, 0, 0, 0], [1, 2, 3, 4], [0, 0, 0, 0],
    [2, 4, 5, 10], [0, 0, 0, 0], [1, 1, 2, 3], [0, 0, 0, 0],
    [1, 2, 3, 4, 5, 6, 7, 8, 9, 10, 11, 12], [0, 0, 0, 0, 0, 0, 0, 0, 0, 0, 0, 0],
    [11, 12, 13, 14], [0, 0, 0, 0]]⟩

/-- The `2 × 3` matrix `[[1, 2, 3], [4, 5, 6]]`. -/
def m23 : Tensor := ⟨[2, 3], .leaf, [], 0, 1, 6⟩

/-- The vector `[10, 20, 30]`. -/
def v3 : Tensor := ⟨[3], .leaf, [], 2, 3, 3⟩

/-- The scalar `7`. -/
def s1 : Tensor := ⟨[1], .leaf, [], 4, 5, 1⟩

/-- The `3 × 2` matrix `[[1, 0], [2, 1], [0, 3]]`. -/
def m32 : Tensor := ⟨[3, 2], .leaf, [], 6, 7, 6⟩

/-- The `2 × 2` matrix `[[1, 2], [3, 4]]`. -/
def m22 : Tensor := ⟨[2, 2], .leaf, [], 8, 9, 4⟩

/-- The `2 × 2` matrix `[[2, 4], [5, 10]]`. -/
def n22 : Tensor := ⟨[2, 2], .leaf, [], 10, 11, 4⟩

/-- The `2 × 2` matrix `[[1, 1], [2, 3]]`. -/
def g22 : Tensor := ⟨[2, 2], .leaf, [], 12, 13, 4⟩

/-- The vector `[11, 12, 13, 14]`. -/
def v4 : Tensor := ⟨[4], .leaf, [], 16, 17, 4⟩

end examples

namespace num

/-- The entry at offset `p` of the row-major product of a `· × k` matrix stored in
`a` with a `k × n` matrix stored in `b`. -/
def matmulData {α : Type} [LinearOrderedField α] (a b : List α) (k n : Nat) (p : Nat) : α :=
  ∑ t in Finset.range k, a.getD (p / n * k + t) 0 * b.getD (t * n + p % n) 0

end num

namespace num

/-- The index into the smaller operand paired with the index `I` of the bigger
one: `J[k] = I[k + d] mod smallDims[k]`. -/
def broadcastIdx (smallDims : List Int) (d : Nat) (I : List Int) : List Int :=
  List.zipWith (fun x s => x % s) (I.drop d) smallDims

/-- The value stored at offset `p` of the result of `applyBinaryWithBroadcast`. -/
def broadcastData {α : Type} [LinearOrderedField α] (fn : α → α → α) (swapped : Bool)
    (bigDims smallDims : List Int) (bigData smallData : List α) (p : Nat) : α :=
  if swapped then
    fn (smallData.getD (rowMajor smallDims (broadcastIdx smallDims
      (bigDims.length - smallDims.length) (unravel bigDims p))).toNat 0) (bigData.getD p 0)
  else
    fn (bigData.getD p 0) (smallData.getD (rowMajor smallDims (broadcastIdx smallDims
      (bigDims.length - smallDims.length) (unravel bigDims p))).toNat 0)

/-- The repetition counters of the aligned axes: `B[k] / S[k]`. -/
def repsOf (B S : List Int) : List Int := List.zipWith (fun b s => b.tdiv s) B S

/-- The repetitions left on the aligned axes when the bigger index is `X`. -/
def leftOf : List Int → List Int → List Int → List Int
  | b :: B, s :: S, x :: X => (b / s - x / s) :: leftOf B S X
  | _, _, _ => []

/-- Axis by axis: `S[k]` is positive and divides `B[k]`, and `0 ≤ X[k] < B[k]`. -/
def AlignedInv : List Int → List Int → List Int → Prop
  | b :: B, s :: S, x :: X => (0 < s ∧ s ∣ b ∧ 0 ≤ x ∧ x < b) ∧ AlignedInv B S X
  | [], [], [] => True
  | _, _, _ => False

end num

namespace num

/-- The test `swapped` of `applyBinaryWithBroadcast`. -/
def swappedOf (a b : Tensor) : Bool :=
  decide (a.sz < b.sz ∨ (a.sz = b.sz ∧ b.dims.length > a.dims.length))

/-- The operand `bigger` of `applyBinaryWithBroadcast`: the one with more
elements, on a tie the one of higher rank, `a` if the ranks also tie. -/
def biggerOf (a b : Tensor) : Tensor := if swappedOf a b then b else a

/-- The operand `smaller` of `applyBinaryWithBroadcast`. -/
def smallerOf (a b : Tensor) : Tensor := if swappedOf a b then a else b

end num

namespace num

/-- The effect of a backward rule on its two operands: the gradient buffers of `a`
and `b` grew by `ca` and `cb` elementwise, and the data buffers are unchanged. -/
def GradAccumulated {α : Type} [LinearOrderedField α] (h h' : Heap α) (a b : Tensor)
    (ca cb : Nat → α) : Prop :=
  (h'.buf a.gradArr).length = a.sz ∧ (h'.buf b.gradArr).length = b.sz ∧
  (∀ p, p < a.sz → (h'.buf a.gradArr).getD p 0 = (h.buf a.gradArr).getD p 0 + ca p) ∧
  (∀ p, p < b.sz → (h'.buf b.gradArr).getD p 0 = (h.buf b.gradArr).getD p 0 + cb p) ∧
  h'.buf a.arr = h.buf a.arr ∧ h'.buf b.arr = h.buf b.arr

/-- The buffers of the operands `a`, `b` and of the incoming gradient `g` are kept
apart: the two gradient buffers that a backward rule writes are distinct from each
other and from every buffer it reads. -/
def Separated (a b g : Tensor) : Prop :=
  a.gradArr ≠ b.gradArr ∧
  a.gradArr ≠ a.arr ∧ a.gradArr ≠ b.arr ∧ a.gradArr ≠ g.arr ∧ a.gradArr ≠ g.gradArr ∧
  b.gradArr ≠ a.arr ∧ b.gradArr ≠ b.arr ∧ b.gradArr ≠ g.arr ∧ b.gradArr ≠ g.gradArr

end num

namespace num

end num

/-! ## The computation graph reachable from a tensor -/

namespace num

namespace Tensor

/-- The tensors reachable from `t` through `gradGraphChildren`, `t` itself first. -/
def nodes : Tensor → List Tensor
  | ⟨dims, backwardFn, children, arr, gradArr, sz⟩ =>
    ⟨dims, backwardFn, children, arr, gradArr, sz⟩ :: nodesList children
where
  /-- The tensors reachable from a list of operands. -/
  nodesList : List Tensor → List Tensor
    | [] => []
    | child :: rest => nodes child ++ nodesList rest

/-- The tensors reachable from `root` form a graph over buffers: two reachable tensors
with the same data buffer have the same operands. -/
def Consistent (root : Tensor) : Prop :=
  ∀ a ∈ root.nodes, ∀ b ∈ root.nodes, a.arr = b.arr →
    a.gradGraphChildren = b.gradGraphChildren

/-- Every element of `s` is preceded in `s` by the buffers of all its operands. -/
def OperandsFirst (s : List Tensor) : Prop :=
  ∀ pre x post, s = pre ++ x :: post →
    ∀ c ∈ x.gradGraphChildren, c.arr ∈ pre.map (fun y => y.arr)

/-- What a run of the sort (of one tensor, or of a list of operands) adds to the
state `(s, v)`: a list `new` of tensors among `N` whose buffers are distinct and were
not in `v`; the visited set grows by exactly these buffers. -/
def Adds (r : List Tensor × List Nat) (s : List Tensor) (v : List Nat)
    (N : List Tensor) : Prop :=
  ∃ new : List Tensor, r.1 = s ++ new ∧ (∀ x ∈ new, x ∈ N ∧ x.arr ∉ v) ∧
    (new.map (fun y => y.arr)).Nodup ∧
    ∀ a, a ∈ r.2 ↔ a ∈ v ∨ a ∈ new.map (fun y => y.arr)

/-- What the sort establishes for the sorted list: with `K` the buffers of the tensors
being sorted further up the call chain, every visited buffer is sorted or in `K`. -/
def Inv (K : Nat → Prop) (st : List Tensor × List Nat) : Prop :=
  OperandsFirst st.1 ∧ ∀ a ∈ st.2, a ∈ st.1.map (fun y => y.arr) ∨ K a

/-- A run of the backward rules over the tensors `l`, from the heap `h` to the heap
`h'`: each tensor of `l` in turn has its rule `backwardFn` invoked once, on its
gradient (`getGradient`) and its operands, in the heap left by the invocation before
it. -/
def RulesRun {α : Type} [LinearOrderedField α] (m : Libm α) :
    List Tensor → Heap α → Heap α → Prop
  | [], h, h' => h' = h
  | t :: rest, h, h' =>
    ∃ h1 : Heap α, BackwardFn.call m t.backwardFn (t.getGradient h).2 (t.getGradient h).1
        t.gradGraphChildren = .ok h1 ∧ RulesRun m rest h1 h'

end Tensor

namespace examples

/-- A leaf `a`. -/
def ga : Tensor := ⟨[1], .leaf, [], 0, 1, 1⟩

/-- The node `b = a * a`: one operand used twice. -/
def gb : Tensor := ⟨[1], .Mul, [ga, ga], 2, 3, 1⟩

/-- The node `c = a + b`. -/
def gc : Tensor := ⟨[1], .Add, [ga, gb], 4, 5, 1⟩

/-- The root `b * c` of a diamond: `a` and `b` are each consumed by several nodes. -/
def diamond : Tensor := ⟨[1], .Mul, [gb, gc], 6, 7, 1⟩

end examples

end num

namespace num

namespace examples

/-- The data of the `3 × 4` example matrix viewed with shape `(12)`. -/
def v12 : Tensor := ⟨[12], .leaf, [], 14, 15, 12⟩

end examples

end num

/-! ## Loops and heap: basic facts -/

namespace num

theorem forLoopFrom_inv {σ : Type} (P : Nat → σ → Prop) (body : Nat → σ → Except NumError σ) :
    ∀ (n i : Nat) (s : σ), P i s →
      (∀ j s, i ≤ j → j < i + n → P j s → ∃ s', body j s = .ok s' ∧ P (j + 1) s') →
      ∃ s', forLoopFrom body n i s = .ok s' ∧ P (i + n) s'
  | 0, i, s, h0, _ => ⟨s, rfl, by simpa using h0⟩
  | n + 1, i, s, h0, hstep => by
    obtain ⟨s1, hb, hp⟩ := hstep i s (le_refl _) (by omega) h0
    obtain ⟨s2, hl, hq⟩ := forLoopFrom_inv P body n (i + 1) s1 hp
      (fun j s hj hlt hP => hstep j s (by omega) (by omega) hP)
    refine ⟨s2, ?_, ?_⟩
    · simp [forLoopFrom, hb, hl, bind, Except.bind]
    · have : i + (n + 1) = i + 1 + n := by omega
      rw [this]; exact hq

/-- Invariant rule for counted loops. -/
theorem forLoop_inv {σ : Type} (P : Nat → σ → Prop) (n : Nat)
    (body : Nat → σ → Except NumError σ) (s : σ) (h0 : P 0 s)
    (hstep : ∀ j s, j < n → P j s → ∃ s', body j s = .ok s' ∧ P (j + 1) s') :
    ∃ s', forLoop n body s = .ok s' ∧ P n s' := by
  have := forLoopFrom_inv P body n 0 s h0 (fun j s _ hlt hP => hstep j s (by omega) hP)
  simpa [forLoop] using this

theorem foldl_mul_eq_mul_prod (l : List Int) (x : Int) :
    l.foldl (fun acc d => acc * d) x = x * l.prod := by
  induction l generalizing x with
  | nil => simp
  | cons d ds ih => simp [List.foldl_cons, ih, mul_assoc]

theorem validIdx_length : ∀ {D I : List Int}, ValidIdx D I → I.length = D.length
  | [], [], _ => rfl
  | _ :: _, _ :: _, h => by simp [validIdx_length h.2]
  | [], _ :: _, h => by simp [ValidIdx] at h
  | _ :: _, [], h => by simp [ValidIdx] at h

theorem validIdx_iff : ∀ {D I : List Int}, ValidIdx D I ↔
    (I.length = D.length ∧ ∀ k < D.length, 0 ≤ I.getD k 0 ∧ I.getD k 0 < D.getD k 0)
  | [], [] => by simp [ValidIdx]
  | [], _ :: _ => by simp [ValidIdx]
  | _ :: _, [] => by simp [ValidIdx]
  | d :: ds, x :: xs => by
    simp only [ValidIdx, validIdx_iff (D := ds) (I := xs), List.length_cons]
    constructor
    · rintro ⟨hx, hl, hk⟩
      refine ⟨by omega, ?_⟩
      intro k hk'
      cases k with
      | zero => simpa using hx
      | succ k => simpa using hk k (by omega)
    · rintro ⟨hl, hk⟩
      refine ⟨by simpa using hk 0 (by omega), by omega, ?_⟩
      intro k hk'
      simpa using hk (k + 1) (by omega)

theorem validIdx_pos : ∀ {D I : List Int}, ValidIdx D I → ∀ d ∈ D, 0 < d
  | [], [], _ => by simp
  | d :: ds, x :: xs, h => by
    intro e he
    rcases List.mem_cons.1 he with rfl | he
    · have := h.1; omega
    · exact validIdx_pos h.2 e he
  | [], _ :: _, h => by simp [ValidIdx] at h
  | _ :: _, [], h => by simp [ValidIdx] at h

theorem prod_pos_of_pos : ∀ {D : List Int}, (∀ d ∈ D, 0 < d) → 0 < D.prod
  | [], _ => by simp
  | d :: ds, h => by
    have h1 : 0 < d := h d (by simp)
    have h2 : 0 < ds.prod := prod_pos_of_pos (fun e he => h e (by simp [he]))
    simpa using mul_pos h1 h2

theorem rowMajor_bounds : ∀ {D I : List Int}, ValidIdx D I →
    0 ≤ rowMajor D I ∧ rowMajor D I < D.prod
  | [], [], _ => by simp [rowMajor]
  | d :: ds, x :: xs, h => by
    obtain ⟨h0, h1⟩ := rowMajor_bounds h.2
    obtain ⟨⟨hx0, hxd⟩, _⟩ := h
    have hP : 0 < ds.prod := by omega
    simp only [rowMajor, List.prod_cons]
    constructor
    · have := mul_nonneg hx0 (le_of_lt hP); omega
    · have : (x + 1) * ds.prod ≤ d * ds.prod :=
        mul_le_mul_of_nonneg_right (by omega) (le_of_lt hP)
      have e : (x + 1) * ds.prod = x * ds.prod + ds.prod := by ring
      omega
  | [], _ :: _, h => by simp [ValidIdx] at h
  | _ :: _, [], h => by simp [ValidIdx] at h

theorem rowMajor_inj : ∀ {D I J : List Int}, ValidIdx D I → ValidIdx D J →
    rowMajor D I = rowMajor D J → I = J
  | [], [], [], _, _, _ => rfl
  | d :: ds, x :: xs, y :: ys, hI, hJ, e => by
    obtain ⟨a0, a1⟩ := rowMajor_bounds hI.2
    obtain ⟨b0, b1⟩ := rowMajor_bounds hJ.2
    simp only [rowMajor] at e
    have hP : 0 < ds.prod := by omega
    have hx : x = y := by
      have e1 : (x * ds.prod + rowMajor ds xs) / ds.prod = x := by
        rw [add_comm, Int.add_mul_ediv_right _ _ (ne_of_gt hP), Int.ediv_eq_zero_of_lt a0 a1]; simp
      have e2 : (y * ds.prod + rowMajor ds ys) / ds.prod = y := by
        rw [add_comm, Int.add_mul_ediv_right _ _ (ne_of_gt hP), Int.ediv_eq_zero_of_lt b0 b1]; simp
      rw [← e1, ← e2, e]
    subst hx
    have : rowMajor ds xs = rowMajor ds ys := by omega
    rw [rowMajor_inj hI.2 hJ.2 this]
  | [], _ :: _, _, h, _, _ => by simp [ValidIdx] at h
  | _ :: _, [], _, h, _, _ => by simp [ValidIdx] at h
  | [], _, _ :: _, _, h, _ => by simp [ValidIdx] at h
  | _ :: _, _, [], _, h, _ => by simp [ValidIdx] at h

theorem unravel_spec : ∀ {D : List Int} {n : Int}, (∀ d ∈ D, 0 < d) → 0 ≤ n → n < D.prod →
    ValidIdx D (unravel D n) ∧ rowMajor D (unravel D n) = n
  | [], n, _, h0, h1 => by
    simp at h1
    simp [unravel, ValidIdx, rowMajor]; omega
  | d :: ds, n, hD, h0, h1 => by
    have hP : 0 < ds.prod := prod_pos_of_pos (fun e he => hD e (by simp [he]))
    have hd : 0 < d := hD d (by simp)
    obtain ⟨v, r⟩ := unravel_spec (D := ds) (n := n % ds.prod)
      (fun e he => hD e (by simp [he])) (Int.emod_nonneg _ (ne_of_gt hP)) (Int.emod_lt_of_pos _ hP)
    simp only [List.prod_cons] at h1
    refine ⟨⟨⟨Int.ediv_nonneg h0 (le_of_lt hP), ?_⟩, v⟩, ?_⟩
    · exact Int.ediv_lt_of_lt_mul hP h1
    · simp only [unravel, rowMajor, r]
      exact Int.ediv_add_emod' n ds.prod

theorem rowMajor_eq_sum : ∀ {D I : List Int}, I.length = D.length →
    rowMajor D I = ∑ k in Finset.range D.length, I.getD k 0 * (D.drop (k + 1)).prod
  | [], [], _ => by simp [rowMajor]
  | d :: ds, x :: xs, h => by
    have ih := rowMajor_eq_sum (D := ds) (I := xs) (by simpa using h)
    simp only [rowMajor, List.length_cons, Finset.sum_range_succ', ih, List.getD_cons_succ,
      List.drop_succ_cons, List.getD_cons_zero, List.drop_zero]
    rw [add_comm]
  | [], _ :: _, h => by simp at h
  | _ :: _, [], h => by simp at h

end num

namespace num

section HeapFacts

variable {α : Type}

theorem Heap.read_eq_ok {h : Heap α} {p : Nat} {n : Nat} {v : α}
    (hv : (h.buf p)[n]? = some v) : h.read p (n : Int) = .ok v := by
  simp [Heap.read, hv]

theorem Heap.read_of_lt {h : Heap α} {p : Nat} {n : Nat} (hn : n < (h.buf p).length) :
    h.read p (n : Int) = .ok ((h.buf p).get ⟨n, hn⟩) := by
  apply Heap.read_eq_ok
  simp [List.getElem?_eq_getElem hn]

theorem Heap.lt_of_buf_ne_nil {h : Heap α} {p : Nat} (hp : 0 < (h.buf p).length) :
    p < h.bufs.length := by
  by_contra hc
  have : h.buf p = [] := by
    simp [Heap.buf, List.getD_eq_getElem?_getD, List.getElem?_eq_none (not_lt.1 hc)]
  simp [this] at hp

theorem Heap.write_ok {h : Heap α} {p : Nat} {n : Nat} (v : α) (hn : n < (h.buf p).length) :
    h.write p (n : Int) v = .ok ⟨h.bufs.set p ((h.buf p).set n v)⟩ := by
  simp [Heap.write, hn]

theorem Heap.buf_set_self {h : Heap α} {p : Nat} (b : List α) (hp : p < h.bufs.length) :
    (Heap.mk (h.bufs.set p b)).buf p = b := by
  simp [Heap.buf, List.getD_eq_getElem?_getD, List.getElem?_set_self hp]

theorem Heap.buf_set_other {h : Heap α} {p q : Nat} (b : List α) (hpq : p ≠ q) :
    (Heap.mk (h.bufs.set p b)).buf q = h.buf q := by
  simp [Heap.buf, List.getD_eq_getElem?_getD, List.getElem?_set_ne hpq]

theorem Heap.buf_alloc_old {h : Heap α} {p : Nat} (b : List α) (hp : p < h.bufs.length) :
    (h.alloc b).2.buf p = h.buf p := by
  simp [Heap.buf, Heap.alloc, List.getD_eq_getElem?_getD, List.getElem?_append_left hp]

theorem Heap.buf_alloc_new {h : Heap α} (b : List α) :
    (h.alloc b).2.buf h.bufs.length = b := by
  simp [Heap.buf, Heap.alloc, List.getD_eq_getElem?_getD]

end HeapFacts

theorem getLinIdxLoop_cons (d x : Int) (ds xs : List Int) :
    ∀ (c : Nat) (acc : Int),
      Tensor.getLinIdxLoop (d :: ds) (x :: xs) (c + 1) acc =
        (Tensor.getLinIdxLoop ds xs c acc).bind (fun l =>
          if (if x ≥ 0 then x else d + x) ≥ d then .error .IndexError
          else .ok (l + x * ds.prod))
  | 0, acc => by
    simp [Tensor.getLinIdxLoop, Except.bind, foldl_mul_eq_mul_prod]
  | c + 1, acc => by
    rw [Tensor.getLinIdxLoop]
    conv_rhs => rw [Tensor.getLinIdxLoop]
    simp only [List.getD_cons_succ, List.drop_succ_cons]
    by_cases hc : (if xs.getD c 0 ≥ 0 then xs.getD c 0 else ds.getD c 0 + xs.getD c 0)
        ≥ ds.getD c 0
    · simp only [hc, if_true]; rfl
    · simp only [hc, if_false]; exact getLinIdxLoop_cons d x ds xs c _

theorem getLinIdxLoop_valid : ∀ {D I : List Int}, ValidIdx D I → ∀ acc : Int,
    Tensor.getLinIdxLoop D I I.length acc = .ok (acc + rowMajor D I)
  | [], [], _, acc => by simp [Tensor.getLinIdxLoop, rowMajor]
  | d :: ds, x :: xs, h, acc => by
    obtain ⟨⟨hx0, hxd⟩, hv⟩ := h
    rw [List.length_cons, getLinIdxLoop_cons, getLinIdxLoop_valid hv]
    have h1 : ¬ (d ≤ x) := by omega
    simp [Except.bind, hx0, h1, rowMajor]
    ring
  | [], _ :: _, h, _ => by simp [ValidIdx] at h
  | _ :: _, [], h, _ => by simp [ValidIdx] at h

theorem getLinIdx_valid {t : Tensor} {I : IntArrRef} (h : ValidIdx t.dims I) :
    t.getLinIdx I = .ok (rowMajor t.dims I) := by
  unfold Tensor.getLinIdx
  rw [if_neg (by simp [validIdx_length h]), getLinIdxLoop_valid h]
  simp

end num

namespace num

theorem rowMajor_toNat_lt {D I : List Int} {n : Nat} (hI : ValidIdx D I)
    (hn : (n : Int) = D.prod) : (rowMajor D I).toNat < n := by
  have := rowMajor_bounds hI
  omega

theorem rowMajor_cast {D I : List Int} (hI : ValidIdx D I) :
    (((rowMajor D I).toNat : Nat) : Int) = rowMajor D I := by
  have := rowMajor_bounds hI
  omega

theorem getSingle_valid {α : Type} [LinearOrderedField α] {h : Heap α} {t : Tensor}
    {I : IntArrRef} (hI : ValidIdx t.dims I) :
    t.getSingle h I = h.read t.arr ((rowMajor t.dims I).toNat : Int) := by
  simp [Tensor.getSingle, getLinIdx_valid hI, bind, Except.bind, rowMajor_cast hI]

theorem setSingle_valid {α : Type} [LinearOrderedField α] {h : Heap α} {t : Tensor}
    {I : IntArrRef} (hI : ValidIdx t.dims I) (v : α) :
    t.setSingle h v I = h.write t.arr ((rowMajor t.dims I).toNat : Int) v := by
  simp [Tensor.setSingle, getLinIdx_valid hI, bind, Except.bind, rowMajor_cast hI]

/-- C8. Row-major linear indexing: for an index `I` with `0 ≤ I[k] < D[k]` on every
axis, `getLinIdx` returns `Σ_k I[k] * Π_{j>k} D[j]`, which lies in `[0, Π D)`; the
map is injective on such indices and reaches every offset of `[0, Π D)`; and
`setSingle(v, I)` followed by `getSingle(J)` returns `v` for `J = I` and the
previous value for every other index `J`. -/
theorem getLinIdx_rowMajor_bijection {α : Type} [LinearOrderedField α] (h : Heap α)
    (t : Tensor) (hbuf : ((h.buf t.arr).length : Int) = t.dims.prod)
    (I : IntArrRef) (hlen : I.length = t.dims.length)
    (hI : ∀ k < t.dims.length, 0 ≤ I.getD k 0 ∧ I.getD k 0 < t.dims.getD k 0) :
    t.getLinIdx I
        = .ok (∑ k in Finset.range t.dims.length, I.getD k 0 * (t.dims.drop (k + 1)).prod)
    ∧ 0 ≤ ∑ k in Finset.range t.dims.length, I.getD k 0 * (t.dims.drop (k + 1)).prod
    ∧ ∑ k in Finset.range t.dims.length, I.getD k 0 * (t.dims.drop (k + 1)).prod < t.dims.prod
    ∧ (∀ J : IntArrRef, J.length = t.dims.length →
        (∀ k < t.dims.length, 0 ≤ J.getD k 0 ∧ J.getD k 0 < t.dims.getD k 0) →
        t.getLinIdx J = t.getLinIdx I → J = I)
    ∧ (∀ n : Int, 0 ≤ n → n < t.dims.prod →
        ∃ J : IntArrRef, J.length = t.dims.length ∧
          (∀ k < t.dims.length, 0 ≤ J.getD k 0 ∧ J.getD k 0 < t.dims.getD k 0) ∧
          t.getLinIdx J = .ok n)
    ∧ (∀ v : α, ∃ h' : Heap α, t.setSingle h v I = .ok h' ∧ t.getSingle h' I = .ok v ∧
        ∀ J : IntArrRef, J.length = t.dims.length →
          (∀ k < t.dims.length, 0 ≤ J.getD k 0 ∧ J.getD k 0 < t.dims.getD k 0) →
          J ≠ I → t.getSingle h' J = t.getSingle h J) := by
  have hV : ValidIdx t.dims I := validIdx_iff.2 ⟨hlen, hI⟩
  have hb := rowMajor_bounds hV
  rw [← rowMajor_eq_sum hlen]
  refine ⟨getLinIdx_valid hV, hb.1, hb.2, ?_, ?_, ?_⟩
  · intro J hJl hJ e
    have hVJ : ValidIdx t.dims J := validIdx_iff.2 ⟨hJl, hJ⟩
    rw [getLinIdx_valid hVJ, getLinIdx_valid hV] at e
    exact rowMajor_inj hVJ hV (by injection e)
  · intro n h0 h1
    obtain ⟨v, r⟩ := unravel_spec (validIdx_pos hV) h0 h1
    have := validIdx_iff.1 v
    exact ⟨unravel t.dims n, this.1, this.2, by rw [getLinIdx_valid v, r]⟩
  · intro v
    have hlt : (rowMajor t.dims I).toNat < (h.buf t.arr).length := rowMajor_toNat_lt hV hbuf
    have hp : t.arr < h.bufs.length := Heap.lt_of_buf_ne_nil (by omega)
    refine ⟨⟨h.bufs.set t.arr ((h.buf t.arr).set (rowMajor t.dims I).toNat v)⟩, ?_, ?_, ?_⟩
    · rw [setSingle_valid hV, Heap.write_ok v hlt]
    · rw [getSingle_valid hV]
      apply Heap.read_eq_ok
      rw [Heap.buf_set_self _ hp, List.getElem?_set_self hlt]
    · intro J hJl hJ hne
      have hVJ : ValidIdx t.dims J := validIdx_iff.2 ⟨hJl, hJ⟩
      have hbJ := rowMajor_bounds hVJ
      have hneq : (rowMajor t.dims I).toNat ≠ (rowMajor t.dims J).toNat := by
        intro e
        apply hne
        apply rowMajor_inj hVJ hV
        omega
      rw [getSingle_valid hVJ, getSingle_valid hVJ]
      simp only [Heap.read, Heap.buf_set_self _ hp, Int.toNat_ofNat, List.getElem?_set_ne hneq]

/-- Instance of C8 on the `2 × 3` example matrix at the index `(1, 2)`. -/
theorem getLinIdx_rowMajor_bijection_witness :
    examples.m23.getLinIdx [1, 2] = .ok 5 := by
  have h := (getLinIdx_rowMajor_bijection examples.heap examples.m23 (by decide) [1, 2]
    (by decide) (by decide)).1
  simpa [examples.m23, Finset.sum_range_succ] using h

/-- C9 (the code departs from the claim). On the `2 × 3` matrix
`[[1, 2, 3], [4, 5, 6]]` the index `(1, -1)` passes the bounds check of `getLinIdx`,
but the offset is computed from the raw coordinate `-1`: the offset is `2` and
`getSingle` returns `3`, the element at `(0, 2)`, whereas the normalised index
`(1, 2)` has offset `5` and holds `6`. -/
theorem getSingle_negative_index_uses_raw_coordinate :
    examples.m23.getLinIdx [1, -1] = .ok 2 ∧
    examples.m23.getSingle examples.heap [1, -1] = .ok (3 : ℚ) ∧
    examples.m23.getLinIdx [1, 2] = .ok 5 ∧
    examples.m23.getSingle examples.heap [1, 2] = .ok (6 : ℚ) := by
  decide!

end num

namespace num

/-! ### The odometer `idxIncr` -/

theorem idxIncrLoop_cons (d x : Int) (ds : List Int) : ∀ (c : Nat) (xs : List Int),
    Tensor.idxIncrLoop (d :: ds) (c + 1) (x :: xs) =
      if (Tensor.idxIncrLoop ds c xs).2 = -1 then
        (if x + 1 ≥ d then (0 :: (Tensor.idxIncrLoop ds c xs).1, -1)
         else ((x + 1) :: (Tensor.idxIncrLoop ds c xs).1, 0))
      else (x :: (Tensor.idxIncrLoop ds c xs).1, (Tensor.idxIncrLoop ds c xs).2 + 1)
  | 0, xs => by
    simp [Tensor.idxIncrLoop]
  | c + 1, xs => by
    rw [Tensor.idxIncrLoop]
    conv_rhs => rw [Tensor.idxIncrLoop]
    simp only [List.getD_cons_succ, List.set_cons_succ]
    by_cases hc : ((xs.set c (xs.getD c 0 + 1)).getD c 0) ≥ ds.getD c 0
    · simp only [hc, if_true]
      exact idxIncrLoop_cons d x ds c _
    · simp only [hc, if_false]
      have : ((c : Int) = -1) = False := by simp
      simp only [this, if_false]
      push_cast
      rfl

theorem idxIncrLoop_spec : ∀ {D I : List Int}, ValidIdx D I →
    (rowMajor D I + 1 < D.prod →
      ValidIdx D (Tensor.idxIncrLoop D I.length I).1 ∧
      rowMajor D (Tensor.idxIncrLoop D I.length I).1 = rowMajor D I + 1 ∧
      0 ≤ (Tensor.idxIncrLoop D I.length I).2) ∧
    (¬ rowMajor D I + 1 < D.prod →
      (Tensor.idxIncrLoop D I.length I).1 = List.replicate D.length 0 ∧
      (Tensor.idxIncrLoop D I.length I).2 = -1)
  | [], [], _ => by simp [Tensor.idxIncrLoop, rowMajor, ValidIdx]
  | d :: ds, x :: xs, h => by
    obtain ⟨⟨hx0, hxd⟩, hv⟩ := h
    obtain ⟨ih1, ih2⟩ := idxIncrLoop_spec hv
    obtain ⟨b0, b1⟩ := rowMajor_bounds hv
    have hP : 0 < ds.prod := by omega
    rw [List.length_cons, idxIncrLoop_cons]
    simp only [rowMajor, List.prod_cons, List.length_cons]
    have hmul : (x + 1) * ds.prod ≤ d * ds.prod :=
      mul_le_mul_of_nonneg_right (by omega) (le_of_lt hP)
    have hexp : (x + 1) * ds.prod = x * ds.prod + ds.prod := by ring
    by_cases hlt : rowMajor ds xs + 1 < ds.prod
    · obtain ⟨v', r', e'⟩ := ih1 hlt
      have hne : ¬ (Tensor.idxIncrLoop ds xs.length xs).2 = -1 := by omega
      simp only [hne, if_false]
      refine ⟨fun _ => ⟨⟨⟨hx0, hxd⟩, v'⟩, by simp only [rowMajor, r']; ring, by omega⟩, ?_⟩
      intro hcon
      exfalso; apply hcon; omega
    · obtain ⟨z', e'⟩ := ih2 hlt
      have heq : rowMajor ds xs + 1 = ds.prod := by omega
      simp only [e', if_true]
      by_cases hx : x + 1 ≥ d
      · have hxe : x + 1 = d := by omega
        simp only [hx, if_true]
        refine ⟨fun hcon => ?_, fun _ => by simp [z', List.replicate_succ]⟩
        exfalso
        rw [← hxe] at hcon
        omega
      · simp only [hx, if_false]
        refine ⟨fun _ => ⟨⟨⟨by omega, by omega⟩, ?_⟩, ?_, le_refl _⟩, fun hcon => ?_⟩
        · rw [z']
          clear * - hv
          induction ds generalizing xs with
          | nil => cases xs <;> simp_all [ValidIdx]
          | cons e es ih =>
            cases xs with
            | nil => simp [ValidIdx] at hv
            | cons y ys =>
              have hp := hv.1
              exact ⟨⟨le_refl _, by omega⟩, ih ys hv.2⟩
        · rw [z']
          have hz : ∀ (E : List Int), rowMajor E (List.replicate E.length 0) = 0 := by
            intro E
            induction E with
            | nil => simp [rowMajor]
            | cons e es ih => simp [rowMajor, List.replicate_succ, ih]
          simp only [rowMajor, hz]
          rw [hexp]; omega
        · exfalso; apply hcon
          have : (x + 2) * ds.prod ≤ d * ds.prod :=
            mul_le_mul_of_nonneg_right (by omega) (le_of_lt hP)
          have e2 : (x + 2) * ds.prod = x * ds.prod + ds.prod + ds.prod := by ring
          omega
  | [], _ :: _, h => by simp [ValidIdx] at h
  | _ :: _, [], h => by simp [ValidIdx] at h

theorem validIdx_zeros : ∀ {D : List Int}, (∀ d ∈ D, 0 < d) →
    ValidIdx D (List.replicate D.length 0)
  | [], _ => by simp [ValidIdx]
  | d :: ds, h => by
    simp only [List.length_cons, List.replicate_succ, ValidIdx]
    exact ⟨⟨le_refl _, h d (by simp)⟩, validIdx_zeros (fun e he => h e (by simp [he]))⟩

theorem rowMajor_zeros : ∀ (D : List Int), rowMajor D (List.replicate D.length 0) = 0
  | [] => by simp [rowMajor]
  | d :: ds => by simp [rowMajor, List.replicate_succ, rowMajor_zeros ds]

theorem unravel_zero {D : List Int} (hD : ∀ d ∈ D, 0 < d) :
    unravel D 0 = List.replicate D.length 0 := by
  have h := unravel_spec hD (le_refl 0) (prod_pos_of_pos hD)
  exact rowMajor_inj h.1 (validIdx_zeros hD) (by rw [h.2, rowMajor_zeros])

theorem unravel_length {D : List Int} {n : Int} : (unravel D n).length = D.length := by
  induction D generalizing n with
  | nil => simp [unravel]
  | cons d ds ih => simp [unravel, ih]

/-- One step of the odometer from the index of offset `n`. -/
theorem idxIncrLoop_unravel {D : List Int} (hD : ∀ d ∈ D, 0 < d) {n : Nat}
    (hn : (n : Int) < D.prod) :
    ((n : Int) + 1 < D.prod →
      (Tensor.idxIncrLoop D D.length (unravel D n)).1 = unravel D ((n : Int) + 1) ∧
      0 ≤ (Tensor.idxIncrLoop D D.length (unravel D n)).2) ∧
    (¬ (n : Int) + 1 < D.prod →
      (Tensor.idxIncrLoop D D.length (unravel D n)).1 = List.replicate D.length 0 ∧
      (Tensor.idxIncrLoop D D.length (unravel D n)).2 = -1) := by
  obtain ⟨v, r⟩ := unravel_spec hD (Int.natCast_nonneg n) hn
  have hs := idxIncrLoop_spec v
  rw [unravel_length, r] at hs
  refine ⟨fun hlt => ?_, hs.2⟩
  obtain ⟨v', r', e'⟩ := hs.1 hlt
  obtain ⟨v2, r2⟩ := unravel_spec hD (by omega : (0 : Int) ≤ n + 1) hlt
  exact ⟨rowMajor_inj v' v2 (by rw [r', r2]), e'⟩

end num

namespace num

section HeapAppend

variable {α : Type}

theorem set_append_length {β : Type} (l : List β) (a a' : β) (r : List β) :
    (l ++ a :: r).set l.length a' = l ++ a' :: r := by
  induction l with
  | nil => simp
  | cons x xs ih => simp [ih]

theorem Heap.buf_append_left {l r : List (List α)} {p : Nat} (hp : p < l.length) :
    (Heap.mk (l ++ r)).buf p = (Heap.mk l).buf p := by
  simp [Heap.buf, List.getD_eq_getElem?_getD, List.getElem?_append_left hp]

theorem Heap.buf_append_length (l : List (List α)) (b : List α) (r : List (List α)) :
    (Heap.mk (l ++ b :: r)).buf l.length = b := by
  simp [Heap.buf, List.getD_eq_getElem?_getD, List.getElem?_append_right (le_refl _)]

theorem Heap.buf_append_length_succ (l : List (List α)) (a b : List α) (r : List (List α)) :
    (Heap.mk (l ++ a :: b :: r)).buf (l.length + 1) = b := by
  have : l ++ a :: b :: r = (l ++ [a]) ++ b :: r := by simp
  rw [this]
  have h2 := Heap.buf_append_length (l ++ [a]) b r
  simpa using h2

theorem Heap.write_append (l : List (List α)) {data : List α} (r : List (List α)) {n : Nat}
    (v : α) (hn : n < data.length) :
    (Heap.mk (l ++ data :: r)).write l.length (n : Int) v = .ok ⟨l ++ data.set n v :: r⟩ := by
  have hb := Heap.buf_append_length l data r
  rw [Heap.write_ok v (by rw [hb]; exact hn), hb, set_append_length]

theorem Heap.read_append_left {l r : List (List α)} {p : Nat} (i : Int) (hp : p < l.length) :
    (Heap.mk (l ++ r)).read p i = (Heap.mk l).read p i := by
  simp [Heap.read, Heap.buf_append_left hp]

end HeapAppend

section Ctor

variable {α : Type} [LinearOrderedField α]

theorem ctorLoop_ok (f : IntArrRef → α) (bufs tail : List (List α)) (t : Tensor)
    (hD : ∀ d ∈ t.dims, 0 < d) (harr : t.arr = bufs.length) :
    ∀ (k n : Nat) (data : List α) (fuel : Nat), (n : Int) + k + 1 = t.dims.prod →
      (data.length : Int) = t.dims.prod → k + 1 ≤ fuel →
      ∃ data' : List α,
        Tensor.ctorLoop f t fuel ⟨bufs ++ data :: tail⟩ (unravel t.dims n)
          = .ok ⟨bufs ++ data' :: tail⟩ ∧
        data'.length = data.length ∧ (∀ m, m < n → data'[m]? = data[m]?) ∧
        (∀ m, n ≤ m → m < data.length → data'[m]? = some (f (unravel t.dims m)))
  | k, n, data, 0, _, _, hf => by omega
  | k, n, data, fuel + 1, hk, hlen, hf => by
    have hn : (n : Int) < t.dims.prod := by omega
    obtain ⟨v, r⟩ := unravel_spec hD (Int.natCast_nonneg n) hn
    have hnl : n < data.length := by omega
    have hw : t.setSingle ⟨bufs ++ data :: tail⟩ (f (unravel t.dims n)) (unravel t.dims n)
        = .ok ⟨bufs ++ data.set n (f (unravel t.dims n)) :: tail⟩ := by
      rw [setSingle_valid v, r, harr]
      simpa using Heap.write_append bufs tail (f (unravel t.dims n)) hnl
    obtain ⟨o1, o2⟩ := idxIncrLoop_unravel hD hn
    rw [Tensor.ctorLoop]
    simp only [hw, bind, Except.bind, Tensor.idxIncr, unravel_length]
    cases k with
    | zero =>
      have hnot : ¬ (n : Int) + 1 < t.dims.prod := by omega
      obtain ⟨_, e2⟩ := o2 hnot
      rw [e2]
      simp only [sub_neg_eq_add, sub_add_cancel, lt_self_iff_false, if_false]
      refine ⟨_, rfl, by simp, ?_, ?_⟩
      · intro m hm
        rw [List.getElem?_set_ne (by omega)]
      · intro m hm1 hm2
        have : m = n := by omega
        subst this
        rw [List.getElem?_set_self hnl]
    | succ k =>
      have hlt : (n : Int) + 1 < t.dims.prod := by omega
      obtain ⟨e1, e2⟩ := o1 hlt
      have hc : ((t.dims.length : Int) - 1 - (Tensor.idxIncrLoop t.dims t.dims.length
          (unravel t.dims n)).2 < t.dims.length) := by omega
      simp only [hc, if_true, e1]
      obtain ⟨data', h1, h2, h3, h4⟩ := ctorLoop_ok f bufs tail t hD harr k (n + 1)
        (data.set n (f (unravel t.dims n))) fuel (by push_cast; omega) (by simpa using hlen)
        (by omega)
      refine ⟨data', by simpa using h1, by simpa using h2, ?_, ?_⟩
      · intro m hm
        rw [h3 m (by omega), List.getElem?_set_ne (by omega)]
      · intro m hm1 hm2
        rcases Nat.eq_or_lt_of_le hm1 with rfl | hlt'
        · rw [h3 _ (by omega), List.getElem?_set_self hnl]
        · exact h4 m (by omega) (by simpa using hm2)

/-- The constructor on a shape of positive extents: both buffers are appended to
the heap, and the data buffer holds `fillFn` of the index of every offset. -/
theorem ctor_ok (h : Heap α) (dims : IntArrRef) (hne : dims ≠ []) (hD : ∀ d ∈ dims, 0 < d)
    (f : IntArrRef → α) :
    ∃ data : List α,
      Tensor.ctor h dims f
        = .ok (⟨dims, .leaf, [], h.bufs.length, h.bufs.length + 1, dims.prod.toNat⟩,
            ⟨h.bufs ++ [data, List.replicate dims.prod.toNat 0]⟩) ∧
      data.length = dims.prod.toNat ∧
      ∀ m, m < dims.prod.toNat → data[m]? = some (f (unravel dims m)) := by
  have hP := prod_pos_of_pos hD
  have hl : dims.length ≠ 0 := by
    intro e; exact hne (List.length_eq_zero.1 e)
  have hany : (dims.any fun dim => decide (dim < 0)) = false := by
    rw [List.any_eq_false]
    intro d hd
    have := hD d hd
    simp; omega
  obtain ⟨k, hk⟩ : ∃ k : Nat, dims.prod.toNat = k + 1 := ⟨dims.prod.toNat - 1, by omega⟩
  obtain ⟨data', h1, h2, _, h4⟩ := ctorLoop_ok f h.bufs [List.replicate dims.prod.toNat (0 : α)]
    ⟨dims, .leaf, [], h.bufs.length, h.bufs.length + 1, dims.prod.toNat⟩ hD rfl k 0
    (List.replicate dims.prod.toNat (0 : α)) (dims.prod.toNat + 1)
    (by simp only [Nat.cast_zero, zero_add]; omega) (by simp; omega) (by omega)
  refine ⟨data', ?_, by simpa using h2, ?_⟩
  · have hz : unravel dims ((0 : Nat) : Int) = IntArrRef.fill dims.length 0 := by
      simpa [IntArrRef.fill] using unravel_zero hD
    rw [hz] at h1
    simp only [Tensor.ctor, hl, if_false, hany, foldl_mul_eq_mul_prod, one_mul, Heap.alloc,
      List.length_append, List.length_singleton, List.append_assoc, List.singleton_append]
    simp only [Bool.false_eq_true, if_false]
    rw [h1]
    rfl
  · intro m hm
    exact h4 m (Nat.zero_le _) (by simpa using hm)

theorem zeros_ok (h : Heap α) (dims : IntArrRef) (hne : dims ≠ []) (hD : ∀ d ∈ dims, 0 < d) :
    zeros h dims
      = .ok (⟨dims, .leaf, [], h.bufs.length, h.bufs.length + 1, dims.prod.toNat⟩,
          ⟨h.bufs ++ [List.replicate dims.prod.toNat (0 : α),
            List.replicate dims.prod.toNat 0]⟩) := by
  obtain ⟨data, h1, h2, h3⟩ := ctor_ok h dims hne hD (fun _ => (0 : α))
  have : data = List.replicate dims.prod.toNat (0 : α) := by
    apply List.ext_getElem?
    intro m
    by_cases hm : m < dims.prod.toNat
    · rw [h3 m hm, List.getElem?_replicate]; simp [hm]
    · rw [List.getElem?_eq_none (by omega), List.getElem?_eq_none (by simp; omega)]
  rw [zeros, h1, this]

end Ctor

end num

namespace num

theorem forLoop_inv' {σ : Type} (P : Nat → σ → Prop) (Q : σ → Prop) (n : Nat)
    (body : Nat → σ → Except NumError σ) (s : σ) (h0 : P 0 s)
    (hstep : ∀ j s, j < n → P j s → ∃ s', body j s = .ok s' ∧ P (j + 1) s')
    (hfin : ∀ s, P n s → Q s) :
    ∃ s', forLoop n body s = .ok s' ∧ Q s' := by
  obtain ⟨s', h1, h2⟩ := forLoop_inv P n body s h0 hstep
  exact ⟨s', h1, hfin s' h2⟩

theorem bind_ok {ε β γ : Type} (a : β) (f : β → Except ε γ) :
    (Except.ok a >>= f) = f a := rfl

theorem bind_error {ε β γ : Type} (e : ε) (f : β → Except ε γ) :
    ((Except.error e : Except ε β) >>= f) = Except.error e := rfl

theorem list_eq_map_range {β : Type} {l : List β} {n : Nat} {f : Nat → β}
    (hl : l.length = n) (hf : ∀ p, p < n → l[p]? = some (f p)) :
    l = (List.range n).map f := by
  apply List.ext_getElem?
  intro p
  by_cases hp : p < n
  · rw [hf p hp, List.getElem?_map, List.getElem?_range hp]; rfl
  · rw [List.getElem?_eq_none (by omega), List.getElem?_eq_none (by simp; omega)]

theorem getD_eq_of_getElem? {β : Type} {l : List β} {p : Nat} {v d : β}
    (h : l[p]? = some v) : l.getD p d = v := by
  simp [List.getD_eq_getElem?_getD, h]

theorem getElem?_eq_getD {β : Type} {l : List β} {p : Nat} (d : β) (h : p < l.length) :
    l[p]? = some (l.getD p d) := by
  simp [List.getD_eq_getElem?_getD, List.getElem?_eq_getElem h]

section Rank2

variable {α : Type} [LinearOrderedField α]

theorem validIdx2 {d0 d1 i j : Nat} (hi : i < d0) (hj : j < d1) :
    ValidIdx [(d0 : Int), (d1 : Int)] [(i : Int), (j : Int)] := by
  simp [ValidIdx]; omega

theorem rowMajor2 (d0 d1 i j : Nat) :
    (rowMajor [(d0 : Int), (d1 : Int)] [(i : Int), (j : Int)]).toNat = i * d1 + j := by
  simp only [rowMajor, List.prod_cons, List.prod_nil, mul_one, add_zero]
  have : (i : Int) * d1 + j = ((i * d1 + j : Nat) : Int) := by push_cast; ring
  rw [this, Int.toNat_ofNat]

theorem mul_add_lt {d0 d1 i j : Nat} (hi : i < d0) (hj : j < d1) : i * d1 + j < d0 * d1 := by
  have : (i + 1) * d1 ≤ d0 * d1 := Nat.mul_le_mul_right _ hi
  have e : (i + 1) * d1 = i * d1 + d1 := by ring
  omega

theorem getSingle2 {h : Heap α} {t : Tensor} {d0 d1 i j : Nat}
    (hd : t.dims = [(d0 : Int), (d1 : Int)]) (hlen : (h.buf t.arr).length = d0 * d1)
    (hi : i < d0) (hj : j < d1) :
    t.getSingle h [(i : Int), (j : Int)] = .ok ((h.buf t.arr).getD (i * d1 + j) 0) := by
  have hv : ValidIdx t.dims [(i : Int), (j : Int)] := by rw [hd]; exact validIdx2 hi hj
  rw [getSingle_valid hv, hd, rowMajor2]
  apply Heap.read_eq_ok
  exact getElem?_eq_getD 0 (by rw [hlen]; exact mul_add_lt hi hj)

theorem setSingle2_append {bufs tail : List (List α)} {data : List α} {t : Tensor}
    {d0 d1 i j : Nat} (hd : t.dims = [(d0 : Int), (d1 : Int)]) (harr : t.arr = bufs.length)
    (hlen : data.length = d0 * d1) (hi : i < d0) (hj : j < d1) (v : α) :
    t.setSingle ⟨bufs ++ data :: tail⟩ v [(i : Int), (j : Int)]
      = .ok ⟨bufs ++ data.set (i * d1 + j) v :: tail⟩ := by
  have hv : ValidIdx t.dims [(i : Int), (j : Int)] := by rw [hd]; exact validIdx2 hi hj
  rw [setSingle_valid hv, hd, rowMajor2, harr]
  exact Heap.write_append bufs tail v (by rw [hlen]; exact mul_add_lt hi hj)

omit [LinearOrderedField α] in
theorem getSingle_append_left {bufs tail : List (List α)} {t : Tensor} (I : IntArrRef)
    (ht : t.arr < bufs.length) :
    t.getSingle ⟨bufs ++ tail⟩ I = t.getSingle ⟨bufs⟩ I := by
  simp only [Tensor.getSingle]
  cases t.getLinIdx I with
  | error e => rfl
  | ok l => simp [bind, Except.bind, Heap.read_append_left _ ht]

end Rank2

section MatMul

variable {α : Type} [LinearOrderedField α]

theorem matmul_loops_ok (h : Heap α) (a b out : Tensor) (m k n : Nat) (Z : List α)
    (data0 : List α) (ha : a.dims = [(m : Int), (k : Int)]) (hb : b.dims = [(k : Int), (n : Int)])
    (ho : out.dims = [(m : Int), (n : Int)]) (hoa : out.arr = h.bufs.length)
    (hap : a.arr < h.bufs.length) (hbp : b.arr < h.bufs.length)
    (hal : (h.buf a.arr).length = m * k) (hbl : (h.buf b.arr).length = k * n)
    (hdl : data0.length = m * n) :
    autofn.MatMul.loops ⟨h.bufs ++ [data0, Z]⟩ a b out
      = .ok ⟨h.bufs ++ [(List.range (m * n)).map
          (matmulData (h.buf a.arr) (h.buf b.arr) k n), Z]⟩ := by
  have key : ∃ s', autofn.MatMul.loops ⟨h.bufs ++ [data0, Z]⟩ a b out = .ok s' ∧
      s' = ⟨h.bufs ++ [(List.range (m * n)).map
          (matmulData (h.buf a.arr) (h.buf b.arr) k n), Z]⟩ := by
    unfold autofn.MatMul.loops
    refine forLoop_inv'
      (fun i (s : Heap α) => ∃ data : List α, s = ⟨h.bufs ++ [data, Z]⟩ ∧ data.length = m * n ∧
        ∀ p, p < i * n → data[p]? = some (matmulData (h.buf a.arr) (h.buf b.arr) k n p))
      _ _ _ _ ⟨data0, rfl, hdl, by intro p hp; simp at hp⟩ ?_ ?_
    · intro i s hi ⟨data, hs, hl, hp⟩
      have hi' : i < m := by simpa [ho] using hi
      subst hs
      refine forLoop_inv'
        (fun j (s : Heap α) => ∃ data : List α, s = ⟨h.bufs ++ [data, Z]⟩ ∧
          data.length = m * n ∧
          ∀ p, p < i * n + j → data[p]? = some (matmulData (h.buf a.arr) (h.buf b.arr) k n p))
        _ _ _ _ ⟨data, rfl, hl, by simpa using hp⟩ ?_ ?_
      · intro j s hj ⟨data1, hs1, hl1, hp1⟩
        have hj' : j < n := by simpa [ho] using hj
        subst hs1
        obtain ⟨v, hv, hve⟩ := forLoop_inv'
          (fun t (acc : α) => acc = ∑ u in Finset.range t,
            (h.buf a.arr).getD (i * k + u) 0 * (h.buf b.arr).getD (u * n + j) 0)
          (fun acc => acc = ∑ u in Finset.range k,
            (h.buf a.arr).getD (i * k + u) 0 * (h.buf b.arr).getD (u * n + j) 0)
          (a.dims.getD 1 0).toNat
          (fun t (outVal : α) => do
            let x ← a.getSingle (⟨h.bufs ++ [data1, Z]⟩ : Heap α) [(i : Int), (t : Int)]
            let y ← b.getSingle (⟨h.bufs ++ [data1, Z]⟩ : Heap α) [(t : Int), (j : Int)]
            Except.ok (outVal + x * y)) 0 (by simp)
          (by
            intro t acc ht hacc
            have ht' : t < k := by simpa [ha] using ht
            beta_reduce
            rw [getSingle_append_left _ hap, getSingle_append_left _ hbp,
              getSingle2 ha hal hi' ht', getSingle2 hb hbl ht' hj']
            rw [bind_ok, bind_ok]
            refine ⟨_, rfl, ?_⟩
            rw [Finset.sum_range_succ, hacc])
          (by intro acc hacc; simpa [ha] using hacc)
        beta_reduce
        rw [hv, bind_ok, setSingle2_append ho hoa hl1 hi' hj']
        refine ⟨_, rfl, _, rfl, by simpa using hl1, ?_⟩
        intro p hp
        rcases Nat.lt_or_ge p (i * n + j) with hlt | hge
        · rw [List.getElem?_set_ne (by omega)]; exact hp1 p hlt
        · have hpe : p = i * n + j := by omega
          subst hpe
          rw [List.getElem?_set_self (by rw [hl1]; exact mul_add_lt hi' hj'), hve]
          simp only [matmulData]
          have e1 : (i * n + j) / n = i := by
            rw [Nat.add_comm, Nat.add_mul_div_right _ _ (by omega : 0 < n)]
            simp [Nat.div_eq_of_lt hj']
          have e2 : (i * n + j) % n = j := by
            rw [Nat.add_comm, Nat.add_mul_mod_self_right]
            exact Nat.mod_eq_of_lt hj'
          rw [e1, e2]
      · rintro s ⟨data1, hs1, hl1, hp1⟩
        refine ⟨data1, hs1, hl1, ?_⟩
        intro p hp
        apply hp1
        have hn : (out.dims.getD 1 0).toNat = n := by simp [ho]
        rw [hn]
        have : (i + 1) * n = i * n + n := by ring
        omega
    · rintro s ⟨data, hs, hl, hp⟩
      have hm : (out.dims.getD 0 0).toNat = m := by simp [ho]
      rw [hm] at hp
      rw [hs, list_eq_map_range hl hp]
  obtain ⟨s', h1, h2⟩ := key
  rw [h1, h2]

end MatMul

end num

namespace num

section MatMulForward

variable {α : Type} [LinearOrderedField α]

theorem prod2_toNat (m n : Nat) : ([(m : Int), (n : Int)] : List Int).prod.toNat = m * n := by
  simp only [List.prod_cons, List.prod_nil, mul_one]
  rw [← Nat.cast_mul, Int.toNat_ofNat]

theorem matmul_forward_ok (h : Heap α) (a b : Tensor) (m k n : Nat) (hm : 0 < m) (hn : 0 < n)
    (ha : a.dims = [(m : Int), (k : Int)]) (hb : b.dims = [(k : Int), (n : Int)])
    (hap : a.arr < h.bufs.length) (hbp : b.arr < h.bufs.length)
    (hal : (h.buf a.arr).length = m * k) (hbl : (h.buf b.arr).length = k * n) :
    autofn.MatMul.forward h [a, b]
      = .ok (⟨[(m : Int), (n : Int)], .leaf, [], h.bufs.length, h.bufs.length + 1, m * n⟩,
          ⟨h.bufs ++ [(List.range (m * n)).map (matmulData (h.buf a.arr) (h.buf b.arr) k n),
            List.replicate (m * n) 0]⟩) := by
  have hz := zeros_ok h [(m : Int), (n : Int)] (by simp)
    (by intro d hd; simp at hd; rcases hd with rfl | rfl <;> omega)
  rw [prod2_toNat] at hz
  simp only [zeros] at hz
  simp only [autofn.MatMul.forward, List.getElem?_cons_zero, List.getElem?_cons_succ, ha, hb,
    List.length_cons, List.length_nil, List.getD_cons_zero, List.getD_cons_succ]
  simp only [Nat.reduceAdd, ne_eq, not_true_eq_false, if_false, hz, bind_ok]
  rw [matmul_loops_ok h a b _ m k n _ _ ha hb rfl rfl hap hbp hal hbl (by simp), bind_ok]

omit [LinearOrderedField α] in
theorem wf_len2 {h : Heap α} {t : Tensor} {d0 d1 : Nat} (ht : t.WF h)
    (hd : t.dims = [(d0 : Int), (d1 : Int)]) :
    0 < d0 ∧ 0 < d1 ∧ t.sz = d0 * d1 ∧ (h.buf t.arr).length = d0 * d1 ∧
      (h.buf t.gradArr).length = d0 * d1 := by
  obtain ⟨_, hpos, hsz, _, _, hl, hg⟩ := ht
  rw [hd] at hpos hsz
  have h0 := hpos d0 (by simp)
  have h1 := hpos d1 (by simp)
  have hs : t.sz = d0 * d1 := by
    have := congrArg Int.toNat hsz
    rw [prod2_toNat] at this
    simpa using this
  exact ⟨by omega, by omega, hs, by rw [hl, hs], by rw [hg, hs]⟩

/-- C5. Matmul forward: for rank-2 `A` of shape `(m, k)` and `B` of shape `(k, n)`,
`matmul(A, B)` succeeds with a result of shape `(m, n)` whose entry `[i, j]` is
`Σ_{t<k} A[i,t] * B[t,j]`; the buffers that existed before are unchanged. -/
theorem matmul_forward_spec (h : Heap α) (A B : Tensor) (m k n : Nat)
    (hA : A.WF h) (hB : B.WF h)
    (hAd : A.dims = [(m : Int), (k : Int)]) (hBd : B.dims = [(k : Int), (n : Int)]) :
    ∃ (out : Tensor) (h' : Heap α), matmul h A B = .ok (out, h') ∧
      out.dims = [(m : Int), (n : Int)] ∧
      (∀ p, p < h.bufs.length → h'.buf p = h.buf p) ∧
      ∀ i j, i < m → j < n → ∃ x y : Nat → α,
        (∀ t, t < k → A.getSingle h [(i : Int), (t : Int)] = .ok (x t)) ∧
        (∀ t, t < k → B.getSingle h [(t : Int), (j : Int)] = .ok (y t)) ∧
        out.getSingle h' [(i : Int), (j : Int)] = .ok (∑ t in Finset.range k, x t * y t) := by
  obtain ⟨hm, hk, _, hal, _⟩ := wf_len2 hA hAd
  obtain ⟨_, hn, _, hbl, _⟩ := wf_len2 hB hBd
  have hf := matmul_forward_ok h A B m k n hm hn hAd hBd hA.2.2.2.1 hB.2.2.2.1 hal hbl
  refine ⟨_, _, by simp only [matmul, autofn.Function.apply, hf, bind_ok]; rfl, rfl, ?_, ?_⟩
  · intro p hp
    exact Heap.buf_append_left hp
  · intro i j hi hj
    refine ⟨fun t => (h.buf A.arr).getD (i * k + t) 0, fun t => (h.buf B.arr).getD (t * n + j) 0,
      fun t ht => getSingle2 hAd hal hi ht, fun t ht => getSingle2 hBd hbl ht hj, ?_⟩
    rw [@getSingle2 α _ _ _ m n i j rfl (by simp only [Heap.buf_append_length]; simp) hi hj]
    simp only [Heap.buf_append_length]
    rw [getD_eq_of_getElem? (v := matmulData (h.buf A.arr) (h.buf B.arr) k n (i * n + j))]
    · simp only [matmulData]
      have e1 : (i * n + j) / n = i := by
        rw [Nat.add_comm, Nat.add_mul_div_right _ _ (by omega : 0 < n)]
        simp [Nat.div_eq_of_lt hj]
      have e2 : (i * n + j) % n = j := by
        rw [Nat.add_comm, Nat.add_mul_mod_self_right]
        exact Nat.mod_eq_of_lt hj
      rw [e1, e2]
    · rw [List.getElem?_map, List.getElem?_range (mul_add_lt hi hj)]; rfl

/-- Instance of C5: the product of the `2 × 3` and the `3 × 2` example matrices. -/
theorem matmul_forward_spec_witness :
    (matmul examples.heap examples.m23 examples.m32).map (fun r => r.1.dims) = .ok [2, 2] := by
  obtain ⟨out, h', e, hd, _⟩ := matmul_forward_spec examples.heap examples.m23 examples.m32
    2 3 2 (by unfold Tensor.WF; decide) (by unfold Tensor.WF; decide) rfl rfl
  rw [e]
  simp [Except.map, hd]

end MatMulForward

end num

namespace num

/-! ### The index into the smaller operand moves in lock-step with `idxIncr` -/

theorem advanceSmall_cons (sd r y l : Int) (sds rs : List Int) :
    ∀ (c : Nat) (ys ls : List Int),
      advanceSmall (sd :: sds) (r :: rs) (c + 1) (y :: ys, l :: ls) =
        if (advanceSmall sds rs c (ys, ls)).2.2 = -1 then
          (if y + 1 ≥ sd then
            (if l - 1 ≤ 0 then
              (0 :: (advanceSmall sds rs c (ys, ls)).1,
                r :: (advanceSmall sds rs c (ys, ls)).2.1, -1)
            else
              (0 :: (advanceSmall sds rs c (ys, ls)).1,
                (l - 1) :: (advanceSmall sds rs c (ys, ls)).2.1, 0))
          else
            ((y + 1) :: (advanceSmall sds rs c (ys, ls)).1,
              l :: (advanceSmall sds rs c (ys, ls)).2.1, 0))
        else
          (y :: (advanceSmall sds rs c (ys, ls)).1, l :: (advanceSmall sds rs c (ys, ls)).2.1,
            (advanceSmall sds rs c (ys, ls)).2.2 + 1)
  | 0, ys, ls => by
    simp [advanceSmall]
  | c + 1, ys, ls => by
    rw [advanceSmall]
    conv_rhs => rw [advanceSmall]
    simp only [List.getD_cons_succ, List.set_cons_succ]
    by_cases hc : ((ys.set c (ys.getD c 0 + 1)).getD c 0) ≥ sds.getD c 0
    · simp only [hc, if_true]
      by_cases hl : ((ls.set c (ls.getD c 0 - 1)).getD c 0) ≤ 0
      · simp only [hl, if_true]
        exact advanceSmall_cons sd r y l sds rs c _ _
      · simp only [hl, if_false]
        have : ((c : Int) = -1) = False := by simp
        simp only [this, if_false]
        push_cast
        rfl
    · simp only [hc, if_false]
      have : ((c : Int) = -1) = False := by simp
      simp only [this, if_false]
      push_cast
      rfl

theorem alignedInv_length : ∀ {B S X : List Int}, AlignedInv B S X →
    X.length = B.length ∧ S.length = B.length
  | [], [], [], _ => by simp
  | _ :: _, _ :: _, _ :: _, h => by
    have := alignedInv_length h.2
    simp [this.1, this.2]
  | [], [], _ :: _, h => by simp [AlignedInv] at h
  | [], _ :: _, _, h => by simp [AlignedInv] at h
  | _ :: _, [], _, h => by simp [AlignedInv] at h
  | _ :: _, _ :: _, [], h => by simp [AlignedInv] at h

theorem alignedInv_valid : ∀ {B S X : List Int}, AlignedInv B S X → ValidIdx B X
  | [], [], [], _ => by simp [ValidIdx]
  | _ :: _, _ :: _, _ :: _, h => ⟨⟨h.1.2.2.1, h.1.2.2.2⟩, alignedInv_valid h.2⟩
  | [], [], _ :: _, h => by simp [AlignedInv] at h
  | [], _ :: _, _, h => by simp [AlignedInv] at h
  | _ :: _, [], _, h => by simp [AlignedInv] at h
  | _ :: _, _ :: _, [], h => by simp [AlignedInv] at h

theorem alignedInv_zeros : ∀ {B S X : List Int}, AlignedInv B S X →
    AlignedInv B S (List.replicate B.length 0)
  | [], [], [], _ => by simp [AlignedInv]
  | b :: _, _ :: _, _ :: _, h => by
    simp only [List.length_cons, List.replicate_succ, AlignedInv]
    have h1 := h.1.2.2.1
    have h2 := h.1.2.2.2
    exact ⟨⟨h.1.1, h.1.2.1, le_refl _, by omega⟩, alignedInv_zeros h.2⟩
  | [], [], _ :: _, h => by simp [AlignedInv] at h
  | [], _ :: _, _, h => by simp [AlignedInv] at h
  | _ :: _, [], _, h => by simp [AlignedInv] at h
  | _ :: _, _ :: _, [], h => by simp [AlignedInv] at h

theorem alignedInv_of_valid : ∀ {B S X Y : List Int}, AlignedInv B S X → ValidIdx B Y →
    AlignedInv B S Y
  | [], [], [], [], _, _ => by simp [AlignedInv]
  | _ :: _, _ :: _, _ :: _, _ :: _, h, v =>
    ⟨⟨h.1.1, h.1.2.1, v.1.1, v.1.2⟩, alignedInv_of_valid h.2 v.2⟩
  | [], [], [], _ :: _, _, v => by simp [ValidIdx] at v
  | _ :: _, _ :: _, _ :: _, [], _, v => by simp [ValidIdx] at v
  | [], [], _ :: _, _, h, _ => by simp [AlignedInv] at h
  | [], _ :: _, _, _, h, _ => by simp [AlignedInv] at h
  | _ :: _, [], _, _, h, _ => by simp [AlignedInv] at h
  | _ :: _, _ :: _, [], _, h, _ => by simp [AlignedInv] at h

/-- After one step of the odometer the bigger index is again within its shape. -/
theorem alignedInv_step {B S X : List Int} (h : AlignedInv B S X) :
    AlignedInv B S (Tensor.idxIncrLoop B X.length X).1 := by
  have hv := alignedInv_valid h
  obtain ⟨s1, s2⟩ := idxIncrLoop_spec hv
  by_cases hlt : rowMajor B X + 1 < B.prod
  · exact alignedInv_of_valid h (s1 hlt).1
  · rw [(s2 hlt).1]
    exact alignedInv_zeros h

/-- Arithmetic of one axis: the digit `x` of the bigger index, its image `x % s`
and the repetitions left `b / s - x / s`. -/
theorem digit_facts {b s x : Int} (hs : 0 < s) (hsb : s ∣ b) (hx0 : 0 ≤ x) (hxb : x < b) :
    b.tdiv s = b / s ∧
    (x + 1 ≥ b → x % s + 1 ≥ s ∧ b / s - x / s - 1 ≤ 0) ∧
    (¬ x + 1 ≥ b → x % s + 1 ≥ s →
      ¬ (b / s - x / s - 1 ≤ 0) ∧ (x + 1) % s = 0 ∧ (x + 1) / s = x / s + 1) ∧
    (¬ x % s + 1 ≥ s → (x + 1) % s = x % s + 1 ∧ (x + 1) / s = x / s ∧ ¬ x + 1 ≥ b) := by
  have hm0 := Int.emod_nonneg x (ne_of_gt hs)
  have hm1 := Int.emod_lt_of_pos x hs
  have hx := Int.emod_add_ediv x s
  have hb : s * (b / s) = b := Int.mul_ediv_cancel' hsb
  have hq0 : 0 ≤ x / s := Int.ediv_nonneg hx0 (le_of_lt hs)
  refine ⟨Int.tdiv_eq_ediv (by omega) (le_of_lt hs), ?_, ?_, ?_⟩
  · intro hge
    have hxe : x = b - 1 := by omega
    have hlt : x / s < b / s := by
      by_contra hcon
      have : s * (b / s) ≤ s * (x / s) := mul_le_mul_of_nonneg_left (by omega) (le_of_lt hs)
      omega
    have hge2 : s * (b / s - 1) ≤ s * (x / s) := by
      by_contra hcon
      have h3 : x / s + 1 ≤ b / s - 1 := by
        by_contra h4
        have : b / s - 1 ≤ x / s := by omega
        exact hcon (mul_le_mul_of_nonneg_left this (le_of_lt hs))
      have : s * (x / s + 1) ≤ s * (b / s - 1) := mul_le_mul_of_nonneg_left h3 (le_of_lt hs)
      have e1 : s * (x / s + 1) = s * (x / s) + s := by ring
      have e2 : s * (b / s - 1) = s * (b / s) - s := by ring
      omega
    have e2 : s * (b / s - 1) = s * (b / s) - s := by ring
    have hq : x / s = b / s - 1 := by
      by_contra hne
      have : x / s + 1 ≤ b / s - 1 := by omega
      have h5 : s * (x / s + 1) ≤ s * (b / s - 1) := mul_le_mul_of_nonneg_left this (le_of_lt hs)
      have e1 : s * (x / s + 1) = s * (x / s) + s := by ring
      omega
    constructor
    · rw [hq, e2] at hx; omega
    · omega
  · intro hnge hmod
    have hme : x % s = s - 1 := by omega
    have hx1 : x + 1 = s * (x / s + 1) := by
      have e1 : s * (x / s + 1) = s * (x / s) + s := by ring
      omega
    have hmod' : (x + 1) % s = 0 := by rw [hx1]; exact Int.mul_emod_right _ _
    have hdiv' : (x + 1) / s = x / s + 1 := by
      rw [hx1]; exact Int.mul_ediv_cancel_left _ (ne_of_gt hs)
    refine ⟨?_, hmod', hdiv'⟩
    intro hle
    have : b / s ≤ x / s + 1 := by omega
    have h5 : s * (b / s) ≤ s * (x / s + 1) := mul_le_mul_of_nonneg_left this (le_of_lt hs)
    omega
  · intro hmod
    have hu := (Int.ediv_emod_unique (a := x + 1) (r := x % s + 1) (q := x / s) hs).2
      ⟨by omega, by omega, by omega⟩
    refine ⟨hu.2, hu.1, ?_⟩
    intro hge
    have hxe : x = b - 1 := by omega
    have : (s * (b / s) - 1) % s = s - 1 := by
      have e : s * (b / s) - 1 = (s - 1) + s * (b / s - 1) := by ring
      rw [e, Int.add_mul_emod_self_left]
      exact Int.emod_eq_of_lt (by omega) (by omega)
    rw [hxe, ← hb, this] at hmod
    omega

/-- The aligned axes: `advanceSmall` maps the images of the bigger index and the
repetitions left to those of the incremented index, and exits at the same axis. -/
theorem advanceSmall_aligned : ∀ {B S X : List Int}, AlignedInv B S X →
    advanceSmall S (repsOf B S) X.length (List.zipWith (fun x s => x % s) X S, leftOf B S X)
      = (List.zipWith (fun x s => x % s) (Tensor.idxIncrLoop B X.length X).1 S,
          leftOf B S (Tensor.idxIncrLoop B X.length X).1,
          (Tensor.idxIncrLoop B X.length X).2)
  | [], [], [], _ => by simp [advanceSmall, Tensor.idxIncrLoop, leftOf]
  | b :: B, s :: S, x :: X, h => by
    obtain ⟨⟨hs, hsb, hx0, hxb⟩, ht⟩ := h
    have ih := advanceSmall_aligned ht
    obtain ⟨f0, f1, f2, f3⟩ := digit_facts hs hsb hx0 hxb
    simp only [List.length_cons, List.zipWith_cons_cons, repsOf, leftOf]
    rw [advanceSmall_cons, idxIncrLoop_cons]
    simp only [repsOf] at ih
    rw [ih]
    by_cases he : (Tensor.idxIncrLoop B X.length X).2 = -1
    · simp only [he, if_true]
      by_cases hge : x + 1 ≥ b
      · obtain ⟨g1, g2⟩ := f1 hge
        simp only [hge, g1, g2, if_true, List.zipWith_cons_cons, leftOf, f0]
        simp
      · simp only [hge, if_false]
        by_cases hm : x % s + 1 ≥ s
        · obtain ⟨g1, g2, g3⟩ := f2 hge hm
          simp only [hm, g1, if_true, if_false, List.zipWith_cons_cons, leftOf, g2, g3]
          congr 2
          · congr 1; ring
        · obtain ⟨g1, g2, _⟩ := f3 hm
          simp only [hm, if_false, List.zipWith_cons_cons, leftOf, g1, g2]
    · simp only [he, if_false, List.zipWith_cons_cons, leftOf]
  | [], [], _ :: _, h => by simp [AlignedInv] at h
  | [], _ :: _, _, h => by simp [AlignedInv] at h
  | _ :: _, [], _, h => by simp [AlignedInv] at h
  | _ :: _, _ :: _, [], h => by simp [AlignedInv] at h

end num

namespace num

theorem idxIncrLoop_fst_cons (d x : Int) (ds xs : List Int) (c : Nat) :
    ∃ x' : Int, (Tensor.idxIncrLoop (d :: ds) (c + 1) (x :: xs)).1
      = x' :: (Tensor.idxIncrLoop ds c xs).1 := by
  rw [idxIncrLoop_cons]
  by_cases he : (Tensor.idxIncrLoop ds c xs).2 = -1
  · by_cases hx : x + 1 ≥ d
    · exact ⟨0, by simp [he, hx]⟩
    · exact ⟨x + 1, by simp [he, hx]⟩
  · exact ⟨x, by simp [he]⟩

theorem idxIncrLoop_drop : ∀ (Lead lead T t : List Int), lead.length = Lead.length →
    (Tensor.idxIncrLoop (Lead ++ T) (lead.length + t.length) (lead ++ t)).1.drop lead.length
      = (Tensor.idxIncrLoop T t.length t).1
  | [], [], T, t, _ => by simp
  | L :: Lead, l :: lead, T, t, h => by
    have e : (l :: lead).length + t.length = (lead.length + t.length) + 1 := by
      simp only [List.length_cons]; omega
    rw [e]
    obtain ⟨x', hx'⟩ := idxIncrLoop_fst_cons L l (Lead ++ T) (lead ++ t) (lead.length + t.length)
    rw [List.cons_append, List.cons_append, hx', List.length_cons, List.drop_succ_cons]
    exact idxIncrLoop_drop Lead lead T t (by simpa using h)
  | [], _ :: _, _, _, h => by simp at h
  | _ :: _, [], _, _, h => by simp at h

theorem alignedInv_of_pointwise : ∀ {B S X : List Int}, S.length = B.length →
    X.length = B.length →
    (∀ k, k < B.length → 0 < S.getD k 0 ∧ B.getD k 0 % S.getD k 0 = 0 ∧
      0 ≤ X.getD k 0 ∧ X.getD k 0 < B.getD k 0) →
    AlignedInv B S X
  | [], [], [], _, _, _ => by simp [AlignedInv]
  | b :: B, s :: S, x :: X, hS, hX, hp => by
    have h0 := hp 0 (by simp)
    simp only [List.getD_cons_zero] at h0
    refine ⟨⟨h0.1, Int.dvd_of_emod_eq_zero h0.2.1, h0.2.2.1, h0.2.2.2⟩, ?_⟩
    apply alignedInv_of_pointwise (by simpa using hS) (by simpa using hX)
    intro k hk
    simpa using hp (k + 1) (by simpa using hk)
  | [], _ :: _, _, h, _, _ => by simp at h
  | _ :: _, [], _, h, _, _ => by simp at h
  | [], [], _ :: _, _, h, _ => by simp at h
  | _ :: _, _ :: _, [], _, h, _ => by simp at h

/-- One step of the main loop of `applyBinaryWithBroadcast` on the two indices:
whatever the counter of the first axis of the smaller operand, the index into
the smaller operand stays the image of the bigger index, and the counters of the
other axes stay the repetitions left. -/
theorem advanceSmall_lockstep (BD SD X : List Int) (d : Nat) (hXl : X.length = BD.length)
    (hd : SD.length + d = BD.length) (hS : SD ≠ [])
    (hA : AlignedInv (BD.drop d) SD (X.drop d)) (r0 l0 : Int) :
    ∃ (l0' c' : Int),
      advanceSmall SD (r0 :: repsOf (BD.drop (d + 1)) SD.tail) SD.length
          (broadcastIdx SD d X, l0 :: leftOf (BD.drop (d + 1)) SD.tail (X.drop (d + 1)))
        = (broadcastIdx SD d (Tensor.idxIncrLoop BD X.length X).1,
            l0' :: leftOf (BD.drop (d + 1)) SD.tail
              ((Tensor.idxIncrLoop BD X.length X).1.drop (d + 1)), c') := by
  -- split off the leading axes of the bigger operand
  have hdrop : (Tensor.idxIncrLoop BD X.length X).1.drop d
      = (Tensor.idxIncrLoop (BD.drop d) (X.drop d).length (X.drop d)).1 := by
    have h1 := idxIncrLoop_drop (BD.take d) (X.take d) (BD.drop d) (X.drop d)
      (by simp [List.length_take, hXl])
    have h2 : (X.take d).length = d := by simp [List.length_take]; omega
    have h3 : d + (X.drop d).length = X.length := by
      simp [List.length_drop]; omega
    rw [List.take_append_drop, List.take_append_drop, h2, h3] at h1
    exact h1
  have hdrop1 : ∀ l : List Int, l.drop (d + 1) = (l.drop d).tail := by
    intro l; rw [List.tail_drop]
  simp only [broadcastIdx, hdrop1, hdrop]
  -- the aligned axes
  generalize BD.drop d = B at hA
  generalize X.drop d = Y at hA
  match B, SD, Y, hA, hS with
  | b :: B', s :: S', x :: xs, hA, _ =>
    obtain ⟨⟨hs, hsb, hx0, hxb⟩, ht⟩ := hA
    have ih := advanceSmall_aligned ht
    obtain ⟨_, f1, f2, f3⟩ := digit_facts hs hsb hx0 hxb
    have hl := alignedInv_length ht
    simp only [List.tail_cons, List.length_cons, List.zipWith_cons_cons]
    rw [show S'.length = xs.length by omega, advanceSmall_cons, idxIncrLoop_cons, ih]
    by_cases he : (Tensor.idxIncrLoop B' xs.length xs).2 = -1
    · simp only [he, if_true]
      by_cases hge : x + 1 ≥ b
      · obtain ⟨g1, _⟩ := f1 hge
        simp only [hge, g1, if_true]
        by_cases hl : l0 - 1 ≤ 0
        · exact ⟨r0, -1, by simp [hl]⟩
        · exact ⟨l0 - 1, 0, by simp [hl]⟩
      · simp only [hge, if_false]
        by_cases hm : x % s + 1 ≥ s
        · obtain ⟨_, g2, _⟩ := f2 hge hm
          simp only [hm, if_true]
          by_cases hl : l0 - 1 ≤ 0
          · exact ⟨r0, -1, by simp [hl, g2]⟩
          · exact ⟨l0 - 1, 0, by simp [hl, g2]⟩
        · obtain ⟨g1, _, _⟩ := f3 hm
          exact ⟨l0, 0, by simp [hm, g1]⟩
    · exact ⟨l0, (Tensor.idxIncrLoop B' xs.length xs).2 + 1, by simp [he]⟩
  | [], [], _, _, hS => exact absurd rfl hS

end num

namespace num

theorem getD_set_ne {β : Type} {l : List β} {i j : Nat} (a d : β) (h : i ≠ j) :
    (l.set i a).getD j d = l.getD j d := by
  simp [List.getD_eq_getElem?_getD, List.getElem?_set_ne h]

theorem getD_set_self {β : Type} {l : List β} {i : Nat} (a d : β) (h : i < l.length) :
    (l.set i a).getD i d = a := by
  simp [List.getD_eq_getElem?_getD, List.getElem?_set_self h]

theorem list_ext_getD {l1 l2 : List Int} (hl : l1.length = l2.length)
    (h : ∀ k, k < l1.length → l1.getD k 0 = l2.getD k 0) : l1 = l2 := by
  apply List.ext_getElem hl
  intro k h1 h2
  have := h k h1
  simpa [List.getD_eq_getElem?_getD, List.getElem?_eq_getElem h1,
    List.getElem?_eq_getElem h2] using this

theorem getD_zipWith {f : Int → Int → Int} {A B : List Int} {k : Nat} (ha : k < A.length)
    (hb : k < B.length) : (List.zipWith f A B).getD k 0 = f (A.getD k 0) (B.getD k 0) := by
  simp [List.getD_eq_getElem?_getD, List.getElem?_zipWith, List.getElem?_eq_getElem ha,
    List.getElem?_eq_getElem hb]

theorem getD_drop {A : List Int} {n k : Nat} : (A.drop n).getD k 0 = A.getD (n + k) 0 := by
  simp [List.getD_eq_getElem?_getD, List.getElem?_drop]

theorem dimRepsLoop_spec (big small : Tensor) (d : Nat)
    (hd : small.dims.length + d = big.dims.length)
    (hdiv : ∀ k, k < small.dims.length →
      (big.dims.getD (k + d) 0).tmod (small.dims.getD k 0) = 0) :
    ∀ (n : Nat) (dimReps : List Int), n ≤ big.dims.length →
      dimReps.length = small.dims.length →
      ∃ res : List Int, dimRepsLoop big small (d : Int) n dimReps = .ok res ∧
        res.length = small.dims.length ∧
        ∀ k, 1 ≤ k → k < small.dims.length →
          res.getD k 0 = if k + d < n then
            (big.dims.getD (k + d) 0).tdiv (small.dims.getD k 0) else dimReps.getD k 0
  | 0, dimReps, _, hl => ⟨dimReps, rfl, hl, by intro k _ _; simp⟩
  | n + 1, dimReps, hn, hl => by
    rw [dimRepsLoop]
    by_cases hlt : ((n : Int) - (d : Int)) < 0
    · simp only [hlt, if_true]
      obtain ⟨res, h1, h2, h3⟩ := dimRepsLoop_spec big small d hd hdiv n
        (dimReps.set 0 (dimReps.getD 0 0 * big.dims.getD n 0)) (by omega) (by simpa using hl)
      refine ⟨res, h1, h2, ?_⟩
      intro k hk1 hk2
      rw [h3 k hk1 hk2, getD_set_ne _ _ (by omega)]
      have c1 : ¬ k + d < n := by omega
      have c2 : ¬ k + d < n + 1 := by omega
      simp [c1, c2]
    · simp only [hlt, if_false]
      have hnd : ((n : Int) - (d : Int)).toNat = n - d := by omega
      have hk0 : n - d < small.dims.length := by omega
      have hdv := hdiv (n - d) hk0
      have e : n - d + d = n := by omega
      rw [e] at hdv
      rw [hnd]
      simp only [hdv, ne_eq, not_true_eq_false, if_false]
      obtain ⟨res, h1, h2, h3⟩ := dimRepsLoop_spec big small d hd hdiv n
        (dimReps.set (n - d) ((big.dims.getD n 0).tdiv (small.dims.getD (n - d) 0)))
        (by omega) (by simpa using hl)
      refine ⟨res, h1, h2, ?_⟩
      intro k hk1 hk2
      rw [h3 k hk1 hk2]
      by_cases c1 : k + d < n
      · have c2 : k + d < n + 1 := by omega
        simp [c1, c2]
      · by_cases c3 : k + d = n
        · have c2 : k + d < n + 1 := by omega
          have e2 : n - d = k := by omega
          simp only [c1, c2, if_false, if_true]
          rw [e2, getD_set_self _ _ (by omega), ← c3]
        · have c2 : ¬ k + d < n + 1 := by omega
          simp only [c1, c2, if_false]
          rw [getD_set_ne _ _ (by omega)]

theorem dimRepsLoop_ok (big small : Tensor) (d : Nat)
    (hd : small.dims.length + d = big.dims.length) (hS : small.dims ≠ [])
    (hdiv : ∀ k, k < small.dims.length →
      (big.dims.getD (k + d) 0).tmod (small.dims.getD k 0) = 0) :
    ∃ r0 : Int, dimRepsLoop big small (d : Int) big.dims.length
        (List.replicate small.dims.length 0)
      = .ok (r0 :: repsOf (big.dims.drop (d + 1)) small.dims.tail) := by
  obtain ⟨res, h1, h2, h3⟩ := dimRepsLoop_spec big small d hd hdiv big.dims.length
    (List.replicate small.dims.length 0) (le_refl _) (by simp)
  cases res with
  | nil =>
    exfalso
    apply hS
    exact List.length_eq_zero.1 (by simpa using h2.symm)
  | cons r0 tl =>
    refine ⟨r0, ?_⟩
    rw [h1]
    congr 2
    have hsl : small.dims.tail.length = small.dims.length - 1 := by simp
    have htl : tl.length = small.dims.length - 1 := by simp at h2; omega
    apply list_ext_getD
    · simp only [repsOf, List.length_zipWith, List.length_drop, hsl, htl]; omega
    · intro k hk
      have := h3 (k + 1) (by omega) (by omega)
      simp only [List.getD_cons_succ] at this
      rw [this, if_pos (by omega), repsOf,
        getD_zipWith (by simp only [List.length_drop]; omega) (by omega), getD_drop]
      have e1 : d + 1 + k = k + 1 + d := by omega
      have e2 : small.dims.tail.getD k 0 = small.dims.getD (k + 1) 0 := by
        cases hsd : small.dims with
        | nil => exact absurd hsd hS
        | cons s S' => simp
      rw [e1, e2]

section Clone

variable {α : Type} [LinearOrderedField α]

omit [LinearOrderedField α] in
theorem map_range_getD {l : List α} {n : Nat} (d : α) (hl : l.length = n) :
    (List.range n).map (fun i => l.getD i d) = l := by
  symm
  apply list_eq_map_range hl
  intro p hp
  exact getElem?_eq_getD d (by omega)

theorem clone_ok (h : Heap α) (t : Tensor) (hl : (h.buf t.arr).length = t.sz)
    (hg : (h.buf t.gradArr).length = t.sz) :
    t.clone h = ({ t with arr := h.bufs.length, gradArr := h.bufs.length + 1 },
      ⟨h.bufs ++ [h.buf t.arr, h.buf t.gradArr]⟩) := by
  simp only [Tensor.clone, Heap.alloc, map_range_getD 0 hl, map_range_getD 0 hg]
  simp

end Clone

end num

namespace num

theorem validIdx_zipWith_mod : ∀ {B S X : List Int}, AlignedInv B S X →
    ValidIdx S (List.zipWith (fun x s => x % s) X S)
  | [], [], [], _ => by simp [ValidIdx]
  | _ :: _, s :: _, x :: _, h => by
    simp only [List.zipWith_cons_cons, ValidIdx]
    exact ⟨⟨Int.emod_nonneg x (ne_of_gt h.1.1), Int.emod_lt_of_pos x h.1.1⟩,
      validIdx_zipWith_mod h.2⟩
  | [], [], _ :: _, h => by simp [AlignedInv] at h
  | [], _ :: _, _, h => by simp [AlignedInv] at h
  | _ :: _, [], _, h => by simp [AlignedInv] at h
  | _ :: _, _ :: _, [], h => by simp [AlignedInv] at h

theorem leftOf_zeros : ∀ {B S X : List Int}, AlignedInv B S X →
    leftOf B S (List.replicate B.length 0) = repsOf B S
  | [], [], [], _ => by simp [leftOf, repsOf]
  | b :: B, s :: S, x :: X, h => by
    have hb : 0 < b := by have := h.1.2.2.1; have := h.1.2.2.2; omega
    simp only [List.length_cons, List.replicate_succ, leftOf, repsOf, List.zipWith_cons_cons]
    have ih := leftOf_zeros h.2
    simp only [repsOf] at ih
    rw [ih, Int.tdiv_eq_ediv (le_of_lt hb) (le_of_lt h.1.1)]
    simp
  | [], [], _ :: _, h => by simp [AlignedInv] at h
  | [], _ :: _, _, h => by simp [AlignedInv] at h
  | _ :: _, [], _, h => by simp [AlignedInv] at h
  | _ :: _, _ :: _, [], h => by simp [AlignedInv] at h

theorem zipWith_mod_zeros : ∀ (S : List Int),
    List.zipWith (fun x s => x % s) (List.replicate S.length 0) S = List.replicate S.length 0
  | [] => by simp
  | s :: S => by
    simp [List.replicate_succ, zipWith_mod_zeros S]

theorem getD_pos_of_forall {D : List Int} (hD : ∀ d ∈ D, 0 < d) {k : Nat} (hk : k < D.length) :
    0 < D.getD k 0 := by
  have : D.getD k 0 = D[k] := by
    simp [List.getD_eq_getElem?_getD, List.getElem?_eq_getElem hk]
  rw [this]
  exact hD _ (List.getElem_mem hk)

/-- The aligned invariant from the axis-wise divisibility of the shapes. -/
theorem alignedInv_of_div {BD SD X : List Int} {d : Nat} (hd : SD.length + d = BD.length)
    (hS : ∀ s ∈ SD, 0 < s)
    (hdiv : ∀ k, k < SD.length → BD.getD (k + d) 0 % SD.getD k 0 = 0)
    (hX : ValidIdx BD X) : AlignedInv (BD.drop d) SD (X.drop d) := by
  obtain ⟨hXl, hXp⟩ := validIdx_iff.1 hX
  apply alignedInv_of_pointwise
  · simp only [List.length_drop]; omega
  · simp only [List.length_drop]; omega
  · intro k hk
    simp only [List.length_drop] at hk
    have hk' : k < SD.length := by omega
    have hp := hXp (d + k) (by omega)
    rw [getD_drop, getD_drop]
    have e : d + k = k + d := by omega
    refine ⟨getD_pos_of_forall hS hk', ?_, hp.1, hp.2⟩
    rw [e]; exact hdiv k hk'

section BroadcastLoop

variable {α : Type} [LinearOrderedField α]

omit [LinearOrderedField α] in
theorem Heap.mk_bufs (h : Heap α) : Heap.mk h.bufs = h := rfl

theorem broadcast_loop_ok (fn : α → α → α) (swapped : Bool) (h : Heap α)
    (big small out : Tensor) (d : Nat) (hbig : big.WF h) (hsmall : small.WF h)
    (hd : small.dims.length + d = big.dims.length)
    (hdiv : ∀ k, k < small.dims.length → big.dims.getD (k + d) 0 % small.dims.getD k 0 = 0)
    (ho : out.dims = big.dims) (hoa : out.arr = h.bufs.length) (data0 G : List α)
    (hdl : data0.length = big.sz) (r0 : Int) :
    ∃ st', forLoop big.sz
        (fun _ st => broadcastStep fn swapped big small out
          (r0 :: repsOf (big.dims.drop (d + 1)) small.dims.tail) st)
        (⟨h.bufs ++ [data0, G]⟩, IntArrRef.fill big.dims.length 0,
          IntArrRef.fill small.dims.length 0,
          r0 :: repsOf (big.dims.drop (d + 1)) small.dims.tail) = .ok st' ∧
      st'.1 = ⟨h.bufs ++ [(List.range big.sz).map
        (broadcastData fn swapped big.dims small.dims (h.buf big.arr) (h.buf small.arr)), G]⟩ := by
  obtain ⟨hbne, hbpos, hbsz, hbarr, _, hblen, _⟩ := hbig
  obtain ⟨hsne, hspos, hssz, hsarr, _, hslen, _⟩ := hsmall
  have hdd : big.dims.length - small.dims.length = d := by omega
  have hA : ∀ i : Nat, i < big.sz →
      AlignedInv (big.dims.drop d) small.dims ((unravel big.dims (i : Int)).drop d) := by
    intro i hi
    exact alignedInv_of_div hd hspos hdiv
      (unravel_spec hbpos (Int.natCast_nonneg i) (by omega)).1
  have hA1 : ∀ i : Nat, i < big.sz →
      AlignedInv (big.dims.drop (d + 1)) small.dims.tail
        ((unravel big.dims (i : Int)).drop (d + 1)) := by
    intro i hi
    have := hA i hi
    rw [← List.tail_drop, ← List.tail_drop]
    revert this
    generalize big.dims.drop d = B
    generalize (unravel big.dims (i : Int)).drop d = Y
    intro this
    match B, small.dims, Y, this, hsne with
    | _ :: _, _ :: _, _ :: _, h', _ => exact h'.2
    | [], [], _, _, hne => exact absurd rfl hne
  have hszpos : 0 < big.sz := by have := prod_pos_of_pos hbpos; omega
  refine forLoop_inv'
    (fun i (st : Heap α × IntArrRef × IntArrRef × List Int) =>
      (∃ data : List α, st.1 = ⟨h.bufs ++ [data, G]⟩ ∧ data.length = big.sz ∧
        ∀ p, p < i → data[p]? = some (broadcastData fn swapped big.dims small.dims
          (h.buf big.arr) (h.buf small.arr) p)) ∧
      (i < big.sz → st.2.1 = unravel big.dims (i : Int) ∧
        st.2.2.1 = broadcastIdx small.dims d (unravel big.dims (i : Int)) ∧
        ∃ l0 : Int, st.2.2.2 = l0 :: leftOf (big.dims.drop (d + 1)) small.dims.tail
          ((unravel big.dims (i : Int)).drop (d + 1))))
    _ _ _ _ ?_ ?_ ?_
  · -- initially
    refine ⟨⟨data0, rfl, hdl, by intro p hp; omega⟩, fun _ => ?_⟩
    have hz : unravel big.dims ((0 : Nat) : Int) = List.replicate big.dims.length 0 := by
      simpa using unravel_zero hbpos
    rw [hz]
    refine ⟨rfl, ?_, r0, ?_⟩
    · simp only [broadcastIdx, List.drop_replicate, IntArrRef.fill]
      rw [show big.dims.length - d = small.dims.length by omega, zipWith_mod_zeros]
    · have := leftOf_zeros (hA1 0 hszpos)
      rw [← this]
      simp only [List.drop_replicate, List.length_drop]
  · -- one iteration
    rintro i ⟨hp, bI, sI, lf⟩ hi ⟨⟨data, hs, hl, hpre⟩, hidx⟩
    obtain ⟨e1, e2, l0, e3⟩ := hidx hi
    simp only at hs e1 e2 e3
    subst hs e1 e2 e3
    have hi' : (i : Int) < big.dims.prod := by omega
    obtain ⟨hv, hr⟩ := unravel_spec hbpos (Int.natCast_nonneg i) hi'
    have hvs : ValidIdx small.dims (broadcastIdx small.dims d (unravel big.dims (i : Int))) :=
      validIdx_zipWith_mod (hA i hi)
    have hgA : big.getSingle (⟨h.bufs ++ [data, G]⟩ : Heap α) (unravel big.dims (i : Int))
        = .ok ((h.buf big.arr).getD i 0) := by
      rw [getSingle_append_left _ hbarr, getSingle_valid hv, hr, Heap.mk_bufs]
      exact Heap.read_eq_ok (getElem?_eq_getD 0 (by simpa [hblen] using hi))
    have hgB : small.getSingle (⟨h.bufs ++ [data, G]⟩ : Heap α)
        (broadcastIdx small.dims d (unravel big.dims (i : Int)))
        = .ok ((h.buf small.arr).getD (rowMajor small.dims
            (broadcastIdx small.dims d (unravel big.dims (i : Int)))).toNat 0) := by
      rw [getSingle_append_left _ hsarr, getSingle_valid hvs, Heap.mk_bufs]
      exact Heap.read_eq_ok (getElem?_eq_getD 0
        (by rw [hslen]; exact rowMajor_toNat_lt hvs hssz))
    have hw : ∀ v : α, out.setSingle (⟨h.bufs ++ [data, G]⟩ : Heap α) v
        (unravel big.dims (i : Int)) = .ok ⟨h.bufs ++ [data.set i v, G]⟩ := by
      intro v
      rw [setSingle_valid (by rw [ho]; exact hv), ho, hr, hoa]
      simpa using Heap.write_append h.bufs [G] v (by omega : i < data.length)
    obtain ⟨l0', c', hadv⟩ := advanceSmall_lockstep big.dims small.dims
      (unravel big.dims (i : Int)) d unravel_length hd hsne (hA i hi)
      r0 l0
    simp only [broadcastStep, hgA, hgB, hw, bind_ok, hadv, Tensor.idxIncr]
    refine ⟨_, rfl, ⟨_, rfl, by simpa using hl, ?_⟩, ?_⟩
    · intro p hp
      rcases Nat.lt_or_ge p i with hlt | hge
      · rw [List.getElem?_set_ne (by omega)]; exact hpre p hlt
      · have hpe : p = i := by omega
        subst hpe
        rw [List.getElem?_set_self (by omega)]
        simp only [broadcastData, hdd]
    · intro hi1
      have hi1' : (i : Int) + 1 < big.dims.prod := by omega
      obtain ⟨o1, _⟩ := (idxIncrLoop_unravel hbpos hi').1 hi1'
      simp only [unravel_length, Nat.cast_add, Nat.cast_one]
      rw [o1]
      exact ⟨rfl, rfl, l0', rfl⟩
  · -- at the exit
    rintro st ⟨⟨data, hs, hl, hpre⟩, _⟩
    rw [hs, list_eq_map_range hl hpre]

end BroadcastLoop

end num

namespace num

theorem unravel_rowMajor {D I : List Int} (hI : ValidIdx D I) :
    unravel D (rowMajor D I) = I := by
  obtain ⟨b0, b1⟩ := rowMajor_bounds hI
  obtain ⟨v, r⟩ := unravel_spec (validIdx_pos hI) b0 b1
  exact rowMajor_inj v hI r

section BroadcastForward

variable {α : Type} [LinearOrderedField α]

omit [LinearOrderedField α] in
theorem biggerOf_wf {h : Heap α} {a b : Tensor} (ha : a.WF h) (hb : b.WF h) :
    (biggerOf a b).WF h := by
  unfold biggerOf; split <;> assumption

omit [LinearOrderedField α] in
theorem smallerOf_wf {h : Heap α} {a b : Tensor} (ha : a.WF h) (hb : b.WF h) :
    (smallerOf a b).WF h := by
  unfold smallerOf; split <;> assumption

/-- `applyBinaryWithBroadcast` on operands whose shapes divide axis by axis: the
result is a fresh copy of the bigger operand whose data are the combined values. -/
theorem applyBinaryWithBroadcast_ok (h : Heap α) (a b : Tensor) (fn : α → α → α)
    (ha : a.WF h) (hb : b.WF h) (d : Nat)
    (hd : (smallerOf a b).dims.length + d = (biggerOf a b).dims.length)
    (hdiv : ∀ k, k < (smallerOf a b).dims.length →
      (biggerOf a b).dims.getD (k + d) 0 % (smallerOf a b).dims.getD k 0 = 0) :
    applyBinaryWithBroadcast h a b fn
      = .ok ({ biggerOf a b with arr := h.bufs.length, gradArr := h.bufs.length + 1 },
          ⟨h.bufs ++ [(List.range (biggerOf a b).sz).map
            (broadcastData fn (swappedOf a b) (biggerOf a b).dims (smallerOf a b).dims
              (h.buf (biggerOf a b).arr) (h.buf (smallerOf a b).arr)),
            h.buf (biggerOf a b).gradArr]⟩) := by
  have hB := biggerOf_wf ha hb
  have hS := smallerOf_wf ha hb
  have key : applyBinaryWithBroadcast h a b fn
      = (dimRepsLoop (biggerOf a b) (smallerOf a b)
            (((biggerOf a b).dims.length : Int) - ((smallerOf a b).dims.length : Int))
            (biggerOf a b).dims.length (List.replicate (smallerOf a b).dims.length 0)
          >>= fun dimReps =>
            forLoop (biggerOf a b).sz
              (fun _ st => broadcastStep fn (swappedOf a b) (biggerOf a b) (smallerOf a b)
                ((biggerOf a b).clone h).1 dimReps st)
              (((biggerOf a b).clone h).2, IntArrRef.fill (biggerOf a b).dims.length 0,
                IntArrRef.fill (smallerOf a b).dims.length 0, dimReps)
            >>= fun r => .ok (((biggerOf a b).clone h).1, r.1)) := rfl
  have hnd : (((biggerOf a b).dims.length : Int) - ((smallerOf a b).dims.length : Int))
      = (d : Int) := by omega
  have htm : ∀ k, k < (smallerOf a b).dims.length →
      ((biggerOf a b).dims.getD (k + d) 0).tmod ((smallerOf a b).dims.getD k 0) = 0 := by
    intro k hk
    rw [Int.tmod_eq_emod (le_of_lt (getD_pos_of_forall hB.2.1 (by omega)))
      (le_of_lt (getD_pos_of_forall hS.2.1 hk))]
    exact hdiv k hk
  obtain ⟨r0, hr⟩ := dimRepsLoop_ok (biggerOf a b) (smallerOf a b) d hd hS.1 htm
  obtain ⟨st', hloop, hst⟩ := broadcast_loop_ok fn (swappedOf a b) h (biggerOf a b)
    (smallerOf a b) { biggerOf a b with arr := h.bufs.length, gradArr := h.bufs.length + 1 }
    d hB hS hd hdiv rfl rfl (h.buf (biggerOf a b).arr) (h.buf (biggerOf a b).gradArr)
    hB.2.2.2.2.2.1 r0
  rw [key, hnd, hr, bind_ok, clone_ok h _ hB.2.2.2.2.2.1 hB.2.2.2.2.2.2, hloop, bind_ok, hst]

/-- C1. Broadcast forward semantics: with `big`/`small` chosen by element count
(tie: higher rank, then `a`), `d = rank(big) - rank(small) ≥ 0` and
`big.dims[k+d] % small.dims[k] = 0` on every axis of `small`, the result has the
shape of `big` and `result[I] = fn(a_elem, b_elem)` in the original argument
order, the element of `big` being `big[I]` and that of `small` being `small[J]`
with `J[k] = I[k+d] mod small.dims[k]`. -/
theorem applyBinaryWithBroadcast_forward (fn : α → α → α) (h : Heap α) (a b : Tensor)
    (ha : a.WF h) (hb : b.WF h)
    (hrank : (smallerOf a b).dims.length ≤ (biggerOf a b).dims.length)
    (hdiv : ∀ k, k < (smallerOf a b).dims.length →
      (biggerOf a b).dims.getD
          (k + ((biggerOf a b).dims.length - (smallerOf a b).dims.length)) 0
        % (smallerOf a b).dims.getD k 0 = 0) :
    ∃ (out : Tensor) (h' : Heap α), applyBinaryWithBroadcast h a b fn = .ok (out, h') ∧
      out.dims = (biggerOf a b).dims ∧
      ∀ I J : IntArrRef, I.length = (biggerOf a b).dims.length →
        (∀ k, k < (biggerOf a b).dims.length →
          0 ≤ I.getD k 0 ∧ I.getD k 0 < (biggerOf a b).dims.getD k 0) →
        J.length = (smallerOf a b).dims.length →
        (∀ k, k < (smallerOf a b).dims.length →
          J.getD k 0 = I.getD
              (k + ((biggerOf a b).dims.length - (smallerOf a b).dims.length)) 0
            % (smallerOf a b).dims.getD k 0) →
        ∃ x y : α,
          (biggerOf a b).getSingle h I = .ok x ∧ (smallerOf a b).getSingle h J = .ok y ∧
          out.getSingle h' I = .ok (if swappedOf a b then fn y x else fn x y) := by
  have hB := biggerOf_wf ha hb
  have hS := smallerOf_wf ha hb
  have hd : (smallerOf a b).dims.length
      + ((biggerOf a b).dims.length - (smallerOf a b).dims.length)
      = (biggerOf a b).dims.length := by omega
  refine ⟨_, _, applyBinaryWithBroadcast_ok h a b fn ha hb _ hd hdiv, rfl, ?_⟩
  intro I J hIl hI hJl hJ
  have hV : ValidIdx (biggerOf a b).dims I := validIdx_iff.2 ⟨hIl, hI⟩
  have hJe : J = broadcastIdx (smallerOf a b).dims
      ((biggerOf a b).dims.length - (smallerOf a b).dims.length) I := by
    apply list_ext_getD
    · simp only [broadcastIdx, List.length_zipWith, List.length_drop, hJl, hIl]; omega
    · intro k hk
      rw [hJ k (by omega), broadcastIdx,
        getD_zipWith (by simp only [List.length_drop]; omega) (by omega), getD_drop,
        Nat.add_comm]
  have hAl := alignedInv_of_div hd hS.2.1 hdiv hV
  have hVJ : ValidIdx (smallerOf a b).dims J := by
    rw [hJe]; exact validIdx_zipWith_mod hAl
  have hn : (rowMajor (biggerOf a b).dims I).toNat < (biggerOf a b).sz :=
    rowMajor_toNat_lt hV hB.2.2.1
  refine ⟨(h.buf (biggerOf a b).arr).getD (rowMajor (biggerOf a b).dims I).toNat 0,
    (h.buf (smallerOf a b).arr).getD (rowMajor (smallerOf a b).dims J).toNat 0, ?_, ?_, ?_⟩
  · rw [getSingle_valid hV]
    exact Heap.read_eq_ok (getElem?_eq_getD 0 (by rw [hB.2.2.2.2.2.1]; exact hn))
  · rw [getSingle_valid hVJ]
    exact Heap.read_eq_ok (getElem?_eq_getD 0
      (by rw [hS.2.2.2.2.2.1]; exact rowMajor_toNat_lt hVJ hS.2.2.1))
  · refine (getSingle_valid (by exact hV)).trans ?_
    apply Heap.read_eq_ok
    simp only [Heap.buf_append_length]
    rw [List.getElem?_map, List.getElem?_range hn]
    simp only [Option.map_some', broadcastData, rowMajor_cast hV, unravel_rowMajor hV, ← hJe]

/-- Instance of C1: the `2 × 3` example matrix plus the example vector of length 3. -/
theorem applyBinaryWithBroadcast_forward_witness :
    (applyBinaryWithBroadcast examples.heap examples.m23 examples.v3
      (fun x y : ℚ => x + y)).map (fun r => r.1.dims) = .ok [2, 3] := by
  obtain ⟨out, h', e, hd, _⟩ := applyBinaryWithBroadcast_forward (fun x y : ℚ => x + y)
    examples.heap examples.m23 examples.v3 (by unfold Tensor.WF; decide)
    (by unfold Tensor.WF; decide) (by decide) (by decide)
  rw [e]
  simp only [Except.map, hd]
  decide

end BroadcastForward

end num

namespace num

theorem prod_le_prod_of_le : ∀ {A B : List Int}, List.Forall₂ (fun a b => 0 < b ∧ b ≤ a) A B →
    0 < B.prod ∧ B.prod ≤ A.prod
  | [], [], _ => by simp
  | a :: A, b :: B, h => by
    cases h with
    | cons h1 h2 =>
      obtain ⟨p0, p1⟩ := prod_le_prod_of_le h2
      simp only [List.prod_cons]
      refine ⟨mul_pos h1.1 p0, ?_⟩
      calc b * B.prod ≤ a * B.prod := mul_le_mul_of_nonneg_right h1.2 (le_of_lt p0)
        _ ≤ a * A.prod := mul_le_mul_of_nonneg_left p1 (by omega)

theorem eq_of_le_of_prod_eq : ∀ {A B : List Int}, List.Forall₂ (fun a b => 0 < b ∧ b ≤ a) A B →
    A.prod = B.prod → A = B
  | [], [], _, _ => rfl
  | a :: A, b :: B, h, e => by
    cases h with
    | cons h1 h2 =>
      obtain ⟨p0, p1⟩ := prod_le_prod_of_le h2
      simp only [List.prod_cons] at e
      have hab : a = b := by
        by_contra hne
        have hlt : b < a := by omega
        have h3 : b * B.prod < a * B.prod := mul_lt_mul_of_pos_right hlt p0
        have h4 : a * B.prod ≤ a * A.prod := mul_le_mul_of_nonneg_left p1 (by omega)
        omega
      subst hab
      have hp : A.prod = B.prod := by
        have := mul_left_cancel₀ (ne_of_gt h1.1) e
        exact this
      rw [eq_of_le_of_prod_eq h2 hp]

theorem forall₂_of_pointwise : ∀ {A B : List Int}, A.length = B.length →
    (∀ k, k < A.length → 0 < A.getD k 0 ∧ 0 < B.getD k 0 ∧ A.getD k 0 % B.getD k 0 = 0) →
    List.Forall₂ (fun a b => 0 < b ∧ b ≤ a) A B
  | [], [], _, _ => List.Forall₂.nil
  | a :: A, b :: B, hl, hp => by
    have h0 := hp 0 (by simp)
    simp only [List.getD_cons_zero] at h0
    refine List.Forall₂.cons ⟨h0.2.1, ?_⟩ ?_
    · exact Int.le_of_dvd h0.1 (Int.dvd_of_emod_eq_zero h0.2.2)
    · apply forall₂_of_pointwise (by simpa using hl)
      intro k hk
      simpa using hp (k + 1) (by simpa using hk)
  | [], _ :: _, h, _ => by simp at h
  | _ :: _, [], h, _ => by simp at h

/-- Shapes of the same rank and element count that divide axis by axis are equal. -/
theorem dims_eq_of_div {A B : List Int} (hl : A.length = B.length) (hA : ∀ x ∈ A, 0 < x)
    (hB : ∀ x ∈ B, 0 < x) (hp : A.prod = B.prod)
    (hdiv : ∀ k, k < B.length → A.getD (k + 0) 0 % B.getD k 0 = 0) : A = B := by
  apply eq_of_le_of_prod_eq _ hp
  apply forall₂_of_pointwise hl
  intro k hk
  exact ⟨getD_pos_of_forall hA hk, getD_pos_of_forall hB (by omega), hdiv k (by omega)⟩

theorem dimRepsLoop_fail (big small : Tensor) :
    ∀ (n : Nat) (dimReps : List Int),
      (∃ k, k < n ∧ (big.dims.getD k 0).tmod (small.dims.getD k 0) ≠ 0) →
      dimRepsLoop big small 0 n dimReps = .error .ShapeMismatchError
  | 0, _, ⟨k, hk, _⟩ => by omega
  | n + 1, dimReps, ⟨k, hk, hne⟩ => by
    rw [dimRepsLoop]
    have h1 : ¬ ((n : Int) - 0 < 0) := by omega
    have h2 : ((n : Int) - 0).toNat = n := by omega
    simp only [h1, if_false, h2]
    by_cases hn : (big.dims.getD n 0).tmod (small.dims.getD n 0) ≠ 0
    · rw [if_pos hn]
    · rw [if_neg hn]
      apply dimRepsLoop_fail
      refine ⟨k, ?_, hne⟩
      rcases Nat.lt_or_ge k n with h | h
      · exact h
      · exfalso
        have : k = n := by omega
        subst this
        exact hn hne

section Commutativity

variable {α : Type} [LinearOrderedField α]

theorem applyBinaryWithBroadcast_eq (h : Heap α) (a b : Tensor) (fn : α → α → α) :
    applyBinaryWithBroadcast h a b fn
      = (dimRepsLoop (biggerOf a b) (smallerOf a b)
            (((biggerOf a b).dims.length : Int) - ((smallerOf a b).dims.length : Int))
            (biggerOf a b).dims.length (List.replicate (smallerOf a b).dims.length 0)
          >>= fun dimReps =>
            forLoop (biggerOf a b).sz
              (fun _ st => broadcastStep fn (swappedOf a b) (biggerOf a b) (smallerOf a b)
                ((biggerOf a b).clone h).1 dimReps st)
              (((biggerOf a b).clone h).2, IntArrRef.fill (biggerOf a b).dims.length 0,
                IntArrRef.fill (smallerOf a b).dims.length 0, dimReps)
            >>= fun r => .ok (((biggerOf a b).clone h).1, r.1)) := rfl

omit [LinearOrderedField α] in
theorem broadcastStep_comm (fn : α → α → α) (hfn : ∀ x y, fn x y = fn y x) (s : Bool)
    (big small out : Tensor) (dimReps : List Int) :
    broadcastStep fn s big small out dimReps = broadcastStep fn (!s) big small out dimReps := by
  funext st
  simp only [broadcastStep]
  cases s <;> simp [hfn]

/-- When the two argument orders select the same bigger operand, a commutative
`fn` gives the very same computation. -/
theorem applyBinaryWithBroadcast_swap (h : Heap α) (a b : Tensor) (fn : α → α → α)
    (hfn : ∀ x y, fn x y = fn y x) (hs : swappedOf b a = !swappedOf a b) :
    applyBinaryWithBroadcast h b a fn = applyBinaryWithBroadcast h a b fn := by
  have hb : biggerOf b a = biggerOf a b := by
    simp only [biggerOf, hs]; cases swappedOf a b <;> simp
  have hsm : smallerOf b a = smallerOf a b := by
    simp only [smallerOf, hs]; cases swappedOf a b <;> simp
  rw [applyBinaryWithBroadcast_eq, applyBinaryWithBroadcast_eq, hb, hsm, hs]
  congr 1
  funext dimReps
  rw [← broadcastStep_comm fn hfn]

omit [LinearOrderedField α] in
theorem swappedOf_cases (a b : Tensor) :
    swappedOf b a = (!swappedOf a b) ∨
    (swappedOf a b = false ∧ swappedOf b a = false ∧ a.sz = b.sz ∧
      a.dims.length = b.dims.length) := by
  unfold swappedOf
  by_cases h1 : a.sz < b.sz ∨ (a.sz = b.sz ∧ b.dims.length > a.dims.length)
  · left
    have h2 : ¬ (b.sz < a.sz ∨ (b.sz = a.sz ∧ a.dims.length > b.dims.length)) := by omega
    simp [h1, h2]
  · by_cases h2 : b.sz < a.sz ∨ (b.sz = a.sz ∧ a.dims.length > b.dims.length)
    · left; simp [h1, h2]
    · right
      refine ⟨by simp [h1], by simp [h2], by omega, by omega⟩

theorem broadcastData_same_shape (fn : α → α → α) (D : List Int) (hD : ∀ d ∈ D, 0 < d)
    (x y : List α) {p : Nat} (hp : (p : Int) < D.prod) :
    broadcastData fn false D D x y p = fn (x.getD p 0) (y.getD p 0) := by
  obtain ⟨v, r⟩ := unravel_spec hD (Int.natCast_nonneg p) hp
  have hz : ∀ {E I : List Int}, ValidIdx E I → List.zipWith (fun x s => x % s) I E = I := by
    intro E
    induction E with
    | nil => intro I hI; cases I <;> simp_all [ValidIdx]
    | cons e es ih =>
      intro I hI
      cases I with
      | nil => simp [ValidIdx] at hI
      | cons i is =>
        simp only [List.zipWith_cons_cons, ih hI.2, Int.emod_eq_of_lt hI.1.1 hI.1.2]
  simp only [broadcastData, Bool.false_eq_true, if_false, broadcastIdx, Nat.sub_self,
    List.drop_zero, hz v, r, Int.toNat_ofNat]

/-- C2. Broadcast commutativity of argument order: `add(a, b)` fails exactly when
`add(b, a)` fails, with the same error, and when both succeed the results have the
same shape and the same data, element by element. -/
theorem add_broadcast_comm (h : Heap α) (a b : Tensor) (ha : a.WF h) (hb : b.WF h) :
    (∀ e : NumError, opAdd h a b = .error e ↔ opAdd h b a = .error e) ∧
    ∀ (o1 o2 : Tensor) (h1 h2 : Heap α), opAdd h a b = .ok (o1, h1) →
      opAdd h b a = .ok (o2, h2) → o1.dims = o2.dims ∧ h1.buf o1.arr = h2.buf o2.arr := by
  have hcomm : ∀ x y : α, (fun a b : α => a + b) x y = (fun a b : α => a + b) y x := by
    intro x y; simp [add_comm]
  have hab : opAdd h a b = (applyBinaryWithBroadcast h a b (fun a b : α => a + b) >>= fun out =>
      .ok ({ out.1 with gradGraphChildren := [a, b], backwardFn := .Add }, out.2)) := rfl
  have hba : opAdd h b a = (applyBinaryWithBroadcast h b a (fun a b : α => a + b) >>= fun out =>
      .ok ({ out.1 with gradGraphChildren := [b, a], backwardFn := .Add }, out.2)) := rfl
  rcases swappedOf_cases a b with hs | ⟨hs1, hs2, hsz, hrk⟩
  · -- both orders select the same bigger operand
    rw [hab, hba, applyBinaryWithBroadcast_swap h a b _ hcomm hs]
    cases hr : applyBinaryWithBroadcast h a b (fun a b : α => a + b) with
    | error e => simp [bind_error]
    | ok r =>
      simp only [bind_ok]
      refine ⟨by intro e; simp, ?_⟩
      intro o1 o2 h1 h2 e1 e2
      simp only [Except.ok.injEq, Prod.mk.injEq] at e1 e2
      obtain ⟨rfl, rfl⟩ := e1
      obtain ⟨rfl, rfl⟩ := e2
      exact ⟨rfl, rfl⟩
  · -- a tie in element count and rank
    have hBa : biggerOf a b = a := by simp [biggerOf, hs1]
    have hSa : smallerOf a b = b := by simp [smallerOf, hs1]
    have hBb : biggerOf b a = b := by simp [biggerOf, hs2]
    have hSb : smallerOf b a = a := by simp [smallerOf, hs2]
    have hprod : a.dims.prod = b.dims.prod := by
      rw [← ha.2.2.1, ← hb.2.2.1, hsz]
    by_cases hdims : a.dims = b.dims
    · have h1 := applyBinaryWithBroadcast_ok h a b (fun a b : α => a + b) ha hb 0
        (by rw [hBa, hSa]; omega) (by
          intro k hk
          rw [hBa, hSa, hdims]
          exact Int.emod_self)
      have h2 := applyBinaryWithBroadcast_ok h b a (fun a b : α => a + b) hb ha 0
        (by rw [hBb, hSb]; omega) (by
          intro k hk
          rw [hBb, hSb, hdims]
          exact Int.emod_self)
      rw [hBa, hSa, hs1] at h1
      rw [hBb, hSb, hs2] at h2
      rw [hab, hba, h1, h2]
      simp only [bind_ok]
      refine ⟨by intro e; simp, ?_⟩
      intro o1 o2 g1 g2 e1 e2
      simp only [Except.ok.injEq, Prod.mk.injEq] at e1 e2
      obtain ⟨rfl, rfl⟩ := e1
      obtain ⟨rfl, rfl⟩ := e2
      refine ⟨hdims, ?_⟩
      simp only [Heap.buf_append_length, hsz]
      apply List.map_congr_left
      intro p hp
      have hp' : (p : Int) < b.dims.prod := by
        have := List.mem_range.1 hp
        have := hb.2.2.1
        omega
      rw [hdims, broadcastData_same_shape _ _ hb.2.1 _ _ hp',
        broadcastData_same_shape _ _ hb.2.1 _ _ hp']
      exact add_comm _ _
    · have hex : ∀ (x y : Tensor), x.WF h → y.WF h → x.dims.length = y.dims.length →
          x.dims.prod = y.dims.prod → x.dims ≠ y.dims →
          ∃ k, k < x.dims.length ∧ (x.dims.getD k 0).tmod (y.dims.getD k 0) ≠ 0 := by
        intro x y hx hy hl hp hne
        by_contra hcon
        push_neg at hcon
        apply hne
        apply dims_eq_of_div hl hx.2.1 hy.2.1 hp
        intro k hk
        have := hcon k (by omega)
        rw [Int.tmod_eq_emod (le_of_lt (getD_pos_of_forall hx.2.1 (by omega)))
          (le_of_lt (getD_pos_of_forall hy.2.1 hk))] at this
        simpa using this
      have f1 : applyBinaryWithBroadcast h a b (fun a b : α => a + b)
          = .error .ShapeMismatchError := by
        rw [applyBinaryWithBroadcast_eq, hBa, hSa]
        have : ((a.dims.length : Int) - (b.dims.length : Int)) = 0 := by omega
        rw [this, dimRepsLoop_fail a b _ _ (hex a b ha hb hrk hprod hdims), bind_error]
      have f2 : applyBinaryWithBroadcast h b a (fun a b : α => a + b)
          = .error .ShapeMismatchError := by
        rw [applyBinaryWithBroadcast_eq, hBb, hSb]
        have : ((b.dims.length : Int) - (a.dims.length : Int)) = 0 := by omega
        rw [this, dimRepsLoop_fail b a _ _
          (hex b a hb ha hrk.symm hprod.symm (fun e => hdims e.symm)), bind_error]
      rw [hab, hba, f1, f2]
      simp [bind_error]

/-- Instance of C2 on the `2 × 3` example matrix and the example vector. -/
theorem add_broadcast_comm_witness :
    (opAdd examples.heap examples.m23 examples.v3 = .error .ShapeMismatchError ↔
      opAdd examples.heap examples.v3 examples.m23 = .error .ShapeMismatchError) :=
  (add_broadcast_comm examples.heap examples.m23 examples.v3 (by unfold Tensor.WF; decide)
    (by unfold Tensor.WF; decide)).1 .ShapeMismatchError

end Commutativity

end num

namespace num

/-! ### Gradient accumulation for equal shapes -/

theorem padLoop_self (arr : IntArrRef) : ∀ (n : Nat) (out : IntArrRef), n ≤ arr.length →
    out.length = arr.length → IntArrRef.padLoop arr n n out = arr.take n ++ out.drop n
  | 0, out, _, _ => by simp [IntArrRef.padLoop]
  | n + 1, out, hn, hl => by
    rw [IntArrRef.padLoop, padLoop_self arr n _ (by omega) (by simpa using hl)]
    apply list_ext_getD
    · simp only [List.length_append, List.length_take, List.length_drop, List.length_set]; omega
    · intro k hk
      simp only [List.length_append, List.length_take, List.length_drop, List.length_set] at hk
      simp only [List.getD_eq_getElem?_getD, List.getElem?_append, List.length_take,
        List.getElem?_take, List.getElem?_drop, List.getElem?_set]
      have e1 : min n arr.length = n := by omega
      have e2 : min (n + 1) arr.length = n + 1 := by omega
      rw [e1, e2]
      by_cases h1 : k < n
      · have h2 : k < n + 1 := by omega
        simp [h1, h2]
      · by_cases h3 : k = n
        · subst h3
          have hkl : k < arr.length := by omega
          have hko : k < out.length := by omega
          simp [hkl, hko, List.getElem?_eq_getElem hkl]
        · have h2 : ¬ k < n + 1 := by omega
          simp only [h1, h2, if_false]
          have e3 : n + (k - n) = k := by omega
          have e4 : n + 1 + (k - (n + 1)) = k := by omega
          rw [e3, e4, if_neg (by omega)]

theorem pad_self (arr : IntArrRef) : IntArrRef.pad arr arr.length = arr := by
  rw [IntArrRef.pad, padLoop_self arr arr.length _ (le_refl _) (by simp [IntArrRef.fill])]
  simp [IntArrRef.fill]

theorem lessThanLoop_self (arr : IntArrRef) : ∀ (n i : Nat),
    IntArrRef.lessThanLoop arr arr n i = false
  | 0, i => by simp [IntArrRef.lessThanLoop]
  | n + 1, i => by
    rw [IntArrRef.lessThanLoop]
    simp [lessThanLoop_self arr n]

theorem lessThan_self (arr : IntArrRef) : IntArrRef.lessThan arr arr none = .ok false := by
  unfold IntArrRef.lessThan
  simp only [ne_eq, not_true_eq_false, if_false, lessThanLoop_self]
  split <;> rfl

section SetGradient

variable {α : Type} [LinearOrderedField α]

omit [LinearOrderedField α] in
theorem Heap.buf_mk_set (l : List (List α)) (p q : Nat) (b : List α) :
    (Heap.mk (l.set p b)).buf q = if p = q ∧ p < l.length then b else (Heap.mk l).buf q := by
  by_cases h : p = q
  · subst h
    by_cases hp : p < l.length
    · simp [hp, Heap.buf, List.getD_eq_getElem?_getD, List.getElem?_set_self hp]
    · simp [hp, Heap.buf, List.getD_eq_getElem?_getD, List.getElem?_set,
        List.getElem?_eq_none (not_lt.1 hp)]
  · simp [h, Heap.buf, List.getD_eq_getElem?_getD, List.getElem?_set_ne h]

omit [LinearOrderedField α] in
theorem Heap.buf_mk_append (l r : List (List α)) (q : Nat) :
    (Heap.mk (l ++ r)).buf q
      = if q < l.length then (Heap.mk l).buf q else r.getD (q - l.length) [] := by
  by_cases h : q < l.length
  · simp [h, Heap.buf, List.getD_eq_getElem?_getD, List.getElem?_append_left h]
  · simp [h, Heap.buf, List.getD_eq_getElem?_getD, List.getElem?_append_right (not_lt.1 h)]

omit [LinearOrderedField α] in
theorem set_buf_self (h : Heap α) (p : Nat) : h.bufs.set p (h.buf p) = h.bufs := by
  apply List.ext_getElem?
  intro k
  rw [List.getElem?_set]
  by_cases hk : p = k
  · subst hk
    by_cases hp : p < h.bufs.length
    · simp [hp, Heap.buf, List.getD_eq_getElem?_getD, List.getElem?_eq_getElem hp]
    · simp [hp, List.getElem?_eq_none (not_lt.1 hp)]
  · simp [hk]

/-- `setGradient` with a gradient of the same shape held in another buffer: the
gradient buffer becomes the elementwise sum. -/
theorem setGradient_ok (h : Heap α) (t grad : Tensor) (hd : grad.dims = t.dims)
    (hp : t.gradArr < h.bufs.length) (hl : (h.buf t.gradArr).length = t.sz)
    (hgl : (h.buf grad.arr).length = t.sz) (hne : grad.arr ≠ t.gradArr) :
    t.setGradient h grad = .ok ⟨h.bufs.set t.gradArr ((List.range t.sz).map
      (fun p => (h.buf t.gradArr).getD p 0 + (h.buf grad.arr).getD p 0))⟩ := by
  have key : ∃ s', t.setGradient h grad = .ok s' ∧ s' = ⟨h.bufs.set t.gradArr
      ((List.range t.sz).map
        (fun p => (h.buf t.gradArr).getD p 0 + (h.buf grad.arr).getD p 0))⟩ := by
    unfold Tensor.setGradient
    rw [if_neg (by simp [hd])]
    refine forLoop_inv'
      (fun i (s : Heap α) => ∃ data : List α, s = ⟨h.bufs.set t.gradArr data⟩ ∧
        data.length = t.sz ∧
        (∀ p, p < i → data[p]? = some ((h.buf t.gradArr).getD p 0 + (h.buf grad.arr).getD p 0)) ∧
        (∀ p, i ≤ p → data[p]? = (h.buf t.gradArr)[p]?))
      _ _ _ _ ⟨h.buf t.gradArr, by rw [set_buf_self], hl, by intro p hp; omega,
        by intro p _; rfl⟩ ?_ ?_
    · rintro i s hi ⟨data, hs, hdl, h1, h2⟩
      subst hs
      have hb1 : (Heap.mk (h.bufs.set t.gradArr data)).buf grad.arr = h.buf grad.arr := by
        rw [Heap.buf_mk_set, if_neg (by intro hc; exact hne hc.1.symm), Heap.mk_bufs]
      have hb2 : (Heap.mk (h.bufs.set t.gradArr data)).buf t.gradArr = data := by
        rw [Heap.buf_mk_set, if_pos ⟨rfl, hp⟩]
      have hr1 : (Heap.mk (h.bufs.set t.gradArr data)).read grad.arr (i : Int)
          = .ok ((h.buf grad.arr).getD i 0) :=
        Heap.read_eq_ok (by rw [hb1]; exact getElem?_eq_getD 0 (by omega))
      have hr2 : (Heap.mk (h.bufs.set t.gradArr data)).read t.gradArr (i : Int)
          = .ok ((h.buf t.gradArr).getD i 0) :=
        Heap.read_eq_ok (by
          rw [hb2, h2 i (le_refl _)]; exact getElem?_eq_getD 0 (by omega))
      beta_reduce
      rw [hr1, bind_ok, hr2, bind_ok, Heap.write_ok _ (by rw [hb2]; omega), hb2]
      refine ⟨_, rfl, data.set i ((h.buf t.gradArr).getD i 0 + (h.buf grad.arr).getD i 0),
        by simp, by simpa using hdl, ?_, ?_⟩
      · intro p hp'
        rcases Nat.lt_or_ge p i with hlt | hge
        · rw [List.getElem?_set_ne (by omega)]; exact h1 p hlt
        · have : p = i := by omega
          subst this
          rw [List.getElem?_set_self (by omega)]
      · intro p hp'
        rw [List.getElem?_set_ne (by omega)]
        exact h2 p (by omega)
    · rintro s ⟨data, hs, hdl, h1, _⟩
      rw [hs, list_eq_map_range hdl h1]
  obtain ⟨s', h1, h2⟩ := key
  rw [h1, h2]

/-- `setBroadcastGradient` with a gradient of the tensor's own shape. -/
theorem setBroadcastGradient_same (h : Heap α) (t grad : Tensor) (hd : grad.dims = t.dims)
    (hp : t.gradArr < h.bufs.length) (hl : (h.buf t.gradArr).length = t.sz)
    (hgl : (h.buf grad.arr).length = t.sz) (hne : grad.arr ≠ t.gradArr) :
    t.setBroadcastGradient h grad = .ok ⟨h.bufs.set t.gradArr ((List.range t.sz).map
      (fun p => (h.buf t.gradArr).getD p 0 + (h.buf grad.arr).getD p 0))⟩ := by
  have h1 := setGradient_ok h t { grad with dims := t.dims } rfl hp hl hgl hne
  simp only [Tensor.setBroadcastGradient, hd, pad_self, lessThan_self, bind_ok,
    Bool.false_eq_true, if_false, Tensor.reshape, ne_eq, not_true_eq_false]
  exact h1

end SetGradient

end num

namespace num

section BinaryOps

variable {α : Type} [LinearOrderedField α]

omit [LinearOrderedField α] in
/-- A tensor stays well formed in a heap that kept its data buffer and the length
of its gradient buffer. -/
theorem wf_transfer {h h' : Heap α} {t : Tensor} (ht : t.WF h)
    (hlen : h.bufs.length ≤ h'.bufs.length) (ha : h'.buf t.arr = h.buf t.arr)
    (hg : (h'.buf t.gradArr).length = t.sz) : t.WF h' := by
  obtain ⟨h1, h2, h3, h4, h5, h6, _⟩ := ht
  exact ⟨h1, h2, h3, by omega, by omega, by rw [ha]; exact h6, hg⟩

omit [LinearOrderedField α] in
theorem wf_append {h : Heap α} {t : Tensor} (ht : t.WF h) (extra : List (List α)) :
    t.WF ⟨h.bufs ++ extra⟩ := by
  apply wf_transfer ht (by simp)
  · rw [Heap.buf_mk_append, if_pos ht.2.2.2.1, Heap.mk_bufs]
  · rw [Heap.buf_mk_append, if_pos ht.2.2.2.2.1, Heap.mk_bufs]; exact ht.2.2.2.2.2.2

omit [LinearOrderedField α] in
theorem swappedOf_same {h : Heap α} {a b : Tensor} (ha : a.WF h) (hb : b.WF h)
    (hd : a.dims = b.dims) : swappedOf a b = false ∧ a.sz = b.sz := by
  have hsz : a.sz = b.sz := by
    have h1 := ha.2.2.1
    have h2 := hb.2.2.1
    rw [hd] at h1
    omega
  refine ⟨?_, hsz⟩
  unfold swappedOf
  rw [decide_eq_false_iff_not, hd]
  omega

/-- An elementwise operation on two tensors of the same shape. -/
theorem binary_same_shape_ok (fn : α → α → α) (h : Heap α) (a b : Tensor) (ha : a.WF h)
    (hb : b.WF h) (hd : a.dims = b.dims) :
    applyBinaryWithBroadcast h a b fn
      = .ok ({ a with arr := h.bufs.length, gradArr := h.bufs.length + 1 },
          ⟨h.bufs ++ [(List.range a.sz).map
            (fun p => fn ((h.buf a.arr).getD p 0) ((h.buf b.arr).getD p 0)),
            h.buf a.gradArr]⟩) := by
  obtain ⟨hs, hsz⟩ := swappedOf_same ha hb hd
  have hB : biggerOf a b = a := by simp [biggerOf, hs]
  have hS : smallerOf a b = b := by simp [smallerOf, hs]
  have h1 := applyBinaryWithBroadcast_ok h a b fn ha hb 0 (by rw [hB, hS, hd]; omega) (by
    intro k hk
    rw [hB, hS, hd]
    exact Int.emod_self)
  rw [hB, hS, hs] at h1
  have e : (List.range a.sz).map (broadcastData fn false a.dims b.dims (h.buf a.arr)
        (h.buf b.arr))
      = (List.range a.sz).map
          (fun p => fn ((h.buf a.arr).getD p 0) ((h.buf b.arr).getD p 0)) := by
    apply List.map_congr_left
    intro p hp
    have hp' : (p : Int) < b.dims.prod := by
      have := List.mem_range.1 hp
      have := hb.2.2.1
      omega
    rw [hd, broadcastData_same_shape _ _ hb.2.1 _ _ hp']
  rw [h1, e]

/-- `Function::apply` of one of the elementwise binary operations on two tensors
of the same shape. -/
theorem apply_same_shape_ok (fn : α → α → α) (bw : BackwardFn) (h : Heap α) (a b : Tensor)
    (ha : a.WF h) (hb : b.WF h) (hd : a.dims = b.dims) :
    autofn.Function.apply (autofn.binaryForward fn) bw h [a, b]
      = .ok (⟨a.dims, bw, [a, b], h.bufs.length, h.bufs.length + 1, a.sz⟩,
          ⟨h.bufs ++ [(List.range a.sz).map
            (fun p => fn ((h.buf a.arr).getD p 0) ((h.buf b.arr).getD p 0)),
            h.buf a.gradArr]⟩) := by
  simp only [autofn.Function.apply, autofn.binaryForward, binary_same_shape_ok fn h a b ha hb hd,
    bind_ok]

omit [LinearOrderedField α] in
theorem rowMajor_one (J : List Int) (hJ : J = [] ∨ J = [0]) : (rowMajor [1] J).toNat = 0 := by
  rcases hJ with rfl | rfl <;> simp [rowMajor]

/-- A scalar tensor combined with a tensor: every element is combined with the
scalar and the result has the shape of the tensor. -/
theorem scalar_apply_ok (fn : α → α → α) (bw : BackwardFn) (h : Heap α) (c : α) (g : Tensor)
    (hg : g.WF h) :
    ∃ (out : Tensor) (G : List α),
      autofn.Function.apply (autofn.binaryForward fn) bw (Tensor.ctorScalar h c).2
          [(Tensor.ctorScalar h c).1, g]
        = .ok (out, ⟨h.bufs ++ [[c], [0], (List.range g.sz).map
            (fun p => fn c ((h.buf g.arr).getD p 0)), G]⟩) ∧
      out.dims = g.dims ∧ out.arr = h.bufs.length + 2 ∧ out.gradArr = h.bufs.length + 3 ∧
      out.sz = g.sz ∧ G.length = g.sz := by
  have hc : Tensor.ctorScalar h c
      = (⟨[1], .leaf, [], h.bufs.length, h.bufs.length + 1, 1⟩, ⟨h.bufs ++ [[c], [0]]⟩) := by
    simp [Tensor.ctorScalar, Heap.alloc]
  rw [hc]
  generalize hM : Tensor.mk [1] .leaf [] h.bufs.length (h.bufs.length + 1) 1 = M
  have hMd : M.dims = [1] := by rw [← hM]
  have hMs : M.sz = 1 := by rw [← hM]
  have hMa : M.arr = h.bufs.length := by rw [← hM]
  have hMg : M.gradArr = h.bufs.length + 1 := by rw [← hM]
  have hmb : (Heap.mk (h.bufs ++ [[c], [(0 : α)]])).buf h.bufs.length = [c] :=
    Heap.buf_append_length _ _ _
  have hmg : (Heap.mk (h.bufs ++ [[c], [(0 : α)]])).buf (h.bufs.length + 1) = [0] :=
    Heap.buf_append_length_succ _ _ _ _
  have hm : M.WF (⟨h.bufs ++ [[c], [(0 : α)]]⟩ : Heap α) := by
    refine ⟨by rw [hMd]; simp, by rw [hMd]; simp, by rw [hMd, hMs]; simp, by rw [hMa]; simp,
      by rw [hMg]; simp, by rw [hMa, hmb, hMs]; rfl, by rw [hMg, hmg, hMs]; rfl⟩
  have hg' : g.WF (⟨h.bufs ++ [[c], [(0 : α)]]⟩ : Heap α) := wf_append hg _
  have hgb : (Heap.mk (h.bufs ++ [[c], [(0 : α)]])).buf g.arr = h.buf g.arr := by
    rw [Heap.buf_mk_append, if_pos hg.2.2.2.1, Heap.mk_bufs]
  have hlen : (h.bufs ++ [[c], [(0 : α)]]).length = h.bufs.length + 2 := by simp
  have happ : ∀ (x y : List α), (h.bufs ++ [[c], [(0 : α)]]) ++ [x, y]
      = h.bufs ++ [[c], [0], x, y] := by intro x y; simp
  have hrk : 0 < g.dims.length := List.length_pos.2 hg.1
  cases hs : swappedOf M g with
  | true =>
    have hB : biggerOf M g = g := by simp [biggerOf, hs]
    have hS : smallerOf M g = M := by simp [smallerOf, hs]
    have h1 := applyBinaryWithBroadcast_ok _ M g fn hm hg' (g.dims.length - 1)
      (by rw [hB, hS, hMd]; simp only [List.length_singleton]; omega)
      (by
        intro k hk
        rw [hS, hMd] at hk
        have hk0 : k = 0 := by simpa using hk
        subst hk0
        rw [hB, hS, hMd]
        simp)
    rw [hB, hS, hs, hMd, hMa, hmb, hgb, happ, hlen] at h1
    have e : (List.range g.sz).map (broadcastData fn true g.dims [1] (h.buf g.arr) [c])
        = (List.range g.sz).map (fun p => fn c ((h.buf g.arr).getD p 0)) := by
      apply List.map_congr_left
      intro p _
      have hj : (rowMajor [1] (broadcastIdx [1] (g.dims.length - [(1 : Int)].length)
          (unravel g.dims (p : Int)))).toNat = 0 := by
        apply rowMajor_one
        simp only [broadcastIdx]
        cases (List.drop (g.dims.length - [(1 : Int)].length) (unravel g.dims (p : Int))) with
        | nil => left; rfl
        | cons x xs => right; simp
      simp only [broadcastData, if_true, hj]
      simp
    rw [e] at h1
    simp only [autofn.Function.apply, autofn.binaryForward, h1, bind_ok]
    refine ⟨_, _, rfl, rfl, rfl, rfl, rfl, ?_⟩
    rw [Heap.buf_mk_append, if_pos hg.2.2.2.2.1, Heap.mk_bufs]
    exact hg.2.2.2.2.2.2
  | false =>
    have hsz : g.sz = 1 ∧ g.dims.length = 1 := by
      unfold swappedOf at hs
      rw [decide_eq_false_iff_not, hMs, hMd] at hs
      have hp := prod_pos_of_pos hg.2.1
      have h3 := hg.2.2.1
      simp only [List.length_singleton] at hs
      omega
    have hgd : g.dims = [1] := by
      match hgd : g.dims, hsz.2 with
      | [x], _ =>
        have h3 := hg.2.2.1
        rw [hgd, hsz.1] at h3
        simp at h3
        rw [← h3]
    have h1 := apply_same_shape_ok fn bw _ M g hm hg' (by rw [hgd, hMd])
    rw [hMa, hMs, hmb, hgb, happ, hlen, hMg, hmg] at h1
    have e : (List.range 1).map (fun p => fn (([c] : List α).getD p 0) ((h.buf g.arr).getD p 0))
        = (List.range g.sz).map (fun p => fn c ((h.buf g.arr).getD p 0)) := by
      rw [hsz.1]; simp
    rw [e] at h1
    rw [h1]
    exact ⟨_, _, rfl, by rw [hMd, hgd], rfl, rfl, hsz.1.symm, by rw [hsz.1]; rfl⟩

/-- `applyUnary` rewrites the data buffer in place. -/
theorem applyUnary_ok (h : Heap α) (t : Tensor) (fn : α → α) (hp : t.arr < h.bufs.length)
    (hl : (h.buf t.arr).length = t.sz) :
    t.applyUnary h fn = .ok ⟨h.bufs.set t.arr ((h.buf t.arr).map fn)⟩ := by
  have key : ∃ s', t.applyUnary h fn = .ok s' ∧
      s' = ⟨h.bufs.set t.arr ((h.buf t.arr).map fn)⟩ := by
    unfold Tensor.applyUnary
    refine forLoop_inv'
      (fun i (s : Heap α) => ∃ data : List α, s = ⟨h.bufs.set t.arr data⟩ ∧
        data.length = t.sz ∧
        (∀ p, p < i → data[p]? = some (fn ((h.buf t.arr).getD p 0))) ∧
        (∀ p, i ≤ p → data[p]? = (h.buf t.arr)[p]?))
      _ _ _ _ ⟨h.buf t.arr, by rw [set_buf_self], hl, by intro p hp; omega,
        by intro p _; rfl⟩ ?_ ?_
    · rintro i s hi ⟨data, hs, hdl, h1, h2⟩
      subst hs
      have hb2 : (Heap.mk (h.bufs.set t.arr data)).buf t.arr = data := by
        rw [Heap.buf_mk_set, if_pos ⟨rfl, hp⟩]
      have hr2 : (Heap.mk (h.bufs.set t.arr data)).read t.arr (i : Int)
          = .ok ((h.buf t.arr).getD i 0) :=
        Heap.read_eq_ok (by
          rw [hb2, h2 i (le_refl _)]; exact getElem?_eq_getD 0 (by omega))
      beta_reduce
      rw [hr2, bind_ok, Heap.write_ok _ (by rw [hb2]; omega), hb2]
      refine ⟨_, rfl, data.set i (fn ((h.buf t.arr).getD i 0)), by simp, by simpa using hdl,
        ?_, ?_⟩
      · intro p hp'
        rcases Nat.lt_or_ge p i with hlt | hge
        · rw [List.getElem?_set_ne (by omega)]; exact h1 p hlt
        · have : p = i := by omega
          subst this
          rw [List.getElem?_set_self (by omega)]
      · intro p hp'
        rw [List.getElem?_set_ne (by omega)]
        exact h2 p (by omega)
    · rintro s ⟨data, hs, hdl, h1, _⟩
      rw [hs]
      congr 2
      apply List.ext_getElem?
      intro p
      by_cases hp' : p < t.sz
      · rw [h1 p hp', List.getElem?_map, getElem?_eq_getD 0 (by omega : p < (h.buf t.arr).length)]
        rfl
      · rw [List.getElem?_eq_none (by omega), List.getElem?_eq_none (by simp; omega)]
  obtain ⟨s', h1, h2⟩ := key
  rw [h1, h2]

/-- `Tensor::pow`: a fresh copy whose data are raised to the power. -/
theorem tensor_pow_ok (m : Libm α) (h : Heap α) (t : Tensor) (power : α) (ht : t.WF h) :
    t.pow m h power
      = .ok ({ t with arr := h.bufs.length, gradArr := h.bufs.length + 1 },
          ⟨h.bufs ++ [(h.buf t.arr).map (fun v => m.pow v power), h.buf t.gradArr]⟩) := by
  unfold Tensor.pow Tensor.pow_
  rw [clone_ok h t ht.2.2.2.2.2.1 ht.2.2.2.2.2.2]
  have := applyUnary_ok (⟨h.bufs ++ [h.buf t.arr, h.buf t.gradArr]⟩ : Heap α)
    { t with arr := h.bufs.length, gradArr := h.bufs.length + 1 }
    (fun v => m.pow v power) (by simp) (by simp [Heap.buf_append_length, ht.2.2.2.2.2.1])
  simp only [bind_ok] at this ⊢
  rw [this]
  simp only [Heap.buf_append_length, set_append_length]
  rfl

end BinaryOps

end num

namespace num

section BackwardRules

variable {α : Type} [LinearOrderedField α]

omit [LinearOrderedField α] in
theorem getD_map_range {n p : Nat} (f : Nat → α) (d : α) (hp : p < n) :
    ((List.range n).map f).getD p d = f p := by
  simp [List.getD_eq_getElem?_getD, List.getElem?_map, List.getElem?_range hp]

omit [LinearOrderedField α] in
theorem Heap.buf_append_add (l r : List (List α)) (k : Nat) :
    (Heap.mk (l ++ r)).buf (l.length + k) = r.getD k [] := by
  rw [Heap.buf_mk_append, if_neg (by omega)]
  congr 1
  omega

theorem mul_forward_eq :
    (autofn.Mul.forward : Heap α → List Tensor → Except NumError (Tensor × Heap α))
      = autofn.binaryForward (fun a b => a * b) := rfl

theorem div_forward_eq :
    (autofn.Div.forward : Heap α → List Tensor → Except NumError (Tensor × Heap α))
      = autofn.binaryForward (fun a b => a / b) := rfl

/-- An elementwise operation on two tensors of the same shape yields a new tensor
in fresh buffers appended to the heap. -/
theorem apply_same_shape_spec (fn : α → α → α) (bw : BackwardFn) (H : Heap α) (x y : Tensor)
    (hx : x.WF H) (hy : y.WF H) (hd : x.dims = y.dims) :
    ∃ (out : Tensor) (extra : List (List α)),
      autofn.Function.apply (autofn.binaryForward fn) bw H [x, y]
        = .ok (out, ⟨H.bufs ++ extra⟩) ∧
      out.WF ⟨H.bufs ++ extra⟩ ∧ out.dims = x.dims ∧ out.sz = x.sz ∧
      H.bufs.length ≤ out.arr ∧
      ∀ p, p < x.sz → ((Heap.mk (H.bufs ++ extra)).buf out.arr).getD p 0
        = fn ((H.buf x.arr).getD p 0) ((H.buf y.arr).getD p 0) := by
  refine ⟨_, _, apply_same_shape_ok fn bw H x y hx hy hd, ?_, rfl, rfl, le_refl _, ?_⟩
  · refine ⟨hx.1, hx.2.1, hx.2.2.1, by simp, by simp, ?_, ?_⟩
    · simp [Heap.buf_append_length]
    · simp only [Heap.buf_append_length_succ]; exact hx.2.2.2.2.2.2
  · intro p hp
    simp only [Heap.buf_append_length]
    rw [getD_map_range _ _ hp]

/-- A scalar combined with a tensor yields a new tensor of the tensor's shape in
fresh buffers appended to the heap. -/
theorem scalar_apply_spec (fn : α → α → α) (bw : BackwardFn) (H : Heap α) (c : α) (g : Tensor)
    (hg : g.WF H) :
    ∃ (out : Tensor) (extra : List (List α)),
      autofn.Function.apply (autofn.binaryForward fn) bw (Tensor.ctorScalar H c).2
          [(Tensor.ctorScalar H c).1, g]
        = .ok (out, ⟨H.bufs ++ extra⟩) ∧
      out.WF ⟨H.bufs ++ extra⟩ ∧ out.dims = g.dims ∧ out.sz = g.sz ∧
      H.bufs.length ≤ out.arr ∧
      ∀ p, p < g.sz → ((Heap.mk (H.bufs ++ extra)).buf out.arr).getD p 0
        = fn c ((H.buf g.arr).getD p 0) := by
  obtain ⟨out, G, h1, h2, h3, h5, h4, h6⟩ := scalar_apply_ok fn bw H c g hg
  have hb2 : (Heap.mk (H.bufs ++ [[c], [0], (List.range g.sz).map
      (fun p => fn c ((H.buf g.arr).getD p 0)), G])).buf (H.bufs.length + 2)
      = (List.range g.sz).map (fun p => fn c ((H.buf g.arr).getD p 0)) := by
    rw [Heap.buf_append_add]; rfl
  have hb3 : (Heap.mk (H.bufs ++ [[c], [0], (List.range g.sz).map
      (fun p => fn c ((H.buf g.arr).getD p 0)), G])).buf (H.bufs.length + 3) = G := by
    rw [Heap.buf_append_add]; rfl
  refine ⟨out, _, h1, ?_, h2, h4, by omega, ?_⟩
  · refine ⟨by rw [h2]; exact hg.1, by rw [h2]; exact hg.2.1, by rw [h2, h4]; exact hg.2.2.1,
      by rw [h3]; simp, by rw [h5]; simp, ?_, ?_⟩
    · rw [h3, hb2, h4]; simp
    · rw [h5, hb3, h4]; exact h6
  · intro p hp
    rw [h3, hb2, getD_map_range _ _ hp]

/-- `Tensor::pow` yields a new tensor of the same shape in fresh buffers. -/
theorem tensor_pow_spec (m : Libm α) (H : Heap α) (t : Tensor) (power : α) (ht : t.WF H) :
    ∃ (out : Tensor) (extra : List (List α)),
      t.pow m H power = .ok (out, ⟨H.bufs ++ extra⟩) ∧
      out.WF ⟨H.bufs ++ extra⟩ ∧ out.dims = t.dims ∧ out.sz = t.sz ∧
      H.bufs.length ≤ out.arr ∧
      ∀ p, p < t.sz → ((Heap.mk (H.bufs ++ extra)).buf out.arr).getD p 0
        = m.pow ((H.buf t.arr).getD p 0) power := by
  refine ⟨_, _, tensor_pow_ok m H t power ht, ?_, rfl, rfl, le_refl _, ?_⟩
  · refine ⟨ht.1, ht.2.1, ht.2.2.1, by simp, by simp, ?_, ?_⟩
    · simp only [Heap.buf_append_length, List.length_map]; exact ht.2.2.2.2.2.1
    · simp only [Heap.buf_append_length_succ]; exact ht.2.2.2.2.2.2
  · intro p hp
    simp only [Heap.buf_append_length]
    have hp' : p < (H.buf t.arr).length := by rw [ht.2.2.2.2.2.1]; exact hp
    simp [List.getD_eq_getElem?_getD, List.getElem?_map, List.getElem?_eq_getElem hp']

/-- Accumulating a gradient of the tensor's own shape: only the gradient buffer of
the tensor changes, by the elementwise sum. -/
theorem accumulate_spec (H : Heap α) (t gr : Tensor) (ht : t.WF H) (hgr : gr.WF H)
    (hd : gr.dims = t.dims) (hne : gr.arr ≠ t.gradArr) :
    ∃ H' : Heap α, t.setBroadcastGradient H gr = .ok H' ∧
      H'.bufs.length = H.bufs.length ∧
      (∀ q, q ≠ t.gradArr → H'.buf q = H.buf q) ∧
      (∀ q, (H'.buf q).length = (H.buf q).length) ∧
      ∀ p, p < t.sz → (H'.buf t.gradArr).getD p 0
        = (H.buf t.gradArr).getD p 0 + (H.buf gr.arr).getD p 0 := by
  have hsz : gr.sz = t.sz := by
    have h1 := hgr.2.2.1
    have h2 := ht.2.2.1
    rw [hd] at h1
    omega
  refine ⟨_, setBroadcastGradient_same H t gr hd ht.2.2.2.2.1 ht.2.2.2.2.2.2
    (by rw [hgr.2.2.2.2.2.1, hsz]) hne, by simp, ?_, ?_, ?_⟩
  · intro q hq
    rw [Heap.buf_set_other _ (Ne.symm hq)]
  · intro q
    by_cases hq : q = t.gradArr
    · subst hq
      rw [Heap.buf_set_self _ ht.2.2.2.2.1]
      simp [ht.2.2.2.2.2.2]
    · rw [Heap.buf_set_other _ (Ne.symm hq)]
  · intro p hp
    rw [Heap.buf_set_self _ ht.2.2.2.2.1, getD_map_range _ _ hp]

omit [LinearOrderedField α] in
/-- Well-formedness survives a step that keeps the data buffer and all lengths. -/
theorem wf_frame {H H' : Heap α} {x : Tensor} (hx : x.WF H)
    (hlen : H.bufs.length ≤ H'.bufs.length) (hb : H'.buf x.arr = H.buf x.arr)
    (hl : (H'.buf x.gradArr).length = (H.buf x.gradArr).length) : x.WF H' :=
  wf_transfer hx hlen hb (by rw [hl]; exact hx.2.2.2.2.2.2)

omit [LinearOrderedField α] in
theorem buf_app {H : Heap α} {q : Nat} (extra : List (List α)) (hq : q < H.bufs.length) :
    (Heap.mk (H.bufs ++ extra)).buf q = H.buf q := by
  rw [Heap.buf_append_left hq, Heap.mk_bufs]

end BackwardRules

end num

namespace num

section BackwardRulesProofs

variable {α : Type} [LinearOrderedField α]

omit [LinearOrderedField α] in
theorem same_sz {h : Heap α} {x y : Tensor} (hx : x.WF h) (hy : y.WF h) (hd : x.dims = y.dims) :
    x.sz = y.sz := by
  have h1 := hx.2.2.1
  have h2 := hy.2.2.1
  rw [hd] at h1
  omega

theorem add_backward_ok (h : Heap α) (a b g : Tensor) (ha : a.WF h) (hb : b.WF h)
    (hg : g.WF h) (hab : a.dims = b.dims) (hga : g.dims = a.dims) (hsep : Separated a b g) :
    ∃ h' : Heap α, autofn.Add.backward h g [a, b] = .ok h' ∧
      GradAccumulated h h' a b (fun p => (h.buf g.arr).getD p 0)
        (fun p => (h.buf g.arr).getD p 0) := by
  obtain ⟨s1, s2, s3, s4, s5, s6, s7, s8, s9⟩ := hsep
  obtain ⟨H1, e1, l1, f1, n1, v1⟩ := accumulate_spec h a g ha hg hga (Ne.symm s4)
  have hb1 : b.WF H1 := wf_frame hb (by omega) (f1 _ (Ne.symm s3)) (n1 _)
  have hg1 : g.WF H1 := wf_frame hg (by omega) (f1 _ (Ne.symm s4)) (n1 _)
  obtain ⟨H2, e2, l2, f2, n2, v2⟩ := accumulate_spec H1 b g hb1 hg1 (hga.trans hab) (Ne.symm s8)
  refine ⟨H2, ?_, ?_⟩
  · simp only [autofn.Add.backward, autofn.operand, List.getElem?_cons_zero,
      List.getElem?_cons_succ, bind_ok, e1, e2]
  · refine ⟨by rw [n2, n1]; exact ha.2.2.2.2.2.2, by rw [n2, n1]; exact hb.2.2.2.2.2.2,
      ?_, ?_, ?_, ?_⟩
    · intro p hp
      rw [f2 _ s1, v1 p hp]
    · intro p hp
      rw [v2 p hp, f1 _ (Ne.symm s1), f1 _ (Ne.symm s4)]
    · rw [f2 _ (Ne.symm s6), f1 _ (Ne.symm s2)]
    · rw [f2 _ (Ne.symm s7), f1 _ (Ne.symm s3)]

theorem sub_backward_ok (h : Heap α) (a b g : Tensor) (ha : a.WF h) (hb : b.WF h)
    (hg : g.WF h) (hab : a.dims = b.dims) (hga : g.dims = a.dims) (hsep : Separated a b g) :
    ∃ h' : Heap α, autofn.Sub.backward h g [a, b] = .ok h' ∧
      GradAccumulated h h' a b (fun p => (h.buf g.arr).getD p 0)
        (fun p => - (h.buf g.arr).getD p 0) := by
  obtain ⟨s1, s2, s3, s4, s5, s6, s7, s8, s9⟩ := hsep
  have hgs : g.sz = b.sz := same_sz hg hb (hga.trans hab)
  obtain ⟨H1, e1, l1, f1, n1, v1⟩ := accumulate_spec h a g ha hg hga (Ne.symm s4)
  have hb1 : b.WF H1 := wf_frame hb (by omega) (f1 _ (Ne.symm s3)) (n1 _)
  have hg1 : g.WF H1 := wf_frame hg (by omega) (f1 _ (Ne.symm s4)) (n1 _)
  obtain ⟨ng, ex, e2, w2, d2, z2, a2, v2⟩ :=
    scalar_apply_spec (fun x y : α => x * y) .Mul H1 (-1) g hg1
  have hb2 : b.WF (⟨H1.bufs ++ ex⟩ : Heap α) := wf_append hb1 ex
  have hbl : b.gradArr < H1.bufs.length := hb1.2.2.2.2.1
  obtain ⟨H3, e3, l3, f3, n3, v3⟩ := accumulate_spec ⟨H1.bufs ++ ex⟩ b ng hb2 w2
    (d2.trans (hga.trans hab)) (by omega)
  refine ⟨H3, ?_, ?_⟩
  · simp only [autofn.Sub.backward, autofn.operand, List.getElem?_cons_zero,
      List.getElem?_cons_succ, bind_ok, e1, opMul, mul_forward_eq, e2, e3]
  · have hal : a.gradArr < H1.bufs.length := by rw [l1]; exact ha.2.2.2.2.1
    have haa : a.arr < H1.bufs.length := by rw [l1]; exact ha.2.2.2.1
    have hba : b.arr < H1.bufs.length := by rw [l1]; exact hb.2.2.2.1
    refine ⟨by rw [n3, buf_app ex hal, n1]; exact ha.2.2.2.2.2.2,
      by rw [n3, buf_app ex hbl, n1]; exact hb.2.2.2.2.2.2, ?_, ?_, ?_, ?_⟩
    · intro p hp
      rw [f3 _ s1, buf_app ex hal, v1 p hp]
    · intro p hp
      rw [v3 p hp, buf_app ex hbl, f1 _ (Ne.symm s1), v2 p (by omega), f1 _ (Ne.symm s4)]
      simp
    · rw [f3 _ (Ne.symm s6), buf_app ex haa, f1 _ (Ne.symm s2)]
    · rw [f3 _ (Ne.symm s7), buf_app ex hba, f1 _ (Ne.symm s3)]

theorem mul_backward_ok (h : Heap α) (a b g : Tensor) (ha : a.WF h) (hb : b.WF h)
    (hg : g.WF h) (hab : a.dims = b.dims) (hga : g.dims = a.dims) (hsep : Separated a b g) :
    ∃ h' : Heap α, autofn.Mul.backward h g [a, b] = .ok h' ∧
      GradAccumulated h h' a b
        (fun p => (h.buf b.arr).getD p 0 * (h.buf g.arr).getD p 0)
        (fun p => (h.buf a.arr).getD p 0 * (h.buf g.arr).getD p 0) := by
  obtain ⟨s1, s2, s3, s4, s5, s6, s7, s8, s9⟩ := hsep
  have hbs : b.sz = a.sz := same_sz hb ha hab.symm
  have hal : a.gradArr < h.bufs.length := ha.2.2.2.2.1
  have hbl : b.gradArr < h.bufs.length := hb.2.2.2.2.1
  have haa : a.arr < h.bufs.length := ha.2.2.2.1
  have hba : b.arr < h.bufs.length := hb.2.2.2.1
  have hga' : g.arr < h.bufs.length := hg.2.2.2.1
  have hgg : g.gradArr < h.bufs.length := hg.2.2.2.2.1
  -- ga = b * g
  obtain ⟨ga, x1, e1, w1, d1, z1, a1, v1⟩ :=
    apply_same_shape_spec (fun x y : α => x * y) .Mul h b g hb hg (hab.symm.trans hga.symm)
  have ha1 : a.WF (⟨h.bufs ++ x1⟩ : Heap α) := wf_append ha x1
  obtain ⟨H2, e2, l2, f2, n2, v2⟩ := accumulate_spec ⟨h.bufs ++ x1⟩ a ga ha1 w1
    (d1.trans hab.symm) (by omega)
  -- gb = a * g
  have ha2 : a.WF H2 := wf_frame ha1 (by omega) (f2 _ (Ne.symm s2)) (n2 _)
  have hg2 : g.WF H2 := wf_frame (wf_append hg x1) (by omega) (f2 _ (Ne.symm s4)) (n2 _)
  have hb2 : b.WF H2 := wf_frame (wf_append hb x1) (by omega) (f2 _ (Ne.symm s3)) (n2 _)
  obtain ⟨gb, x3, e3, w3, d3, z3, a3, v3⟩ :=
    apply_same_shape_spec (fun x y : α => x * y) .Mul H2 a g ha2 hg2 hga.symm
  have hb3 : b.WF (⟨H2.bufs ++ x3⟩ : Heap α) := wf_append hb2 x3
  have hlen2 : h.bufs.length ≤ H2.bufs.length := by rw [l2]; simp
  obtain ⟨H4, e4, l4, f4, n4, v4⟩ := accumulate_spec ⟨H2.bufs ++ x3⟩ b gb hb3 w3
    (d3.trans hab) (by omega)
  refine ⟨H4, ?_, ?_⟩
  · simp only [autofn.Mul.backward, autofn.operand, List.getElem?_cons_zero,
      List.getElem?_cons_succ, bind_ok, opMul, mul_forward_eq, e1, e2, e3, e4]
  · refine ⟨?_, ?_, ?_, ?_, ?_, ?_⟩
    · rw [n4, buf_app x3 (by omega), n2, buf_app x1 hal]; exact ha.2.2.2.2.2.2
    · rw [n4, buf_app x3 (by omega), n2, buf_app x1 hbl]; exact hb.2.2.2.2.2.2
    · intro p hp
      rw [f4 _ s1, buf_app x3 (by omega), v2 p hp, buf_app x1 hal, v1 p (by omega)]
    · intro p hp
      rw [v4 p hp, buf_app x3 (by omega), f2 _ (Ne.symm s1), buf_app x1 hbl,
        v3 p (by omega), f2 _ (Ne.symm s2), buf_app x1 haa, f2 _ (Ne.symm s4),
        buf_app x1 hga']
    · rw [f4 _ (Ne.symm s6), buf_app x3 (by omega), f2 _ (Ne.symm s2), buf_app x1 haa]
    · rw [f4 _ (Ne.symm s7), buf_app x3 (by omega), f2 _ (Ne.symm s3), buf_app x1 hba]

end BackwardRulesProofs

end num

namespace num

section DivBackward

variable {α : Type} [LinearOrderedField α]

omit [LinearOrderedField α] in
/-- Well-formedness survives a step that only appends buffers. -/
theorem wf_fr {H H' : Heap α} {x : Tensor} (hx : x.WF H) (hlen : H.bufs.length ≤ H'.bufs.length)
    (hfr : ∀ q, q < H.bufs.length → H'.buf q = H.buf q) : x.WF H' :=
  wf_frame hx hlen (hfr _ hx.2.2.2.1) (by rw [hfr _ hx.2.2.2.2.1])

theorem apply_same_shape_fr (fn : α → α → α) (bw : BackwardFn) (H : Heap α) (x y : Tensor)
    (hx : x.WF H) (hy : y.WF H) (hd : x.dims = y.dims) :
    ∃ (out : Tensor) (H' : Heap α),
      autofn.Function.apply (autofn.binaryForward fn) bw H [x, y] = .ok (out, H') ∧
      H.bufs.length ≤ H'.bufs.length ∧ (∀ q, q < H.bufs.length → H'.buf q = H.buf q) ∧
      out.WF H' ∧ out.dims = x.dims ∧ out.sz = x.sz ∧ H.bufs.length ≤ out.arr ∧
      ∀ p, p < x.sz → (H'.buf out.arr).getD p 0
        = fn ((H.buf x.arr).getD p 0) ((H.buf y.arr).getD p 0) := by
  obtain ⟨out, ex, e, w, d, z, a, v⟩ := apply_same_shape_spec fn bw H x y hx hy hd
  exact ⟨out, _, e, by simp, fun q hq => buf_app ex hq, w, d, z, a, v⟩

theorem scalar_apply_fr (fn : α → α → α) (bw : BackwardFn) (H : Heap α) (c : α) (g : Tensor)
    (hg : g.WF H) :
    ∃ (out : Tensor) (H' : Heap α),
      autofn.Function.apply (autofn.binaryForward fn) bw (Tensor.ctorScalar H c).2
          [(Tensor.ctorScalar H c).1, g] = .ok (out, H') ∧
      H.bufs.length ≤ H'.bufs.length ∧ (∀ q, q < H.bufs.length → H'.buf q = H.buf q) ∧
      out.WF H' ∧ out.dims = g.dims ∧ out.sz = g.sz ∧ H.bufs.length ≤ out.arr ∧
      ∀ p, p < g.sz → (H'.buf out.arr).getD p 0 = fn c ((H.buf g.arr).getD p 0) := by
  obtain ⟨out, ex, e, w, d, z, a, v⟩ := scalar_apply_spec fn bw H c g hg
  exact ⟨out, _, e, by simp, fun q hq => buf_app ex hq, w, d, z, a, v⟩

theorem tensor_pow_fr (m : Libm α) (H : Heap α) (t : Tensor) (power : α) (ht : t.WF H) :
    ∃ (out : Tensor) (H' : Heap α), t.pow m H power = .ok (out, H') ∧
      H.bufs.length ≤ H'.bufs.length ∧ (∀ q, q < H.bufs.length → H'.buf q = H.buf q) ∧
      out.WF H' ∧ out.dims = t.dims ∧ out.sz = t.sz ∧ H.bufs.length ≤ out.arr ∧
      ∀ p, p < t.sz → (H'.buf out.arr).getD p 0 = m.pow ((H.buf t.arr).getD p 0) power := by
  obtain ⟨out, ex, e, w, d, z, a, v⟩ := tensor_pow_spec m H t power ht
  exact ⟨out, _, e, by simp, fun q hq => buf_app ex hq, w, d, z, a, v⟩

theorem div_backward_ok (m : Libm α) (h : Heap α) (a b g : Tensor) (ha : a.WF h)
    (hb : b.WF h) (hg : g.WF h) (hab : a.dims = b.dims) (hga : g.dims = a.dims)
    (hsep : Separated a b g) :
    ∃ h' : Heap α, autofn.Div.backward m h g [a, b] = .ok h' ∧
      GradAccumulated h h' a b
        (fun p => (h.buf g.arr).getD p 0 / (h.buf b.arr).getD p 0)
        (fun p => -1 * (h.buf a.arr).getD p 0 * m.pow ((h.buf b.arr).getD p 0) (-2)
          * (h.buf g.arr).getD p 0) := by
  obtain ⟨s1, s2, s3, s4, s5, s6, s7, s8, s9⟩ := hsep
  have hbs : b.sz = a.sz := same_sz hb ha hab.symm
  have hgs : g.sz = a.sz := same_sz hg ha hga
  have hal : a.gradArr < h.bufs.length := ha.2.2.2.2.1
  have hbl : b.gradArr < h.bufs.length := hb.2.2.2.2.1
  have haa : a.arr < h.bufs.length := ha.2.2.2.1
  have hba : b.arr < h.bufs.length := hb.2.2.2.1
  have hga' : g.arr < h.bufs.length := hg.2.2.2.1
  -- ga = g / b
  obtain ⟨ga, H1, e1, l1, f1, w1, d1, z1, a1, v1⟩ :=
    apply_same_shape_fr (fun x y : α => x / y) .Div h g b hg hb (hga.trans hab)
  have ha1 : a.WF H1 := wf_fr ha l1 f1
  obtain ⟨H2, e2, l2, f2, n2, v2⟩ := accumulate_spec H1 a ga ha1 w1 (d1.trans hga) (by omega)
  have ha2 : a.WF H2 := wf_frame ha1 (by omega) (f2 _ (Ne.symm s2)) (n2 _)
  have hb2 : b.WF H2 := wf_frame (wf_fr hb l1 f1) (by omega) (f2 _ (Ne.symm s3)) (n2 _)
  have hg2 : g.WF H2 := wf_frame (wf_fr hg l1 f1) (by omega) (f2 _ (Ne.symm s4)) (n2 _)
  -- na = -1 * a
  obtain ⟨na, H3, e3, l3, f3, w3, d3, z3, a3, v3⟩ :=
    scalar_apply_fr (fun x y : α => x * y) .Mul H2 (-1) a ha2
  -- pw = b.pow(-2)
  obtain ⟨pw, H4, e4, l4, f4, w4, d4, z4, a4, v4⟩ :=
    tensor_pow_fr m H3 b (-2) (wf_fr hb2 l3 f3)
  -- q = na * pw
  obtain ⟨q, H5, e5, l5, f5, w5, d5, z5, a5, v5⟩ :=
    apply_same_shape_fr (fun x y : α => x * y) .Mul H4 na pw (wf_fr w3 l4 f4) w4
      (d3.trans (hab.trans d4.symm))
  -- gb = q * g
  have hg5 : g.WF H5 := wf_fr (wf_fr (wf_fr hg2 l3 f3) l4 f4) l5 f5
  obtain ⟨gb, H6, e6, l6, f6, w6, d6, z6, a6, v6⟩ :=
    apply_same_shape_fr (fun x y : α => x * y) .Mul H5 q g w5 hg5
      (d5.trans (d3.trans hga.symm))
  have hb6 : b.WF H6 := wf_fr (wf_fr (wf_fr (wf_fr hb2 l3 f3) l4 f4) l5 f5) l6 f6
  obtain ⟨H7, e7, l7, f7, n7, v7⟩ := accumulate_spec H6 b gb hb6 w6
    (d6.trans (d5.trans (d3.trans hab))) (by omega)
  -- every buffer of the initial heap other than a's gradient is unchanged up to H6
  have keep : ∀ r, r < h.bufs.length → r ≠ a.gradArr → H6.buf r = h.buf r := by
    intro r hr hne
    rw [f6 r (by omega), f5 r (by omega), f4 r (by omega), f3 r (by omega), f2 r hne, f1 r hr]
  have keepA : H6.buf a.gradArr = H2.buf a.gradArr := by
    rw [f6 _ (by omega), f5 _ (by omega), f4 _ (by omega), f3 _ (by omega)]
  refine ⟨H7, ?_, ?_⟩
  · simp only [autofn.Div.backward, autofn.operand, List.getElem?_cons_zero,
      List.getElem?_cons_succ, bind_ok, opMul, opDiv, mul_forward_eq, div_forward_eq,
      e1, e2, e3, e4, e5, e6, e7]
  · refine ⟨?_, ?_, ?_, ?_, ?_, ?_⟩
    · rw [n7, keepA, n2, f1 _ hal]; exact ha.2.2.2.2.2.2
    · rw [n7, keep _ hbl (Ne.symm s1)]; exact hb.2.2.2.2.2.2
    · intro p hp
      rw [f7 _ s1, keepA, v2 p hp, f1 _ hal, v1 p (by omega)]
    · intro p hp
      have hna : na.arr < H3.bufs.length := w3.2.2.2.1
      have hq : q.arr < H5.bufs.length := w5.2.2.2.1
      rw [v7 p hp, keep _ hbl (Ne.symm s1), v6 p (by omega), v5 p (by omega), f4 _ hna,
        v3 p (by omega), v4 p (by omega), f5 g.arr (by omega), f4 g.arr (by omega),
        f3 g.arr (by omega), f3 b.arr (by omega), f2 _ (Ne.symm s2), f2 _ (Ne.symm s3),
        f2 _ (Ne.symm s4), f1 _ haa, f1 _ hba, f1 _ hga']
    · rw [f7 _ (Ne.symm s6), keep _ haa (Ne.symm s2)]
    · rw [f7 _ (Ne.symm s7), keep _ hba (Ne.symm s3)]

/-- C4. Backward rules of the four arithmetic primitives on operands `a`, `b` and
an incoming gradient `g` of one shape, held in separate buffers: each rule ADDS to
the gradient buffers, elementwise — add: `g` and `g`; sub: `g` and `-g`; mul:
`b*g` and `a*g`; div (`b` nonzero): `g/b` and `-a * b^(-2) * g` — and leaves the
data of `a` and `b` unchanged. -/
theorem arithmetic_backward_rules (m : Libm α) (h : Heap α) (a b g : Tensor)
    (ha : a.WF h) (hb : b.WF h) (hg : g.WF h) (hab : a.dims = b.dims)
    (hga : g.dims = a.dims) (hsep : Separated a b g)
    (hpow : ∀ x : α, m.pow x (-2) = x ^ (-2 : ℤ)) :
    (∃ h' : Heap α, autofn.Add.backward h g [a, b] = .ok h' ∧
      GradAccumulated h h' a b (fun p => (h.buf g.arr).getD p 0)
        (fun p => (h.buf g.arr).getD p 0)) ∧
    (∃ h' : Heap α, autofn.Sub.backward h g [a, b] = .ok h' ∧
      GradAccumulated h h' a b (fun p => (h.buf g.arr).getD p 0)
        (fun p => - (h.buf g.arr).getD p 0)) ∧
    (∃ h' : Heap α, autofn.Mul.backward h g [a, b] = .ok h' ∧
      GradAccumulated h h' a b
        (fun p => (h.buf b.arr).getD p 0 * (h.buf g.arr).getD p 0)
        (fun p => (h.buf a.arr).getD p 0 * (h.buf g.arr).getD p 0)) ∧
    ((∀ p, p < b.sz → (h.buf b.arr).getD p 0 ≠ 0) →
      ∃ h' : Heap α, autofn.Div.backward m h g [a, b] = .ok h' ∧
        GradAccumulated h h' a b
          (fun p => (h.buf g.arr).getD p 0 / (h.buf b.arr).getD p 0)
          (fun p => - (h.buf a.arr).getD p 0 * ((h.buf b.arr).getD p 0) ^ (-2 : ℤ)
            * (h.buf g.arr).getD p 0)) := by
  refine ⟨add_backward_ok h a b g ha hb hg hab hga hsep,
    sub_backward_ok h a b g ha hb hg hab hga hsep,
    mul_backward_ok h a b g ha hb hg hab hga hsep, fun _ => ?_⟩
  obtain ⟨h', e, k⟩ := div_backward_ok m h a b g ha hb hg hab hga hsep
  refine ⟨h', e, ?_⟩
  simpa only [hpow, neg_one_mul] using k

end DivBackward

/-- Instance of C4: the quotient rule on three `2 × 2` example matrices over `ℚ`. -/
theorem arithmetic_backward_rules_witness :
    (autofn.Div.backward grad_demo.libm examples.heap examples.g22
      [examples.m22, examples.n22]).toBool = true := by
  obtain ⟨h', e, _⟩ := (arithmetic_backward_rules grad_demo.libm examples.heap
    examples.m22 examples.n22 examples.g22 (by unfold Tensor.WF; decide)
    (by unfold Tensor.WF; decide) (by unfold Tensor.WF; decide) rfl rfl
    (by unfold Separated; decide)
    (by intro x; simp [grad_demo.libm, grad_demo.ratPow])).2.2.2
    (by
      intro p hp
      simp only [examples.n22] at hp
      interval_cases p <;> decide)
  rw [e]
  rfl

end num

namespace num

theorem transpose_pos_inj {m i i' j j' : Nat} (hi : i < m) (hi' : i' < m)
    (h : j' * m + i' = j * m + i) : i' = i ∧ j' = j := by
  have h1 : (j' * m + i') % m = i' := by
    rw [Nat.add_comm, Nat.add_mul_mod_self_right]; exact Nat.mod_eq_of_lt hi'
  have h2 : (j * m + i) % m = i := by
    rw [Nat.add_comm, Nat.add_mul_mod_self_right]; exact Nat.mod_eq_of_lt hi
  have e : i' = i := by rw [← h1, ← h2, h]
  subst e
  refine ⟨rfl, ?_⟩
  have : j' * m = j * m := by omega
  exact Nat.eq_of_mul_eq_mul_right (by omega) this

section Transpose

variable {α : Type} [LinearOrderedField α]

/-- The two nested loops of `Tensor::transpose` (and of `Transpose::forward`),
writing into a fresh copy `out` of shape `(n, m)`. -/
theorem transpose_loops_ok (h : Heap α) (t out : Tensor) (m n : Nat) (G data0 : List α)
    (ht : t.dims = [(m : Int), (n : Int)]) (ho : out.dims = [(n : Int), (m : Int)])
    (hoa : out.arr = h.bufs.length) (htp : t.arr < h.bufs.length)
    (htl : (h.buf t.arr).length = m * n) (hdl : data0.length = m * n) :
    forLoop (t.dims.getD 0 0).toNat (fun i h =>
        forLoop (t.dims.getD 1 0).toNat (fun j h => do
          let val ← t.getSingle h [(i : Int), (j : Int)]
          out.setSingle h val [(j : Int), (i : Int)]) h) (⟨h.bufs ++ [data0, G]⟩ : Heap α)
      = .ok ⟨h.bufs ++ [(List.range (n * m)).map
          (fun p => (h.buf t.arr).getD (p % m * n + p / m) 0), G]⟩ := by
  have key : ∃ s', forLoop (t.dims.getD 0 0).toNat (fun i h =>
        forLoop (t.dims.getD 1 0).toNat (fun j h => do
          let val ← t.getSingle h [(i : Int), (j : Int)]
          out.setSingle h val [(j : Int), (i : Int)]) h) (⟨h.bufs ++ [data0, G]⟩ : Heap α)
        = .ok s' ∧
      s' = ⟨h.bufs ++ [(List.range (n * m)).map
          (fun p => (h.buf t.arr).getD (p % m * n + p / m) 0), G]⟩ := by
    refine forLoop_inv'
      (fun i (s : Heap α) => ∃ data : List α, s = ⟨h.bufs ++ [data, G]⟩ ∧
        data.length = m * n ∧
        ∀ i' j', i' < i → j' < n →
          data[j' * m + i']? = some ((h.buf t.arr).getD (i' * n + j') 0))
      _ _ _ _ ⟨data0, rfl, hdl, by intro i' j' hi'; omega⟩ ?_ ?_
    · rintro i s hi ⟨data, hs, hl, hp⟩
      have hi' : i < m := by simpa [ht] using hi
      subst hs
      refine forLoop_inv'
        (fun j (s : Heap α) => ∃ data : List α, s = ⟨h.bufs ++ [data, G]⟩ ∧
          data.length = m * n ∧
          (∀ i' j', i' < i → j' < n →
            data[j' * m + i']? = some ((h.buf t.arr).getD (i' * n + j') 0)) ∧
          (∀ j', j' < j → data[j' * m + i]? = some ((h.buf t.arr).getD (i * n + j') 0)))
        _ _ _ _ ⟨data, rfl, hl, hp, by intro j' hj'; omega⟩ ?_ ?_
      · rintro j s hj ⟨data1, hs1, hl1, hp1, hq1⟩
        have hj' : j < n := by simpa [ht] using hj
        subst hs1
        have hlen' : data1.length = n * m := by rw [hl1, Nat.mul_comm]
        have hpos : j * m + i < data1.length := by rw [hlen']; exact mul_add_lt hj' hi'
        beta_reduce
        rw [getSingle_append_left _ htp, Heap.mk_bufs, getSingle2 ht htl hi' hj', bind_ok,
          setSingle2_append ho hoa hlen' hj' hi']
        refine ⟨_, rfl, _, rfl, by simpa using hl1, ?_, ?_⟩
        · intro i' j' hi1 hj1
          rw [List.getElem?_set_ne]
          · exact hp1 i' j' hi1 hj1
          · intro e
            have := (transpose_pos_inj (by omega : i' < m) hi' e).1
            omega
        · intro j' hj1
          rcases Nat.lt_or_ge j' j with hlt | hge
          · rw [List.getElem?_set_ne]
            · exact hq1 j' hlt
            · intro e
              have := (transpose_pos_inj hi' hi' e).2
              omega
          · have e : j' = j := by omega
            subst e
            rw [List.getElem?_set_self hpos]
      · rintro s ⟨data1, hs1, hl1, hp1, hq1⟩
        refine ⟨data1, hs1, hl1, ?_⟩
        intro i' j' hi1 hj1
        rcases Nat.lt_or_ge i' i with hlt | hge
        · exact hp1 i' j' hlt hj1
        · have e : i' = i := by omega
          subst e
          exact hq1 j' (by simpa [ht] using hj1)
    · rintro s ⟨data, hs, hl, hp⟩
      have hm : (t.dims.getD 0 0).toNat = m := by simp [ht]
      rw [hm] at hp
      rw [hs]
      congr 3
      apply list_eq_map_range (by rw [hl, Nat.mul_comm])
      intro p hpn
      have hm0 : 0 < m := by
        rcases Nat.eq_zero_or_pos m with h0 | h0
        · subst h0; simp at hpn
        · exact h0
      have hdiv : p / m < n := by
        rw [Nat.div_lt_iff_lt_mul hm0]; exact hpn
      have := hp (p % m) (p / m) (Nat.mod_lt _ hm0) hdiv
      have e : p / m * m + p % m = p := by
        rw [Nat.mul_comm]; exact Nat.div_add_mod p m
      rw [e] at this
      exact this
  obtain ⟨s', h1, h2⟩ := key
  rw [h1, h2]

/-- `Tensor::transpose` of a rank-2 tensor: a fresh tensor of the swapped shape. -/
theorem tensor_transpose_ok (h : Heap α) (t : Tensor) (m n : Nat) (ht : t.WF h)
    (hd : t.dims = [(m : Int), (n : Int)]) :
    t.transpose h
      = .ok ({ t with dims := [(n : Int), (m : Int)], arr := h.bufs.length, gradArr := h.bufs.length + 1 },
          ⟨h.bufs ++ [(List.range (n * m)).map
            (fun p => (h.buf t.arr).getD (p % m * n + p / m) 0), h.buf t.gradArr]⟩) := by
  obtain ⟨_, _, hsz, hl, _⟩ := wf_len2 ht hd
  unfold Tensor.transpose
  rw [if_neg (by simp [hd]), clone_ok h t ht.2.2.2.2.2.1 ht.2.2.2.2.2.2]
  simp only []
  rw [transpose_loops_ok h t _ m n _ _ hd (by simp [hd]) rfl ht.2.2.2.1 hl hl, bind_ok]
  simp [hd]

end Transpose

end num

namespace num

section MatMulBackward

variable {α : Type} [LinearOrderedField α]

theorem transpose_fr (H : Heap α) (t : Tensor) (m n : Nat) (ht : t.WF H)
    (hd : t.dims = [(m : Int), (n : Int)]) :
    ∃ (out : Tensor) (H' : Heap α), t.transpose H = .ok (out, H') ∧
      H.bufs.length ≤ H'.bufs.length ∧ (∀ q, q < H.bufs.length → H'.buf q = H.buf q) ∧
      out.WF H' ∧ out.dims = [(n : Int), (m : Int)] ∧ H.bufs.length ≤ out.arr ∧
      ∀ j i, j < n → i < m →
        (H'.buf out.arr).getD (j * m + i) 0 = (H.buf t.arr).getD (i * n + j) 0 := by
  obtain ⟨hm, hn, hsz, hl, hgl⟩ := wf_len2 ht hd
  refine ⟨_, _, tensor_transpose_ok H t m n ht hd, by simp, fun q hq => buf_app _ hq, ?_, rfl,
    le_refl _, ?_⟩
  · refine ⟨by simp, ?_, ?_, by simp, by simp, ?_, ?_⟩
    · intro d hd'
      simp only [List.mem_cons, List.mem_singleton, List.not_mem_nil, or_false] at hd'
      rcases hd' with rfl | rfl <;> omega
    · simp only [List.prod_cons, List.prod_nil, mul_one, hsz]
      push_cast
      ring
    · show ((Heap.mk _).buf H.bufs.length).length = t.sz
      rw [Heap.buf_append_length]
      simp [hsz, Nat.mul_comm]
    · show ((Heap.mk _).buf (H.bufs.length + 1)).length = t.sz
      rw [Heap.buf_append_length_succ, hgl, hsz]
  · intro j i hj hi
    show ((Heap.mk _).buf H.bufs.length).getD _ _ = _
    rw [Heap.buf_append_length, getD_map_range _ _ (mul_add_lt hj hi)]
    have e1 : (j * m + i) % m = i := by
      rw [Nat.add_comm, Nat.add_mul_mod_self_right]; exact Nat.mod_eq_of_lt hi
    have e2 : (j * m + i) / m = j := by
      rw [Nat.add_comm, Nat.add_mul_div_right _ _ hm]
      simp [Nat.div_eq_of_lt hi]
    rw [e1, e2]

theorem matmul_fr (H : Heap α) (a b : Tensor) (m k n : Nat) (ha : a.WF H) (hb : b.WF H)
    (had : a.dims = [(m : Int), (k : Int)]) (hbd : b.dims = [(k : Int), (n : Int)]) :
    ∃ (out : Tensor) (H' : Heap α), autofn.MatMul.forward H [a, b] = .ok (out, H') ∧
      H.bufs.length ≤ H'.bufs.length ∧ (∀ q, q < H.bufs.length → H'.buf q = H.buf q) ∧
      out.WF H' ∧ out.dims = [(m : Int), (n : Int)] ∧ H.bufs.length ≤ out.arr ∧
      ∀ i j, i < m → j < n →
        (H'.buf out.arr).getD (i * n + j) 0
          = ∑ t in Finset.range k,
              (H.buf a.arr).getD (i * k + t) 0 * (H.buf b.arr).getD (t * n + j) 0 := by
  obtain ⟨hm, hk, _, hal, _⟩ := wf_len2 ha had
  obtain ⟨_, hn, _, hbl, _⟩ := wf_len2 hb hbd
  refine ⟨_, _, matmul_forward_ok H a b m k n hm hn had hbd ha.2.2.2.1 hb.2.2.2.1 hal hbl,
    by simp, fun q hq => buf_app _ hq, ?_, rfl, le_refl _, ?_⟩
  · refine ⟨by simp, ?_, ?_, by simp, by simp, ?_, ?_⟩
    · intro d hd'
      simp only [List.mem_cons, List.mem_singleton, List.not_mem_nil, or_false] at hd'
      rcases hd' with rfl | rfl <;> omega
    · simp only [List.prod_cons, List.prod_nil, mul_one]
      push_cast
      ring
    · show ((Heap.mk _).buf H.bufs.length).length = m * n
      rw [Heap.buf_append_length]
      simp
    · show ((Heap.mk _).buf (H.bufs.length + 1)).length = m * n
      rw [Heap.buf_append_length_succ]
      simp
  · intro i j hi hj
    show ((Heap.mk _).buf H.bufs.length).getD _ _ = _
    rw [Heap.buf_append_length, getD_map_range _ _ (mul_add_lt hi hj)]
    have e1 : (i * n + j) / n = i := by
      rw [Nat.add_comm, Nat.add_mul_div_right _ _ hn]
      simp [Nat.div_eq_of_lt hj]
    have e2 : (i * n + j) % n = j := by
      rw [Nat.add_comm, Nat.add_mul_mod_self_right]; exact Nat.mod_eq_of_lt hj
    simp only [matmulData, e1, e2]

/-- Reading entry `[i, j]` of `getGradient()` of a rank-2 tensor. -/
theorem gradient_getSingle2 {H : Heap α} {t : Tensor} {d0 d1 i j : Nat} (ht : t.WF H)
    (hd : t.dims = [(d0 : Int), (d1 : Int)]) (hi : i < d0) (hj : j < d1) :
    (t.getGradient H).1.getSingle (t.getGradient H).2 [(i : Int), (j : Int)]
      = .ok ((H.buf t.gradArr).getD (i * d1 + j) 0) := by
  obtain ⟨_, _, hsz, hl, hgl⟩ := wf_len2 ht hd
  simp only [Tensor.getGradient, clone_ok H t ht.2.2.2.2.2.1 ht.2.2.2.2.2.2]
  have hb : (Heap.mk (H.bufs ++ [H.buf t.arr, H.buf t.gradArr])).buf (H.bufs.length + 1)
      = H.buf t.gradArr := Heap.buf_append_length_succ _ _ _ _
  have hbl : ((Heap.mk (H.bufs ++ [H.buf t.arr, H.buf t.gradArr])).buf
      (H.bufs.length + 1)).length = d0 * d1 := by rw [hb]; exact hgl
  refine (getSingle2 (by exact hd) (by exact hbl) hi hj).trans ?_
  show Except.ok (((Heap.mk _).buf (H.bufs.length + 1)).getD _ _) = _
  rw [hb]

theorem matmul_backward_ok (h : Heap α) (A B dOut : Tensor) (m k n : Nat)
    (hA : A.WF h) (hB : B.WF h) (hG : dOut.WF h)
    (hAd : A.dims = [(m : Int), (k : Int)]) (hBd : B.dims = [(k : Int), (n : Int)])
    (hGd : dOut.dims = [(m : Int), (n : Int)]) (hsep : Separated A B dOut) :
    ∃ h' : Heap α, autofn.MatMul.backward h dOut [A, B] = .ok h' ∧
      A.WF h' ∧ B.WF h' ∧
      (∀ i t, i < m → t < k → (h'.buf A.gradArr).getD (i * k + t) 0
        = (h.buf A.gradArr).getD (i * k + t) 0
          + ∑ j in Finset.range n,
              (h.buf dOut.arr).getD (i * n + j) 0 * (h.buf B.arr).getD (t * n + j) 0) ∧
      (∀ t j, t < k → j < n → (h'.buf B.gradArr).getD (t * n + j) 0
        = (h.buf B.gradArr).getD (t * n + j) 0
          + ∑ i in Finset.range m,
              (h.buf A.arr).getD (i * k + t) 0 * (h.buf dOut.arr).getD (i * n + j) 0) := by
  obtain ⟨s1, s2, s3, s4, s5, s6, s7, s8, s9⟩ := hsep
  obtain ⟨hm, hk, hAsz, _, _⟩ := wf_len2 hA hAd
  obtain ⟨_, hn, hBsz, _, _⟩ := wf_len2 hB hBd
  -- Bᵗ
  obtain ⟨bt, H1, e1, l1, f1, wbt, dbt, abt, vbt⟩ := transpose_fr h B k n hB hBd
  have hG1 : dOut.WF H1 := wf_fr hG l1 f1
  have hA1 : A.WF H1 := wf_fr hA l1 f1
  have hB1 : B.WF H1 := wf_fr hB l1 f1
  -- dOut · Bᵗ
  obtain ⟨ga, H2, e2, l2, f2, wga, dga, aga, vga⟩ := matmul_fr H1 dOut bt m n k hG1 wbt hGd dbt
  have hG2 : dOut.WF H2 := wf_fr hG1 l2 f2
  have hA2 : A.WF H2 := wf_fr hA1 l2 f2
  have hB2 : B.WF H2 := wf_fr hB1 l2 f2
  have hAg : A.gradArr < h.bufs.length := hA.2.2.2.2.1
  have hBg : B.gradArr < h.bufs.length := hB.2.2.2.2.1
  have hAa : A.arr < h.bufs.length := hA.2.2.2.1
  have hBa : B.arr < h.bufs.length := hB.2.2.2.1
  have hGa : dOut.arr < h.bufs.length := hG.2.2.2.1
  -- A.gradient += dOut · Bᵗ
  obtain ⟨H3, e3, l3, f3, g3, v3⟩ := accumulate_spec H2 A ga hA2 wga (by rw [dga, hAd])
    (by omega)
  have hA3 : A.WF H3 := wf_frame hA2 (by omega) (f3 _ (Ne.symm s2)) (g3 _)
  have hB3 : B.WF H3 := wf_frame hB2 (by omega) (f3 _ (Ne.symm s3)) (g3 _)
  have hG3 : dOut.WF H3 := wf_frame hG2 (by omega) (f3 _ (Ne.symm s4)) (g3 _)
  -- Aᵗ
  obtain ⟨at_, H4, e4, l4, f4, wat, dat, aat, vat⟩ := transpose_fr H3 A m k hA3 hAd
  have hA4 : A.WF H4 := wf_fr hA3 l4 f4
  have hB4 : B.WF H4 := wf_fr hB3 l4 f4
  have hG4 : dOut.WF H4 := wf_fr hG3 l4 f4
  -- Aᵗ · dOut
  obtain ⟨gb, H5, e5, l5, f5, wgb, dgb, agb, vgb⟩ := matmul_fr H4 at_ dOut k m n wat hG4 dat hGd
  have hA5 : A.WF H5 := wf_fr hA4 l5 f5
  have hB5 : B.WF H5 := wf_fr hB4 l5 f5
  -- B.gradient += Aᵗ · dOut
  obtain ⟨H6, e6, l6, f6, g6, v6⟩ := accumulate_spec H5 B gb hB5 wgb (by rw [dgb, hBd])
    (by omega)
  have hA6 : A.WF H6 := wf_frame hA5 (by omega) (f6 _ (Ne.symm s6)) (g6 _)
  have hB6 : B.WF H6 := wf_frame hB5 (by omega) (f6 _ (Ne.symm s7)) (g6 _)
  -- buffers of the original heap that are neither gradient buffer are unchanged
  have old2 : ∀ q, q < h.bufs.length → H2.buf q = h.buf q := by
    intro q hq
    rw [f2 q (by omega), f1 q hq]
  have old3 : ∀ q, q < h.bufs.length → q ≠ A.gradArr → H3.buf q = h.buf q := by
    intro q hq hne
    rw [f3 q hne, old2 q hq]
  have old5 : ∀ q, q < h.bufs.length → H5.buf q = H3.buf q := by
    intro q hq
    rw [f5 q (by omega), f4 q (by omega)]
  refine ⟨H6, ?_, hA6, hB6, ?_, ?_⟩
  · simp only [autofn.MatMul.backward, autofn.operand, List.getElem?_cons_zero,
      List.getElem?_cons_succ, bind_ok, e1, e2, e3, e4, e5, e6]
  · intro i t hi ht
    have hp : i * k + t < A.sz := by rw [hAsz]; exact mul_add_lt hi ht
    rw [f6 _ s1, old5 _ hAg, v3 _ hp, old2 _ hAg, vga i t hi ht]
    congr 1
    apply Finset.sum_congr rfl
    intro j hj
    rw [Finset.mem_range] at hj
    rw [vbt j t hj ht, f1 _ hGa]
  · intro t j ht hj
    have hp : t * n + j < B.sz := by rw [hBsz]; exact mul_add_lt ht hj
    rw [v6 _ hp, old5 _ hBg, old3 _ hBg (Ne.symm s1), vgb t j ht hj]
    congr 1
    apply Finset.sum_congr rfl
    intro i hi
    rw [Finset.mem_range] at hi
    rw [vat t i ht hi, old3 _ hAa (Ne.symm s2), f4 _ (by omega), old3 _ hGa (Ne.symm s4)]

/-- C6. Matmul gradient: for `A` of shape `(m, k)`, `B` of shape `(k, n)` and an
incoming gradient `dOut` of shape `(m, n)`, with the buffers kept apart and the
gradients of `A` and `B` zero, `MatMul::backward` succeeds and afterwards
`A.getGradient()[i, t] = Σ_{j<n} dOut[i,j] * B[t,j]` (the product `dOut · Bᵗ`) and
`B.getGradient()[t, j] = Σ_{i<m} A[i,t] * dOut[i,j]` (the product `Aᵗ · dOut`). -/
theorem matmul_backward_spec (h : Heap α) (A B dOut : Tensor) (m k n : Nat)
    (hA : A.WF h) (hB : B.WF h) (hG : dOut.WF h)
    (hAd : A.dims = [(m : Int), (k : Int)]) (hBd : B.dims = [(k : Int), (n : Int)])
    (hGd : dOut.dims = [(m : Int), (n : Int)]) (hsep : Separated A B dOut)
    (hzA : ∀ p, p < A.sz → (h.buf A.gradArr).getD p 0 = 0)
    (hzB : ∀ p, p < B.sz → (h.buf B.gradArr).getD p 0 = 0) :
    ∃ h' : Heap α, autofn.MatMul.backward h dOut [A, B] = .ok h' ∧
      (∀ i t, i < m → t < k → ∃ x y : Nat → α,
        (∀ j, j < n → dOut.getSingle h [(i : Int), (j : Int)] = .ok (x j)) ∧
        (∀ j, j < n → B.getSingle h [(t : Int), (j : Int)] = .ok (y j)) ∧
        (A.getGradient h').1.getSingle (A.getGradient h').2 [(i : Int), (t : Int)]
          = .ok (∑ j in Finset.range n, x j * y j)) ∧
      (∀ t j, t < k → j < n → ∃ x y : Nat → α,
        (∀ i, i < m → A.getSingle h [(i : Int), (t : Int)] = .ok (x i)) ∧
        (∀ i, i < m → dOut.getSingle h [(i : Int), (j : Int)] = .ok (y i)) ∧
        (B.getGradient h').1.getSingle (B.getGradient h').2 [(t : Int), (j : Int)]
          = .ok (∑ i in Finset.range m, x i * y i)) := by
  obtain ⟨h', e, wA, wB, vA, vB⟩ := matmul_backward_ok h A B dOut m k n hA hB hG hAd hBd hGd hsep
  obtain ⟨_, _, hAsz, hAl, _⟩ := wf_len2 hA hAd
  obtain ⟨_, _, hBsz, hBl, _⟩ := wf_len2 hB hBd
  obtain ⟨_, _, _, hGl, _⟩ := wf_len2 hG hGd
  refine ⟨h', e, ?_, ?_⟩
  · intro i t hi ht
    refine ⟨fun j => (h.buf dOut.arr).getD (i * n + j) 0,
      fun j => (h.buf B.arr).getD (t * n + j) 0,
      fun j hj => getSingle2 hGd hGl hi hj, fun j hj => getSingle2 hBd hBl ht hj, ?_⟩
    rw [gradient_getSingle2 wA hAd hi ht, vA i t hi ht,
      hzA _ (by rw [hAsz]; exact mul_add_lt hi ht), zero_add]
  · intro t j ht hj
    refine ⟨fun i => (h.buf A.arr).getD (i * k + t) 0,
      fun i => (h.buf dOut.arr).getD (i * n + j) 0,
      fun i hi => getSingle2 hAd hAl hi ht, fun i hi => getSingle2 hGd hGl hi hj, ?_⟩
    rw [gradient_getSingle2 wB hBd ht hj, vB t j ht hj,
      hzB _ (by rw [hBsz]; exact mul_add_lt ht hj), zero_add]

/-- Instance of C6: `A` the `2 × 3`, `B` the `3 × 2` and `dOut` the `2 × 2` example
matrix. -/
theorem matmul_backward_spec_witness :
    (autofn.MatMul.backward examples.heap examples.m22
      [examples.m23, examples.m32]).toBool = true := by
  obtain ⟨h', e, _⟩ := matmul_backward_spec examples.heap examples.m23 examples.m32
    examples.m22 2 3 2 (by unfold Tensor.WF; decide) (by unfold Tensor.WF; decide)
    (by unfold Tensor.WF; decide) rfl rfl rfl (by unfold Separated; decide)
    (by
      intro p hp
      simp only [examples.m23] at hp
      interval_cases p <;> decide)
    (by
      intro p hp
      simp only [examples.m32] at hp
      interval_cases p <;> decide)
  rw [e]
  rfl

end MatMulBackward

end num

namespace num

/-! ### Ranged index walks of `Tensor::copy` -/

theorem wrapInt_eq {x : Int} (h0 : -2147483648 ≤ x) (h1 : x ≤ 2147483647) : wrapInt x = x := by
  unfold wrapInt
  omega

/-- Without overflow `calcDimSize` is the truncating quotient of the exact value. -/
theorem calcDimSize_exact {s e p : Int} (h0 : s ≤ e) (h1 : 1 ≤ p)
    (h2 : e - s + (p - 1) ≤ 2147483647) :
    Slice.calcDimSize (s, e, p) = (e - s + (p - 1)).tdiv p := by
  simp only [Slice.calcDimSize]
  rw [wrapInt_eq (by omega : -2147483648 ≤ e - s) (by omega),
    wrapInt_eq (by omega : -2147483648 ≤ p - 1) (by omega),
    wrapInt_eq (by omega) h2]

end num

namespace num

/-! ### `Tensor::copy` as used by `Tensor::get` -/

end num

namespace num

section Get

variable {α : Type} [LinearOrderedField α]

end Get

end num

namespace grad_demo

/-- C3. The documented end-to-end example of `grad_demo.cpp`, in exact arithmetic:
the forward value is `g = 2421/98` and, after `g.backward()`, the gradient of `a` is
`47620/343` and the gradient of `b` is `221433/343`. -/
theorem main_values :
    main = .ok ([2421 / 98], [47620 / 343], [221433 / 343]) := by
  decide!

end grad_demo

namespace num

/-- C7 (the code departs from the claim). `setBroadcastGradient` reduces with
`iter(.., 0)`, which hands out the columns of the gradient, of shape `(m, 1)`, and
adds them to an accumulator of the padded leaf shape. For the leaf `[10, 20, 30]` of
shape `(3)` with zero gradient and the gradient `[[1, 2, 3], [4, 5, 6]]` of shape
`(2, 3)` the first addition, of shapes `(1, 3)` and `(2, 1)`, throws
`ShapeMismatchError`, where the claim requires the gradient `[5, 7, 9]`. For the
scalar leaf of shape `(1)` with zero gradient and the gradient `[[1, 2], [3, 4]]` the
call succeeds and leaves the gradient `3`, the sum of the first row, where the claim
requires the sum `10` of all entries. -/
theorem setBroadcastGradient_reduction_diverges :
    examples.v3.setBroadcastGradient examples.heap examples.m23
      = .error .ShapeMismatchError ∧
    (examples.s1.setBroadcastGradient examples.heap examples.m22).map
      (fun h => h.buf examples.s1.gradArr) = .ok [3] := by
  decide!

end num

namespace num

/-! ### Errors of `getLinIdx` -/

/-- The loop of `getLinIdx` throws nothing but `IndexError`. -/
theorem getLinIdxLoop_ok_or_indexError (D I : List Int) : ∀ (c : Nat) (acc : Int),
    (∃ l, Tensor.getLinIdxLoop D I c acc = .ok l) ∨
      Tensor.getLinIdxLoop D I c acc = .error .IndexError
  | 0, acc => Or.inl ⟨acc, rfl⟩
  | c + 1, acc => by
    rw [Tensor.getLinIdxLoop]
    by_cases hc : (if I.getD c 0 ≥ 0 then I.getD c 0 else D.getD c 0 + I.getD c 0) ≥ D.getD c 0
    · rw [if_pos hc]
      exact Or.inr rfl
    · rw [if_neg hc]
      exact getLinIdxLoop_ok_or_indexError D I c _

theorem getLinIdxLoop_out_of_range : ∀ {D I : List Int}, I.length = D.length →
    (∀ d ∈ D, 0 ≤ d) → (∃ k, k < D.length ∧ I.getD k 0 ≥ D.getD k 0) → ∀ acc : Int,
    Tensor.getLinIdxLoop D I I.length acc = .error .IndexError
  | [], [], _, _, ⟨k, hk, _⟩, _ => by simp at hk
  | [], _ :: _, h, _, _, _ => by simp at h
  | _ :: _, [], h, _, _, _ => by simp at h
  | d :: ds, x :: xs, hl, hD, ⟨k, hk, hge⟩, acc => by
    rw [List.length_cons, getLinIdxLoop_cons]
    have hl' : xs.length = ds.length := by simpa using hl
    rcases k with _ | k
    · simp only [List.getD_cons_zero] at hge
      have hd : 0 ≤ d := hD d (by simp)
      have hx : x ≥ 0 := by omega
      rcases getLinIdxLoop_ok_or_indexError ds xs xs.length acc with ⟨l, e⟩ | e
      · rw [e]
        simp only [Except.bind, hx, if_true]
        rw [if_pos hge]
      · rw [e]
        rfl
    · simp only [List.getD_cons_succ] at hge
      rw [getLinIdxLoop_out_of_range hl' (fun e he => hD e (by simp [he]))
        ⟨k, by simpa using hk, hge⟩ acc]
      rfl

/-- C18. Index out of range: on a tensor of shape `D` (extents not negative), an index
`I` of length `rank(D)` with some `I[k] ≥ D[k]` makes `getLinIdx`, and so `getSingle`
and `setSingle`, throw `IndexError`; the exception leaves `getLinIdx`, before the
write of `setSingle`, so no element is changed. An index whose length differs from
the rank gives `invalid_argument` instead. -/
theorem index_out_of_range {α : Type} (h : Heap α) (t : Tensor) (I : IntArrRef) (v : α)
    (hD : ∀ d ∈ t.dims, 0 ≤ d) :
    (I.length = t.dims.length → (∃ k, k < t.dims.length ∧ I.getD k 0 ≥ t.dims.getD k 0) →
      t.getLinIdx I = .error .IndexError ∧ t.getSingle h I = .error .IndexError ∧
      t.setSingle h v I = .error .IndexError) ∧
    (I.length ≠ t.dims.length →
      t.getLinIdx I = .error .invalid_argument ∧ t.getSingle h I = .error .invalid_argument ∧
      t.setSingle h v I = .error .invalid_argument) := by
  constructor
  · intro hl hk
    have e : t.getLinIdx I = .error .IndexError := by
      unfold Tensor.getLinIdx
      rw [if_neg (by simpa using hl)]
      exact getLinIdxLoop_out_of_range hl hD hk 0
    refine ⟨e, ?_, ?_⟩
    · simp only [Tensor.getSingle, e, bind_error]
    · simp only [Tensor.setSingle, e, bind_error]
  · intro hl
    have e : t.getLinIdx I = .error .invalid_argument := by
      unfold Tensor.getLinIdx
      rw [if_pos hl]
    refine ⟨e, ?_, ?_⟩
    · simp only [Tensor.getSingle, e, bind_error]
    · simp only [Tensor.setSingle, e, bind_error]

/-- Instance of C18: the index `(0, 3)` on the `2 × 3` example matrix. -/
theorem index_out_of_range_witness :
    examples.m23.getSingle examples.heap [0, 3] = .error .IndexError := by
  exact ((index_out_of_range examples.heap examples.m23 [0, 3] 0 (by decide)).1 rfl
    ⟨1, by decide, by decide⟩).2.1

end num

namespace num

/-! ### Rejection of shapes that do not broadcast -/

/-- The first loop of `applyBinaryWithBroadcast` throws as soon as it meets an
aligned pair of extents whose bigger one is not a multiple of the smaller one. -/
theorem dimRepsLoop_reject (big small : Tensor) (diff : Int) :
    ∀ (n : Nat) (dimReps : List Int),
      (∃ i j : Nat, i < n ∧ (i : Int) - diff = (j : Int) ∧
        (big.dims.getD i 0).tmod (small.dims.getD j 0) ≠ 0) →
      dimRepsLoop big small diff n dimReps = .error .ShapeMismatchError
  | 0, _, ⟨i, _, hi, _⟩ => by omega
  | n + 1, dimReps, ⟨i, j, hi, hij, hne⟩ => by
    rw [dimRepsLoop]
    have h1 : ¬ ((n : Int) - diff < 0) := by omega
    simp only [h1, if_false]
    by_cases hn : (big.dims.getD n 0).tmod (small.dims.getD ((n : Int) - diff).toNat 0) ≠ 0
    · rw [if_pos hn]
    · rw [if_neg hn]
      apply dimRepsLoop_reject
      refine ⟨i, j, ?_, hij, hne⟩
      rcases Nat.lt_or_ge i n with h | h
      · exact h
      · exfalso
        have e : i = n := by omega
        subst e
        have e2 : ((i : Int) - diff).toNat = j := by omega
        rw [e2] at hn
        exact hn hne

section Reject

variable {α : Type} [LinearOrderedField α]

theorem applyBinaryWithBroadcast_reject (h : Heap α) (a b : Tensor) (fn : α → α → α)
    (hbad : ∃ i j : Nat, i < (biggerOf a b).dims.length ∧ j < (smallerOf a b).dims.length ∧
      i + (smallerOf a b).dims.length = j + (biggerOf a b).dims.length ∧
      ((biggerOf a b).dims.getD i 0).tmod ((smallerOf a b).dims.getD j 0) ≠ 0) :
    applyBinaryWithBroadcast h a b fn = .error .ShapeMismatchError := by
  obtain ⟨i, j, hi, hj, hij, hne⟩ := hbad
  rw [applyBinaryWithBroadcast_eq, dimRepsLoop_reject _ _ _ _ _ ⟨i, j, hi, by omega, hne⟩]
  rfl

/-- C17. Unbroadcastable shapes are rejected: with `big`/`small` chosen by element
count (on a tie the higher rank) and `small` right-aligned against `big`, if some
aligned pair of axes has `big.dim % small.dim ≠ 0` (the `%` of C, which is the usual
remainder on the positive extents of tensors), then `add`, `sub`, `mul`, `div` and
`pow` each throw `ShapeMismatchError` and return no tensor. -/
theorem unbroadcastable_rejected (m : Libm α) (h : Heap α) (a b : Tensor)
    (hbad : ∃ i j : Nat, i < (biggerOf a b).dims.length ∧ j < (smallerOf a b).dims.length ∧
      i + (smallerOf a b).dims.length = j + (biggerOf a b).dims.length ∧
      ((biggerOf a b).dims.getD i 0).tmod ((smallerOf a b).dims.getD j 0) ≠ 0) :
    opAdd h a b = .error .ShapeMismatchError ∧ opSub h a b = .error .ShapeMismatchError ∧
    opMul h a b = .error .ShapeMismatchError ∧ opDiv h a b = .error .ShapeMismatchError ∧
    autofn.pow m h a b = .error .ShapeMismatchError := by
  have k := fun fn : α → α → α => applyBinaryWithBroadcast_reject h a b fn hbad
  refine ⟨?_, ?_, ?_, ?_, ?_⟩
  · simp only [opAdd, autofn.Function.apply, autofn.Add.forward, autofn.binaryForward, k,
      bind_error]
  · simp only [opSub, autofn.Function.apply, autofn.Sub.forward, autofn.binaryForward, k,
      bind_error]
  · simp only [opMul, autofn.Function.apply, autofn.Mul.forward, autofn.binaryForward, k,
      bind_error]
  · simp only [opDiv, autofn.Function.apply, autofn.Div.forward, autofn.binaryForward, k,
      bind_error]
  · simp only [autofn.pow, autofn.Function.apply, autofn.Pow.forward, autofn.binaryForward, k,
      bind_error]

/-- Instance of C17: the shapes `(2, 3)` and `(3, 2)` of the example matrices. -/
theorem unbroadcastable_rejected_witness :
    opAdd examples.heap examples.m23 examples.m32 = .error .ShapeMismatchError :=
  (unbroadcastable_rejected grad_demo.libm examples.heap examples.m23 examples.m32
    ⟨1, 1, by decide, by decide, by decide, by decide⟩).1

end Reject

end num

namespace num

/-! ### Views and copies -/

theorem Heap.write_frame {α : Type} {h h2 : Heap α} {p q : Nat} {i : Int} {v : α}
    (hw : h.write p i v = .ok h2) (hq : q ≠ p) : h2.buf q = h.buf q := by
  unfold Heap.write at hw
  split at hw
  · cases hw
  · split at hw
    · cases hw
      exact Heap.buf_set_other _ (Ne.symm hq)
    · cases hw

section Views

variable {α : Type} [LinearOrderedField α]

/-- C12. Reshape/view transparency. `reshape` to a shape with the same number of
elements returns a tensor on the SAME two buffers: `setSingle` through it at the index
`I` replaces the element of `t` at the linear offset of `I`, so `t` reads the new
value at every index of that offset, and zeroing the gradient through it is zeroing
the gradient of `t`. `clone` returns a tensor of the same shape on two FRESH buffers
holding the data and the gradient of `t`: a write to a buffer of the clone changes no
buffer of `t`, and a write to a buffer of `t` changes no buffer of the clone. -/
theorem reshape_shares_clone_copies (h : Heap α) (t : Tensor) (newShape : IntArrRef)
    (ht : t.WF h) (hprod : newShape.prod = t.dims.prod) :
    (∃ r : Tensor, t.reshape newShape = .ok r ∧ r.dims = newShape ∧
      r.arr = t.arr ∧ r.gradArr = t.gradArr ∧ r.zeroGradient h = t.zeroGradient h ∧
      ∀ (I : IntArrRef) (v : α), ValidIdx newShape I →
        ∃ h' : Heap α, r.setSingle h v I = .ok h' ∧
          h'.buf t.arr = (h.buf t.arr).set (rowMajor newShape I).toNat v ∧
          ∀ J, ValidIdx t.dims J → rowMajor t.dims J = rowMajor newShape I →
            t.getSingle h' J = .ok v) ∧
    ((t.clone h).1.dims = t.dims ∧
      (t.clone h).2.buf (t.clone h).1.arr = h.buf t.arr ∧
      (t.clone h).2.buf (t.clone h).1.gradArr = h.buf t.gradArr ∧
      (t.clone h).2.buf t.arr = h.buf t.arr ∧
      (t.clone h).2.buf t.gradArr = h.buf t.gradArr ∧
      (∀ (i : Int) (v : α) (h2 : Heap α),
        ((t.clone h).2.write (t.clone h).1.arr i v = .ok h2 ∨
          (t.clone h).2.write (t.clone h).1.gradArr i v = .ok h2) →
        h2.buf t.arr = h.buf t.arr ∧ h2.buf t.gradArr = h.buf t.gradArr) ∧
      (∀ (i : Int) (v : α) (h2 : Heap α),
        ((t.clone h).2.write t.arr i v = .ok h2 ∨
          (t.clone h).2.write t.gradArr i v = .ok h2) →
        h2.buf (t.clone h).1.arr = h.buf t.arr ∧
        h2.buf (t.clone h).1.gradArr = h.buf t.gradArr)) := by
  obtain ⟨hne, hpos, hsz, ha, hg, hal, hgl⟩ := ht
  constructor
  · refine ⟨{ t with dims := newShape }, by simp [Tensor.reshape], rfl, rfl, rfl, rfl, ?_⟩
    intro I v hI
    have hlt : (rowMajor newShape I).toNat < (h.buf t.arr).length := by
      rw [hal]
      exact rowMajor_toNat_lt hI (by rw [hsz, hprod])
    refine ⟨_, (setSingle_valid (by exact hI) v).trans (Heap.write_ok v hlt), ?_, ?_⟩
    · exact Heap.buf_set_self _ ha
    · intro J hJ hoff
      rw [getSingle_valid hJ, hoff]
      apply Heap.read_eq_ok
      rw [Heap.buf_set_self _ ha, List.getElem?_set_self hlt]
  · have hc := clone_ok h t hal hgl
    have b0 : (Heap.mk (h.bufs ++ [h.buf t.arr, h.buf t.gradArr])).buf h.bufs.length
        = h.buf t.arr := Heap.buf_append_length _ _ _
    have b1 : (Heap.mk (h.bufs ++ [h.buf t.arr, h.buf t.gradArr])).buf (h.bufs.length + 1)
        = h.buf t.gradArr := Heap.buf_append_length_succ _ _ _ _
    have b2 : (Heap.mk (h.bufs ++ [h.buf t.arr, h.buf t.gradArr])).buf t.arr
        = h.buf t.arr := buf_app _ ha
    have b3 : (Heap.mk (h.bufs ++ [h.buf t.arr, h.buf t.gradArr])).buf t.gradArr
        = h.buf t.gradArr := buf_app _ hg
    rw [hc]
    refine ⟨rfl, b0, b1, b2, b3, ?_, ?_⟩
    · intro i v h2 hw
      rcases hw with hw | hw
      · exact ⟨(Heap.write_frame hw (by show t.arr ≠ h.bufs.length; omega)).trans b2,
          (Heap.write_frame hw (by show t.gradArr ≠ h.bufs.length; omega)).trans b3⟩
      · exact ⟨(Heap.write_frame hw (by show t.arr ≠ h.bufs.length + 1; omega)).trans b2,
          (Heap.write_frame hw (by show t.gradArr ≠ h.bufs.length + 1; omega)).trans b3⟩
    · intro i v h2 hw
      rcases hw with hw | hw
      · exact ⟨(Heap.write_frame hw (by show h.bufs.length ≠ t.arr; omega)).trans b0,
          (Heap.write_frame hw (by show h.bufs.length + 1 ≠ t.arr; omega)).trans b1⟩
      · exact ⟨(Heap.write_frame hw (by show h.bufs.length ≠ t.gradArr; omega)).trans b0,
          (Heap.write_frame hw (by show h.bufs.length + 1 ≠ t.gradArr; omega)).trans b1⟩

/-- Instance of C12: the `2 × 3` example matrix viewed with the shape `(3, 2)`. -/
theorem reshape_shares_clone_copies_witness :
    (examples.m23.reshape [3, 2]).map (fun r => (r.arr, r.gradArr)) = .ok (0, 1) := by
  obtain ⟨r, e, _, ha, hg, _⟩ := (reshape_shares_clone_copies examples.heap examples.m23
    [3, 2] (by unfold Tensor.WF; decide) (by decide)).1
  rw [e]
  simp only [Except.map, ha, hg]
  rfl

end Views

end num

namespace num

/-! ### `set` of what `get` returned -/

section SetGet

variable {α : Type} [LinearOrderedField α]

end SetGet

end num

namespace num

/-! ### Evaluations at inputs where the code departs from the specification -/

/-- C13 (the code departs from the claim). `reshape` tests `out.sz != sz` on a copy
`out` of `*this`, so the test never fires: `reshape` returns for every shape, the
shapes of another element count included. On the `2 × 3` example matrix, six
elements, `reshape((4))` returns a tensor of shape `(4)` on the same two buffers with
`sz = 6`, where the claim requires `ShapeMismatchError`. -/
theorem reshape_never_throws :
    (∀ (t : Tensor) (newDims : IntArrRef), t.reshape newDims = .ok { t with dims := newDims }) ∧
    (examples.m23.reshape [4]).map (fun r => (r.dims, r.arr, r.gradArr, r.sz))
      = .ok ([4], 0, 1, 6) := by
  refine ⟨fun t newDims => by simp [Tensor.reshape], by decide⟩

/-- C14 (the code departs from the claim). The `2 × 3` example matrix satisfies the
shape invariant, and `reshape((4))` of it, which the ineffective test of `reshape`
lets through, is a tensor with `sz = 6` and a data buffer of `6` elements but a shape
of product `4`. -/
theorem reshape_breaks_shape_invariant :
    examples.m23.WF examples.heap ∧
    (examples.m23.reshape [4]).map
      (fun r => (r.sz, (examples.heap.buf r.arr).length, r.dims.prod)) = .ok (6, 6, 4) := by
  refine ⟨by unfold Tensor.WF; decide, by decide⟩

/-- C15 (the code departs from the claim). The forward rules built on
`applyBinaryWithBroadcast` and `ReLU::forward` start from `clone()` of an operand,
which copies the operand's gradient buffer, whereas the constructors and
`MatMul::forward` allocate a zero gradient. With scalar leaves `a = 1`, `b = 2`, after
`c = a + b; c.backward()` the gradient of `a` is `1`, and the new tensors `a + b`,
`a * b` and `relu(a)` are then created with the gradient `1` instead of `0`. -/
theorem forward_result_inherits_gradient :
    (do
      let a := Tensor.ctorScalar (⟨[]⟩ : Heap ℚ) 1
      let b := Tensor.ctorScalar a.2 2
      let c ← opAdd b.2 a.1 b.1
      let h ← c.1.backward grad_demo.libm c.2
      let d ← opAdd h a.1 b.1
      let e ← opMul h a.1 b.1
      let f ← autofn.relu h a.1
      Except.ok (h.buf a.1.gradArr, d.2.buf d.1.gradArr, e.2.buf e.1.gradArr,
        f.2.buf f.1.gradArr)) = .ok ([1], [1], [1], [1]) := by
  decide!

/-- C16 (the code departs from the claim). `backward` seeds the root with
`setGradient(ones(dims))`, and `setGradient` adds to the gradient buffer; nothing
resets the root between two calls. With scalar leaves `a = 1`, `b = 2` and
`r = a + b`, the gradient of `a` is `1` after one call of `r.backward()`; in the
second call the gradient of `r` becomes `2` and is added to the gradient of `a`, which
is `3` after two calls, where the claim requires `2`. -/
theorem second_backward_adds_accumulated_seed :
    (do
      let a := Tensor.ctorScalar (⟨[]⟩ : Heap ℚ) 1
      let b := Tensor.ctorScalar a.2 2
      let r ← opAdd b.2 a.1 b.1
      let h1 ← r.1.backward grad_demo.libm r.2
      let h2 ← r.1.backward grad_demo.libm h1
      Except.ok (h1.buf a.1.gradArr, h1.buf r.1.gradArr, h2.buf r.1.gradArr,
        h2.buf a.1.gradArr)) = .ok ([1], [1], [2], [3]) := by
  decide!

/-- C19 (the code departs from the claim). `get` passes `*this` as source and as
destination to `getCopyRanges`, so `totalSize` is the element count of the tensor and
not the number of selected elements. On the example vector `[10, 20, 30]` of shape
`(3)`, `get({Slice{0, 5}})` copies three elements and stops before the walk reaches
position `3`: it returns the tensor `[10, 20, 30, 0, 0]` of shape `(5)`, where the
claim requires `IndexError`. -/
theorem get_past_bound_returns_padded :
    (examples.v3.get examples.heap [.slice ⟨some 0, some 5, none⟩]).map
      (fun r => (r.1.dims, r.2.buf r.1.arr)) = .ok ([5], [10, 20, 30, 0, 0]) := by
  decide!

/-- C20 (the code departs from the claim). `set` discards the shape that
`getCopyRanges` computes from the selectors, and `getCopyRanges` compares the ranks
only. On the example vector `[11, 12, 13, 14]` of shape `(4)`, `set` with the selectors
`{Slice{0, 2}}` and the value `[10, 20, 30]` of shape `(3)` throws nothing: it copies
three elements round the two selected positions and leaves `[10, 20, 13, 14]`, where
the claim requires `ShapeMismatchError` and an unchanged tensor. -/
theorem set_wrong_shape_not_rejected :
    (examples.v4.set examples.heap examples.v3 [.slice ⟨some 0, some 2, none⟩]).map
      (fun h => h.buf examples.v4.arr) = .ok [10, 20, 13, 14] := by
  decide!

end num

namespace num

section RankCheck

variable {α : Type} [LinearOrderedField α]

/-- C22. Rank check of matmul and transpose: `matmul(A, B)` (and `MatMul::operator()`)
throws `ShapeMismatchError` whenever `A` or `B` is not of rank 2, and `transpose(A)`,
both `autofn::Transpose` and `Tensor::transpose`, throws `ShapeMismatchError` whenever
`A` is not of rank 2; no tensor is returned. -/
theorem rank_check (h : Heap α) (A B : Tensor) :
    ((A.dims.length ≠ 2 ∨ B.dims.length ≠ 2) →
      matmul h A B = .error .ShapeMismatchError ∧ autofn.mm h A B = .error .ShapeMismatchError) ∧
    (A.dims.length ≠ 2 →
      autofn.transpose h A = .error .ShapeMismatchError ∧
      A.transpose h = .error .ShapeMismatchError) := by
  constructor
  · intro hr
    have e : autofn.MatMul.forward h [A, B] = .error .ShapeMismatchError := by
      simp only [autofn.MatMul.forward, List.getElem?_cons_zero, List.getElem?_cons_succ]
      by_cases hA : A.dims.length ≠ 2
      · rw [if_pos hA]
      · rw [if_neg hA]
        rcases hr with hr | hr
        · exact absurd hr hA
        · rw [if_pos hr]
    constructor
    · simp only [matmul, autofn.Function.apply, e, bind_error]
    · simp only [autofn.mm, autofn.Function.apply, e, bind_error]
  · intro hA
    constructor
    · simp only [autofn.transpose, autofn.Function.apply, autofn.Transpose.forward]
      rw [if_pos hA]
      rfl
    · simp only [Tensor.transpose]
      rw [if_pos hA]

/-- Instance of C22: the example vector of rank 1 as a matmul operand. -/
theorem rank_check_witness :
    matmul examples.heap examples.v3 examples.m32 = .error .ShapeMismatchError :=
  ((rank_check examples.heap examples.v3 examples.m32).1 (Or.inl (by decide))).1

end RankCheck

/-! ### Slices -/

/-- C28 (counterexample). For the triple `(0, 2147483647, 2)`, with `step ≥ 1` and
`start ≤ end`, the `int` expression `end - start + (step - 1)` wraps around and
`calcDimSize` returns `-1073741824`, not the ceiling `1073741824`. -/
theorem calcDimSize_overflow_counterexample :
    Slice.calcDimSize (0, 2147483647, 2) = -1073741824 ∧
    Slice.calcDimSize (0, 2147483647, 2)
      ≠ ⌈(((2147483647 - 0 : Int) : ℚ) / ((2 : Int) : ℚ))⌉ := by
  have e : Slice.calcDimSize (0, 2147483647, 2) = -1073741824 := by decide!
  refine ⟨e, ?_⟩
  rw [e]
  intro h
  have h0 : (0 : Int) ≤ ⌈(((2147483647 - 0 : Int) : ℚ) / ((2 : Int) : ℚ))⌉ :=
    Int.ceil_nonneg (by norm_num)
  omega

/-- C28 (amended). Slice resolution and element count: `toRangeTuple(n)` substitutes `0`
for an omitted start, `n` for an omitted end and `1` for an omitted step and keeps the
given values; and for `step ≥ 1`, `start ≤ end` and
`end - start + (step - 1) ≤ INT_MAX` (the `int` expression does not overflow),
`calcDimSize(start, end, step)` is `⌈(end - start) / step⌉`, and
`start + k * step < end` holds exactly for the `calcDimSize` numbers
`k = 0, .., calcDimSize - 1`. -/
theorem slice_resolution (n : Int) (s : Slice) :
    ((s.toRangeTuple n).1 = (match s.start with | some x => x | none => 0) ∧
      (s.toRangeTuple n).2.1 = (match s.end_ with | some x => x | none => n) ∧
      (s.toRangeTuple n).2.2 = (match s.step with | some x => x | none => 1)) ∧
    ∀ start stop step : Int, 1 ≤ step → start ≤ stop →
      stop - start + (step - 1) ≤ INT_MAX →
      Slice.calcDimSize (start, stop, step) = ⌈(((stop - start : Int) : ℚ) / ((step : Int) : ℚ))⌉ ∧
      0 ≤ Slice.calcDimSize (start, stop, step) ∧
      (∀ k : Nat, start + (k : Int) * step < stop ↔ (k : Int) < Slice.calcDimSize (start, stop, step)) ∧
      Set.ncard {k : Nat | start + (k : Int) * step < stop}
        = (Slice.calcDimSize (start, stop, step)).toNat := by
  constructor
  · refine ⟨?_, ?_, ?_⟩
    · cases hs : s.start <;> simp [Slice.toRangeTuple, hs]
    · cases hs : s.end_ <;> simp [Slice.toRangeTuple, hs]
    · cases hs : s.step <;> simp [Slice.toRangeTuple, hs]
  · intro start stop step hstep hle hfit
    simp only [INT_MAX] at hfit
    rw [calcDimSize_exact hle hstep hfit]
    rw [Int.tdiv_eq_ediv (by omega) (by omega)]
    have k1 := Int.ediv_add_emod (stop - start + (step - 1)) step
    have k2 := Int.emod_nonneg (stop - start + (step - 1)) (by omega : step ≠ 0)
    have k3 := Int.emod_lt_of_pos (stop - start + (step - 1)) (by omega : 0 < step)
    generalize (stop - start + (step - 1)) / step = q at *
    generalize (stop - start + (step - 1)) % step = m at *
    have a1 : stop - start ≤ q * step := by nlinarith
    have a2 : (q - 1) * step < stop - start := by nlinarith
    have a3 : 0 ≤ q := by
      by_contra hq
      have hq' : q + 1 ≤ 0 := by omega
      have := mul_le_mul_of_nonneg_right hq' (by omega : (0 : Int) ≤ step)
      nlinarith
    have hp : (0 : ℚ) < ((step : Int) : ℚ) := by exact_mod_cast (by omega : (0 : Int) < step)
    have hiff : ∀ k : Nat, start + (k : Int) * step < stop ↔ (k : Int) < q := by
      intro k
      constructor
      · intro hk
        by_contra hge
        have : q * step ≤ (k : Int) * step :=
          mul_le_mul_of_nonneg_right (by omega) (by omega)
        nlinarith
      · intro hk
        have : (k : Int) * step ≤ (q - 1) * step :=
          mul_le_mul_of_nonneg_right (by omega) (by omega)
        nlinarith
    refine ⟨?_, a3, hiff, ?_⟩
    · symm
      rw [Int.ceil_eq_iff]
      constructor
      · rw [lt_div_iff₀ hp]
        have : (((q - 1) * step : Int) : ℚ) < ((stop - start : Int) : ℚ) := by exact_mod_cast a2
        simpa using this
      · rw [div_le_iff₀ hp]
        have : ((stop - start : Int) : ℚ) ≤ ((q * step : Int) : ℚ) := by exact_mod_cast a1
        simpa using this
    · have hset : {k : Nat | start + (k : Int) * step < stop} = ↑(Finset.range q.toNat) := by
        ext k
        simp only [Set.mem_setOf_eq, Finset.coe_range, Set.mem_Iio]
        rw [hiff k]
        omega
      rw [hset, Set.ncard_coe_Finset, Finset.card_range]

/-- Instance of C28 (amended): the range `(1, 8, 3)` selects the positions `1, 4, 7`. -/
theorem slice_resolution_witness :
    Slice.calcDimSize (1, 8, 3) = ⌈(((8 - 1 : Int) : ℚ) / ((3 : Int) : ℚ))⌉ :=
  ((slice_resolution 0 ⟨none, none, none⟩).2 1 8 3 (by decide) (by decide) (by decide)).1

end num

namespace num

/-- C21 (the code departs from the claim). `MatMul::forward` checks the ranks of its
operands and nothing else; the inner dimensions are never compared. With `A` the
`2 × 3` and `B` the `2 × 2` example matrix (`k = 3 > 2 = k'`) the loop reads
`B[2, 0]` and `getSingle` throws `IndexError`, not `ShapeMismatchError`. With `A` the
`2 × 2` and `B` the `3 × 2` example matrix (`k = 2 < 3 = k'`) nothing is thrown:
the call returns the `2 × 2` product of `A` with the first two rows of `B`. -/
theorem matmul_inner_dimension_unchecked :
    (matmul examples.heap examples.m23 examples.m22).map (fun r => r.1.dims)
      = .error .IndexError ∧
    (matmul examples.heap examples.m22 examples.m32).map
      (fun r => (r.1.dims, r.2.buf r.1.arr)) = .ok ([2, 2], [5, 2, 11, 4]) := by
  decide!

/-- C25 (the code departs from the claim). `MatMul::forward` has no arity test where
its siblings have one: it reads `args.at(0)` and `args.at(1)`. Through
`Function::apply` with the single operand `{A}` it throws `std::out_of_range`, not
`std::invalid_argument`, and with the three operands `{A, B, C}` it throws nothing
and returns the product of the first two. -/
theorem matmul_arity_unchecked :
    (autofn.Function.apply autofn.MatMul.forward .MatMul examples.heap
      [examples.m23]).map (fun r => r.1.dims) = .error .out_of_range ∧
    (autofn.Function.apply autofn.MatMul.forward .MatMul examples.heap
      [examples.m23, examples.m32, examples.m22]).map
      (fun r => (r.1.dims, r.2.buf r.1.arr)) = .ok ([2, 2], [5, 11, 14, 23]) := by
  decide!

end num

namespace num

section CtorValidation

variable {α : Type} [LinearOrderedField α]

/-- C24 (counterexample). The shape `(0)` has a non-positive dimension, yet the
constructor does not throw `std::invalid_argument`: the guard is `dim < 0` and the
zero passes it (the error that the call ends with is an `IndexError`). -/
theorem ctor_zero_dim_counterexample :
    (Tensor.ctor examples.heap [0] (fun _ => (0 : ℚ))).map (fun r => r.1.dims)
      = .error .IndexError ∧
    (Tensor.ctor examples.heap [0] (fun _ => (0 : ℚ))).map (fun r => r.1.dims)
      ≠ .error .invalid_argument := by
  decide!

/-- C24 (amended). Shape validation at construction: an empty shape and a shape that
contains a negative dimension make the constructor throw `std::invalid_argument`, and
no tensor is created. -/
theorem ctor_shape_validation (h : Heap α) (dims : IntArrRef) (f : IntArrRef → α) :
    (dims = [] → Tensor.ctor h dims f = .error .invalid_argument) ∧
    ((∃ d ∈ dims, d < 0) → Tensor.ctor h dims f = .error .invalid_argument) := by
  refine ⟨?_, ?_⟩
  · intro e
    subst e
    rfl
  · rintro ⟨d, hd, hneg⟩
    unfold Tensor.ctor
    have hne : ¬ dims.length = 0 := by
      intro e
      rw [List.length_eq_zero.1 e] at hd
      simp at hd
    rw [if_neg hne, if_pos]
    rw [List.any_eq_true]
    exact ⟨d, hd, by simpa using hneg⟩

/-- Instance of C24 (amended): the shape `(2, -1)`. -/
theorem ctor_shape_validation_witness :
    Tensor.ctor examples.heap [2, -1] (fun _ => (0 : ℚ)) = .error .invalid_argument :=
  (ctor_shape_validation examples.heap [2, -1] (fun _ => (0 : ℚ))).2
    ⟨-1, by decide, by decide⟩

end CtorValidation

end num

namespace num

/-! ### The increment of an index vector -/

end num

namespace num

section GradientShapes

variable {α : Type} [LinearOrderedField α]

/-- C23 (the code departs from the claim). `setBroadcastGradient` has no branch that
rejects a shape: when the padded shape of `t` is not below the shape of `g` it calls
`setGradient(gradient.reshape(dims))`, and the reshape makes the shape test of
`setGradient` pass. For `t` of shape `(3, 2)` and `g` of shape `(2, 3)` nothing is
thrown and the zero gradient of `t` becomes `[1, 2, 3, 4, 5, 6]`, the elements of `g`
in storage order, where `setGradient(g)` itself throws `ShapeMismatchError`; the
mirrored call, `t` of shape `(2, 3)` and `g` of shape `(3, 2)`, throws
`ShapeMismatchError`. -/
theorem setBroadcastGradient_unrelated_shape_accepted :
    (examples.m32.setBroadcastGradient examples.heap examples.m23).map
      (fun h => h.buf examples.m32.gradArr) = .ok [1, 2, 3, 4, 5, 6] ∧
    (examples.m32.setGradient examples.heap examples.m23).map
      (fun h => h.buf examples.m32.gradArr) = .error .ShapeMismatchError ∧
    (examples.m23.setBroadcastGradient examples.heap examples.m32).map
      (fun h => h.buf examples.m23.gradArr) = .error .ShapeMismatchError := by
  decide!

end GradientShapes

end num

namespace num

section TransposeRule

variable {α : Type} [LinearOrderedField α]

theorem transpose_forward_eq (h : Heap α) (a : Tensor) :
    autofn.Transpose.forward h [a] = a.transpose h := rfl

/-- C27. Transpose: for `A` of shape `(m, n)`, `transpose(A)`, as `autofn::Transpose`
and as `Tensor::transpose`, returns a new tensor of shape `(n, m)` on fresh buffers
with `out[j, i] = A[i, j]`, every buffer that existed before being unchanged; and the
backward rule with an incoming gradient `g` of shape `(n, m)` adds the transpose of
`g` to the gradient of `A`: `A.grad[i, j] += g[j, i]`, the data of `A` unchanged. -/
theorem transpose_spec (h : Heap α) (A g : Tensor) (m n : Nat) (hA : A.WF h) (hg : g.WF h)
    (hAd : A.dims = [(m : Int), (n : Int)]) (hgd : g.dims = [(n : Int), (m : Int)])
    (hsep : A.arr ≠ A.gradArr) :
    (∃ (out : Tensor) (h' : Heap α), autofn.transpose h A = .ok (out, h') ∧
      out.dims = [(n : Int), (m : Int)] ∧ h.bufs.length ≤ out.arr ∧
      (∀ q, q < h.bufs.length → h'.buf q = h.buf q) ∧
      ∀ i j, i < m → j < n → ∃ x : α,
        A.getSingle h [(i : Int), (j : Int)] = .ok x ∧
        out.getSingle h' [(j : Int), (i : Int)] = .ok x) ∧
    (∃ (out : Tensor) (h' : Heap α), A.transpose h = .ok (out, h') ∧
      out.dims = [(n : Int), (m : Int)] ∧ h.bufs.length ≤ out.arr ∧
      (∀ q, q < h.bufs.length → h'.buf q = h.buf q) ∧
      ∀ i j, i < m → j < n → ∃ x : α,
        A.getSingle h [(i : Int), (j : Int)] = .ok x ∧
        out.getSingle h' [(j : Int), (i : Int)] = .ok x) ∧
    (∃ h' : Heap α, autofn.Transpose.backward h g [A] = .ok h' ∧
      h'.buf A.arr = h.buf A.arr ∧
      ∀ i j, i < m → j < n → ∃ x y : α,
        g.getSingle h [(j : Int), (i : Int)] = .ok x ∧
        (A.getGradient h).1.getSingle (A.getGradient h).2 [(i : Int), (j : Int)] = .ok y ∧
        (A.getGradient h').1.getSingle (A.getGradient h').2 [(i : Int), (j : Int)]
          = .ok (y + x)) := by
  obtain ⟨hm, hn, hAsz, hAl, hAgl⟩ := wf_len2 hA hAd
  obtain ⟨_, _, hgsz, hgl, _⟩ := wf_len2 hg hgd
  obtain ⟨out, H1, e1, l1, f1, wout, dout, aout, vout⟩ := transpose_fr h A m n hA hAd
  have fwd : ∀ i j, i < m → j < n → ∃ x : α,
      A.getSingle h [(i : Int), (j : Int)] = .ok x ∧
      out.getSingle H1 [(j : Int), (i : Int)] = .ok x := by
    intro i j hi hj
    refine ⟨(h.buf A.arr).getD (i * n + j) 0, getSingle2 hAd hAl hi hj, ?_⟩
    rw [getSingle2 dout (wf_len2 wout dout).2.2.2.1 hj hi, vout j i hj hi]
  refine ⟨?_, ⟨out, H1, e1, dout, aout, f1, fwd⟩, ?_⟩
  · refine ⟨{ out with gradGraphChildren := [A], backwardFn := .Transpose }, H1, ?_, dout,
      aout, f1, ?_⟩
    · simp only [autofn.transpose, autofn.Function.apply, transpose_forward_eq, e1, bind_ok]
    · intro i j hi hj
      obtain ⟨x, hx1, hx2⟩ := fwd i j hi hj
      exact ⟨x, hx1, hx2⟩
  · obtain ⟨gt, H2, e2, l2, f2, wgt, dgt, agt, vgt⟩ := transpose_fr h g n m hg hgd
    have hA2 : A.WF H2 := wf_fr hA l2 f2
    have hAg : A.gradArr < h.bufs.length := hA.2.2.2.2.1
    obtain ⟨H3, e3, l3, f3, g3, v3⟩ := accumulate_spec H2 A gt hA2 wgt (by rw [dgt, hAd])
      (by omega)
    have hA3 : A.WF H3 := wf_frame hA2 (by omega) (f3 _ hsep) (g3 _)
    refine ⟨H3, ?_, ?_, ?_⟩
    · simp only [autofn.Transpose.backward, autofn.operand, List.getElem?_cons_zero, bind_ok,
        transpose_forward_eq, e2, e3]
    · rw [f3 _ hsep, f2 _ hA.2.2.2.1]
    · intro i j hi hj
      refine ⟨(h.buf g.arr).getD (j * m + i) 0, (h.buf A.gradArr).getD (i * n + j) 0,
        getSingle2 hgd hgl hj hi, gradient_getSingle2 hA hAd hi hj, ?_⟩
      rw [gradient_getSingle2 hA3 hAd hi hj, v3 _ (by rw [hAsz]; exact mul_add_lt hi hj),
        f2 _ hAg, vgt i j hi hj]

/-- Instance of C27: the `2 × 3` example matrix with the `3 × 2` one as gradient. -/
theorem transpose_spec_witness :
    (autofn.transpose examples.heap examples.m23).map (fun r => r.1.dims) = .ok [3, 2] := by
  obtain ⟨out, h', e, hd, _⟩ := (transpose_spec examples.heap examples.m23 examples.m32 2 3
    (by unfold Tensor.WF; decide) (by unfold Tensor.WF; decide) rfl rfl (by decide)).1
  rw [e]
  simp only [Except.map, hd]
  rfl

end TransposeRule

end num

namespace num

section ScalarRight

variable {α : Type} [LinearOrderedField α]

theorem sub_forward_eq :
    (autofn.Sub.forward : Heap α → List Tensor → Except NumError (Tensor × Heap α))
      = autofn.binaryForward (fun a b => a - b) := rfl

omit [LinearOrderedField α] in
theorem swappedOf_scalar_right {h : Heap α} {x p : Tensor} (hx : x.WF h) (hp : p.WF h)
    (hpd : p.dims = [1]) : swappedOf x p = false ∧ p.sz = 1 := by
  have hps : p.sz = 1 := by
    have := hp.2.2.1
    rw [hpd] at this
    simp at this
    omega
  have hxs : 0 < x.sz := by
    have h1 := prod_pos_of_pos hx.2.1
    have h2 := hx.2.2.1
    omega
  have hrk : 0 < x.dims.length := List.length_pos.2 hx.1
  refine ⟨?_, hps⟩
  unfold swappedOf
  rw [decide_eq_false_iff_not, hps, hpd]
  simp only [List.length_singleton]
  omega

/-- A tensor combined with a scalar tensor of shape `(1)` on its right: every
element is combined with the scalar, in a fresh copy of the tensor. -/
theorem broadcast_scalar_right (fn : α → α → α) (h : Heap α) (x p : Tensor) (hx : x.WF h)
    (hp : p.WF h) (hpd : p.dims = [1]) :
    applyBinaryWithBroadcast h x p fn
      = .ok ({ x with arr := h.bufs.length, gradArr := h.bufs.length + 1 },
          ⟨h.bufs ++ [(List.range x.sz).map
            (fun q => fn ((h.buf x.arr).getD q 0) ((h.buf p.arr).getD 0 0)),
            h.buf x.gradArr]⟩) := by
  obtain ⟨hs, hps⟩ := swappedOf_scalar_right hx hp hpd
  have hB : biggerOf x p = x := by simp [biggerOf, hs]
  have hS : smallerOf x p = p := by simp [smallerOf, hs]
  have hrk : 0 < x.dims.length := List.length_pos.2 hx.1
  have h1 := applyBinaryWithBroadcast_ok h x p fn hx hp (x.dims.length - 1)
    (by rw [hB, hS, hpd]; simp only [List.length_singleton]; omega)
    (by
      intro k hk
      rw [hS, hpd] at hk
      have hk0 : k = 0 := by simpa using hk
      subst hk0
      rw [hB, hS, hpd]
      simp)
  rw [hB, hS, hs, hpd] at h1
  have e : (List.range x.sz).map (broadcastData fn false x.dims [1] (h.buf x.arr) (h.buf p.arr))
      = (List.range x.sz).map
          (fun q => fn ((h.buf x.arr).getD q 0) ((h.buf p.arr).getD 0 0)) := by
    apply List.map_congr_left
    intro q _
    have hj : (rowMajor [1] (broadcastIdx [1] (x.dims.length - [(1 : Int)].length)
        (unravel x.dims (q : Int)))).toNat = 0 := by
      apply rowMajor_one
      simp only [broadcastIdx]
      cases (List.drop (x.dims.length - [(1 : Int)].length) (unravel x.dims (q : Int))) with
      | nil => left; rfl
      | cons y ys => right; simp
    simp only [broadcastData, Bool.false_eq_true, if_false, hj]
  rw [h1, e]

theorem broadcast_scalar_right_fr (fn : α → α → α) (H : Heap α) (x p : Tensor) (hx : x.WF H)
    (hp : p.WF H) (hpd : p.dims = [1]) :
    ∃ (out : Tensor) (H' : Heap α), applyBinaryWithBroadcast H x p fn = .ok (out, H') ∧
      H.bufs.length ≤ H'.bufs.length ∧ (∀ q, q < H.bufs.length → H'.buf q = H.buf q) ∧
      out.WF H' ∧ out.dims = x.dims ∧ out.sz = x.sz ∧ H.bufs.length ≤ out.arr ∧
      ∀ q, q < x.sz → (H'.buf out.arr).getD q 0
        = fn ((H.buf x.arr).getD q 0) ((H.buf p.arr).getD 0 0) := by
  refine ⟨_, _, broadcast_scalar_right fn H x p hx hp hpd, by simp, fun q hq => buf_app _ hq,
    ?_, rfl, rfl, le_refl _, ?_⟩
  · refine ⟨hx.1, hx.2.1, hx.2.2.1, by simp, by simp, ?_, ?_⟩
    · show ((Heap.mk _).buf H.bufs.length).length = x.sz
      rw [Heap.buf_append_length]
      simp
    · show ((Heap.mk _).buf (H.bufs.length + 1)).length = x.sz
      rw [Heap.buf_append_length_succ]
      exact hx.2.2.2.2.2.2
  · intro q hq
    show ((Heap.mk _).buf H.bufs.length).getD q 0 = _
    rw [Heap.buf_append_length, getD_map_range _ _ hq]

theorem apply_scalar_right_fr (fn : α → α → α) (bw : BackwardFn) (H : Heap α) (x p : Tensor)
    (hx : x.WF H) (hp : p.WF H) (hpd : p.dims = [1]) :
    ∃ (out : Tensor) (H' : Heap α),
      autofn.Function.apply (autofn.binaryForward fn) bw H [x, p] = .ok (out, H') ∧
      H.bufs.length ≤ H'.bufs.length ∧ (∀ q, q < H.bufs.length → H'.buf q = H.buf q) ∧
      out.WF H' ∧ out.dims = x.dims ∧ out.sz = x.sz ∧ H.bufs.length ≤ out.arr ∧
      ∀ q, q < x.sz → (H'.buf out.arr).getD q 0
        = fn ((H.buf x.arr).getD q 0) ((H.buf p.arr).getD 0 0) := by
  obtain ⟨out, H', e, l, f, w, d, z, a, v⟩ := broadcast_scalar_right_fr fn H x p hx hp hpd
  refine ⟨{ out with gradGraphChildren := [x, p], backwardFn := bw }, H', ?_, l, f, w, d, z, a, v⟩
  simp only [autofn.Function.apply, autofn.binaryForward, e, bind_ok]

theorem ctorScalar_fr (H : Heap α) (c : α) :
    H.bufs.length ≤ (Tensor.ctorScalar H c).2.bufs.length ∧
    (∀ q, q < H.bufs.length → (Tensor.ctorScalar H c).2.buf q = H.buf q) ∧
    (Tensor.ctorScalar H c).1.WF (Tensor.ctorScalar H c).2 ∧
    (Tensor.ctorScalar H c).1.dims = [1] ∧
    H.bufs.length ≤ (Tensor.ctorScalar H c).1.arr ∧
    ((Tensor.ctorScalar H c).2.buf (Tensor.ctorScalar H c).1.arr).getD 0 0 = c := by
  have hc : Tensor.ctorScalar H c
      = (⟨[1], .leaf, [], H.bufs.length, H.bufs.length + 1, 1⟩, ⟨H.bufs ++ [[c], [0]]⟩) := by
    simp [Tensor.ctorScalar, Heap.alloc]
  have hmb : (Heap.mk (H.bufs ++ [[c], [(0 : α)]])).buf H.bufs.length = [c] :=
    Heap.buf_append_length _ _ _
  have hmg : (Heap.mk (H.bufs ++ [[c], [(0 : α)]])).buf (H.bufs.length + 1) = [0] :=
    Heap.buf_append_length_succ _ _ _ _
  rw [hc]
  refine ⟨by simp, fun q hq => buf_app _ hq, ?_, rfl, le_refl _, ?_⟩
  · refine ⟨by simp, by simp, by simp, by simp, by simp, ?_, ?_⟩
    · show ((Heap.mk _).buf H.bufs.length).length = 1
      rw [hmb]
      rfl
    · show ((Heap.mk _).buf (H.bufs.length + 1)).length = 1
      rw [hmg]
      rfl
  · show ((Heap.mk _).buf H.bufs.length).getD 0 0 = c
    rw [hmb]
    rfl

end ScalarRight

end num

namespace num

section PowerRule

variable {α : Type} [LinearOrderedField α]

theorem pow_backward_ok (m : Libm α) (h : Heap α) (x p g : Tensor) (hx : x.WF h)
    (hp : p.WF h) (hg : g.WF h) (hpd : p.dims = [1]) (hgd : g.dims = x.dims) :
    ∃ h' : Heap α, autofn.Pow.backward m h g [x, p] = .ok h' ∧
      (∀ q, q ≠ x.gradArr → q < h.bufs.length → h'.buf q = h.buf q) ∧
      ∀ q, q < x.sz → (h'.buf x.gradArr).getD q 0
        = (h.buf x.gradArr).getD q 0
          + (h.buf g.arr).getD q 0
            * m.pow ((h.buf x.arr).getD q 0) ((h.buf p.arr).getD 0 0 - 1)
            * (h.buf p.arr).getD 0 0 := by
  obtain ⟨l0, f0, wone, done, aone, vone⟩ := ctorScalar_fr h (1 : α)
  have hp0 : p.WF (Tensor.ctorScalar h (1 : α)).2 := wf_fr hp l0 f0
  have hps : p.sz = 1 := (swappedOf_scalar_right hx hp hpd).2
  have hgs : g.sz = x.sz := same_sz hg hx hgd
  -- p - 1
  obtain ⟨p1, H1, e1, l1, f1, wp1, dp1, zp1, ap1, vp1⟩ :=
    apply_same_shape_fr (fun a b : α => a - b) .Sub _ p _ hp0 wone (hpd.trans done.symm)
  have old1 : ∀ q, q < h.bufs.length → H1.buf q = h.buf q := by
    intro q hq
    rw [f1 q (by omega), f0 q hq]
  have hx1 : x.WF H1 := wf_fr hx (by omega) old1
  have hg1 : g.WF H1 := wf_fr hg (by omega) old1
  have hp1 : p.WF H1 := wf_fr hp (by omega) old1
  -- x ^ (p - 1)
  obtain ⟨f, H2, e2, l2, f2, wf, df, zf, af, vf⟩ :=
    broadcast_scalar_right_fr (fun a b : α => m.pow a b) H1 x p1 hx1 wp1 (dp1.trans hpd)
  have old2 : ∀ q, q < h.bufs.length → H2.buf q = h.buf q := by
    intro q hq
    rw [f2 q (by omega), old1 q hq]
  have hx2 : x.WF H2 := wf_fr hx (by omega) old2
  have hg2 : g.WF H2 := wf_fr hg (by omega) old2
  have hp2 : p.WF H2 := wf_fr hp (by omega) old2
  -- outGradient * x ^ (p - 1)
  obtain ⟨xg, H3, e3, l3, f3, wxg, dxg, zxg, axg, vxg⟩ :=
    apply_same_shape_fr (fun a b : α => a * b) .Mul H2 g f hg2 wf (hgd.trans df.symm)
  have old3 : ∀ q, q < h.bufs.length → H3.buf q = h.buf q := by
    intro q hq
    rw [f3 q (by omega), old2 q hq]
  have hx3 : x.WF H3 := wf_fr hx (by omega) old3
  have hp3 : p.WF H3 := wf_fr hp (by omega) old3
  -- .. * p
  obtain ⟨gg, H4, e4, l4, f4, wgg, dgg, zgg, agg, vgg⟩ :=
    apply_scalar_right_fr (fun a b : α => a * b) .Mul H3 xg p wxg hp3 hpd
  have old4 : ∀ q, q < h.bufs.length → H4.buf q = h.buf q := by
    intro q hq
    rw [f4 q (by omega), old3 q hq]
  have hx4 : x.WF H4 := wf_fr hx (by omega) old4
  have hxg : x.gradArr < h.bufs.length := hx.2.2.2.2.1
  -- accumulate
  obtain ⟨H5, e5, l5, f5, g5, v5⟩ := accumulate_spec H4 x gg hx4 wgg
    (by rw [dgg, dxg, hgd]) (by omega)
  refine ⟨H5, ?_, ?_, ?_⟩
  · simp only [autofn.Pow.backward, autofn.operand, List.getElem?_cons_zero,
      List.getElem?_cons_succ, bind_ok, opSub, opMul, sub_forward_eq, mul_forward_eq, e1]
    have e2' : autofn.Pow.forward m H1 [x, p1] = .ok (f, H2) := e2
    rw [e2', bind_ok]
    simp only [e3, bind_ok, e4, e5]
  · intro q hq hql
    rw [f5 q hq, old4 q hql]
  · intro q hq
    have hone : ((Tensor.ctorScalar h (1 : α)).2.buf (Tensor.ctorScalar h (1 : α)).1.arr).getD
        0 0 = 1 := vone
    rw [v5 q hq, old4 _ hxg, vgg q (by rw [zxg, hgs]; exact hq), vxg q (by rw [hgs]; exact hq),
      vf q hq, vp1 0 (by omega), hone, f0 _ hp.2.2.2.1, old3 _ hp.2.2.2.1,
      old2 _ hg.2.2.2.1, old1 _ hx.2.2.2.1]

/-- C26. Power rule: for a base `x` of any shape, an exponent tensor `p` of shape `(1)`
holding the positive integer `k` and an incoming gradient `g` of the shape of `x`
(`std::pow` with an integer exponent being the power), `pow` returns a new tensor of
the shape of `x` holding `x ^ k` elementwise, and `Pow::backward` adds
`g * k * x ^ (k - 1)` elementwise to the gradient of `x`; the gradient of `p` and the
data of `x` and `p` are unchanged. -/
theorem power_rule (m : Libm α) (h : Heap α) (x p g : Tensor) (k : Nat) (hx : x.WF h)
    (hp : p.WF h) (hg : g.WF h) (hpd : p.dims = [1]) (hgd : g.dims = x.dims) (hk : 0 < k)
    (hpv : (h.buf p.arr).getD 0 0 = (k : α))
    (hpow : ∀ (y : α) (n : Nat), m.pow y (n : α) = y ^ n)
    (hs1 : x.gradArr ≠ x.arr) (hs2 : x.gradArr ≠ p.arr) (hs3 : x.gradArr ≠ p.gradArr) :
    (∃ (out : Tensor) (h' : Heap α), autofn.pow m h x p = .ok (out, h') ∧
      out.dims = x.dims ∧ h.bufs.length ≤ out.arr ∧
      (∀ q, q < h.bufs.length → h'.buf q = h.buf q) ∧
      ∀ q, q < x.sz → (h'.buf out.arr).getD q 0 = (h.buf x.arr).getD q 0 ^ k) ∧
    (∃ h' : Heap α, autofn.Pow.backward m h g [x, p] = .ok h' ∧
      (∀ q, q < x.sz → (h'.buf x.gradArr).getD q 0
        = (h.buf x.gradArr).getD q 0
          + (h.buf g.arr).getD q 0 * (k : α) * (h.buf x.arr).getD q 0 ^ (k - 1)) ∧
      h'.buf p.gradArr = h.buf p.gradArr ∧ h'.buf x.arr = h.buf x.arr ∧
      h'.buf p.arr = h.buf p.arr) := by
  constructor
  · obtain ⟨out, H', e, l, f, w, d, z, a, v⟩ :=
      apply_scalar_right_fr (fun a b : α => m.pow a b) .Pow h x p hx hp hpd
    refine ⟨out, H', e, d, a, f, ?_⟩
    intro q hq
    rw [v q hq, hpv, hpow]
  · obtain ⟨h', e, fr, v⟩ := pow_backward_ok m h x p g hx hp hg hpd hgd
    refine ⟨h', e, ?_, fr _ (Ne.symm hs3) hp.2.2.2.2.1, fr _ (Ne.symm hs1) hx.2.2.2.1,
      fr _ (Ne.symm hs2) hp.2.2.2.1⟩
    intro q hq
    have hk1 : ((k : α) - 1) = ((k - 1 : Nat) : α) := by
      rw [Nat.cast_pred hk]
    rw [v q hq, hpv, hk1, hpow]
    ring

/-- Instance of C26: the `2 × 2` example matrix raised to the scalar `7`. -/
theorem power_rule_witness :
    (autofn.Pow.backward grad_demo.libm examples.heap examples.g22
      [examples.m22, examples.s1]).toBool = true := by
  obtain ⟨h', e, _⟩ := (power_rule grad_demo.libm examples.heap examples.m22 examples.s1
    examples.g22 7 (by unfold Tensor.WF; decide) (by unfold Tensor.WF; decide)
    (by unfold Tensor.WF; decide) rfl rfl (by decide) (by decide)
    (by intro y n; simp [grad_demo.libm, grad_demo.ratPow])
    (by decide) (by decide) (by decide)).2
  rw [e]
  rfl

end PowerRule

end num

/-! ## The depth-first sort of `Tensor::backward` -/

namespace num

namespace Tensor

theorem topologicalSort_eq (t : Tensor) (s : List Tensor) (v : List Nat) :
    topologicalSort t (s, v) = if v.contains t.arr then (s, v)
      else ((topologicalSort.sortChildren t.gradGraphChildren (s, t.arr :: v)).1 ++ [t],
            (topologicalSort.sortChildren t.gradGraphChildren (s, t.arr :: v)).2) := by
  obtain ⟨d, f, ch, a, g, z⟩ := t
  rw [topologicalSort]

theorem nodes_eq (t : Tensor) : t.nodes = t :: nodes.nodesList t.gradGraphChildren := by
  obtain ⟨d, f, ch, a, g, z⟩ := t
  rw [nodes]

theorem self_mem_nodes (t : Tensor) : t ∈ t.nodes := by
  rw [nodes_eq]
  exact List.mem_cons_self _ _

theorem mem_nodesList {y : Tensor} : ∀ {cs : List Tensor},
    y ∈ nodes.nodesList cs ↔ ∃ c ∈ cs, y ∈ c.nodes
  | [] => by simp [nodes.nodesList]
  | c :: rest => by
    rw [nodes.nodesList, List.mem_append, mem_nodesList]
    simp only [List.mem_cons, exists_eq_or_imp]

theorem mem_nodes_iff {y t : Tensor} :
    y ∈ t.nodes ↔ y = t ∨ ∃ c ∈ t.gradGraphChildren, y ∈ c.nodes := by
  rw [nodes_eq, List.mem_cons, mem_nodesList]

theorem sizeOf_child_lt {c t : Tensor} (h : c ∈ t.gradGraphChildren) : sizeOf c < sizeOf t := by
  obtain ⟨d, f, ch, a, g, z⟩ := t
  have h1 := List.sizeOf_lt_of_mem h
  simp only [Tensor.mk.sizeOf_spec]
  simp only at h1
  omega

theorem sizeOf_le_of_mem_nodes : ∀ (n : Nat) (t y : Tensor), sizeOf t ≤ n → y ∈ t.nodes →
    sizeOf y ≤ sizeOf t := by
  intro n
  induction n with
  | zero =>
    intro t y hn
    obtain ⟨d, f, ch, a, g, z⟩ := t
    simp only [Tensor.mk.sizeOf_spec] at hn
    omega
  | succ n ih =>
    intro t y hn hy
    rcases mem_nodes_iff.1 hy with rfl | ⟨c, hc, hyc⟩
    · exact le_rfl
    · have h1 := sizeOf_child_lt hc
      have h2 := ih c y (by omega) hyc
      omega

theorem nodes_trans : ∀ (n : Nat) (t x y : Tensor), sizeOf t ≤ n → x ∈ t.nodes →
    y ∈ x.nodes → y ∈ t.nodes := by
  intro n
  induction n with
  | zero =>
    intro t x y hn
    obtain ⟨d, f, ch, a, g, z⟩ := t
    simp only [Tensor.mk.sizeOf_spec] at hn
    omega
  | succ n ih =>
    intro t x y hn hx hy
    rcases mem_nodes_iff.1 hx with rfl | ⟨c, hc, hxc⟩
    · exact hy
    · have h1 := sizeOf_child_lt hc
      exact mem_nodes_iff.2 (Or.inr ⟨c, hc, ih c x y (by omega) hxc hy⟩)

/-- A consistent graph has no cycle through buffers: no tensor below an operand of `x`
has the buffer of `x`. -/
theorem Consistent.acyclic {root : Tensor} (hc : Consistent root) {x c y : Tensor}
    (hx : x ∈ root.nodes) (hcx : c ∈ x.gradGraphChildren) (hy : y ∈ c.nodes) :
    y.arr ≠ x.arr := by
  intro he
  have hyx : y ∈ x.nodes := mem_nodes_iff.2 (Or.inr ⟨c, hcx, hy⟩)
  have hyr : y ∈ root.nodes := nodes_trans _ root x y le_rfl hx hyx
  have hch := hc y hyr x hx he
  have h1 : sizeOf c < sizeOf y := sizeOf_child_lt (hch ▸ hcx)
  have h2 := sizeOf_le_of_mem_nodes _ c y le_rfl hy
  omega

theorem sortChildren_adds : ∀ (cs : List Tensor),
    (∀ c ∈ cs, ∀ s v, Adds (topologicalSort c (s, v)) s v c.nodes) →
    ∀ s v, Adds (topologicalSort.sortChildren cs (s, v)) s v (nodes.nodesList cs)
  | [], _, s, v => by
    refine ⟨[], ?_, ?_, ?_, ?_⟩
    · simp [topologicalSort.sortChildren]
    · simp
    · simp
    · simp [topologicalSort.sortChildren]
  | c :: rest, ih, s, v => by
    obtain ⟨n1, e1, m1, d1, v1⟩ := ih c (List.mem_cons_self _ _) s v
    have hrest := sortChildren_adds rest (fun c' hc' => ih c' (List.mem_cons_of_mem _ hc'))
      (topologicalSort c (s, v)).1 (topologicalSort c (s, v)).2
    obtain ⟨n2, e2, m2, d2, v2⟩ := hrest
    refine ⟨n1 ++ n2, ?_, ?_, ?_, ?_⟩
    · rw [topologicalSort.sortChildren, e2, e1, List.append_assoc]
    · intro x hx
      rw [nodes.nodesList, List.mem_append]
      rcases List.mem_append.1 hx with h | h
      · exact ⟨Or.inl (m1 x h).1, (m1 x h).2⟩
      · refine ⟨Or.inr (m2 x h).1, ?_⟩
        intro hv
        exact (m2 x h).2 ((v1 _).2 (Or.inl hv))
    · rw [List.map_append, List.nodup_append]
      refine ⟨d1, d2, ?_⟩
      intro a ha1 ha2
      obtain ⟨x, hx, rfl⟩ := List.mem_map.1 ha2
      exact (m2 x hx).2 ((v1 _).2 (Or.inr ha1))
    · intro a
      rw [topologicalSort.sortChildren, v2, v1, List.map_append, List.mem_append, or_assoc]

theorem topologicalSort_adds : ∀ (n : Nat) (t : Tensor), sizeOf t ≤ n →
    ∀ s v, Adds (topologicalSort t (s, v)) s v t.nodes := by
  intro n
  induction n with
  | zero =>
    intro t hn
    obtain ⟨d, f, ch, a, g, z⟩ := t
    simp only [Tensor.mk.sizeOf_spec] at hn
    omega
  | succ n ih =>
    intro t hn s v
    rw [topologicalSort_eq]
    by_cases hv : v.contains t.arr = true
    · rw [if_pos hv]
      exact ⟨[], by simp, by simp, by simp, by simp⟩
    · rw [if_neg hv]
      have hv' : t.arr ∉ v := by
        intro h
        exact hv (by simpa using h)
      obtain ⟨n1, e1, m1, d1, v1⟩ := sortChildren_adds t.gradGraphChildren
        (fun c hc => ih c (by have := sizeOf_child_lt hc; omega)) s (t.arr :: v)
      refine ⟨n1 ++ [t], ?_, ?_, ?_, ?_⟩
      · show _ ++ [t] = _
        rw [e1, List.append_assoc]
      · intro x hx
        rcases List.mem_append.1 hx with h | h
        · refine ⟨mem_nodes_iff.2 (Or.inr (mem_nodesList.1 (m1 x h).1)), ?_⟩
          intro hxv
          exact (m1 x h).2 (List.mem_cons_of_mem _ hxv)
        · rw [List.mem_singleton] at h
          subst h
          exact ⟨self_mem_nodes _, hv'⟩
      · rw [List.map_append, List.nodup_append]
        refine ⟨d1, by simp, ?_⟩
        intro a ha1 ha2
        rw [List.map_singleton, List.mem_singleton] at ha2
        subst ha2
        obtain ⟨x, hx, hxa⟩ := List.mem_map.1 ha1
        exact (m1 x hx).2 (by rw [hxa]; exact List.mem_cons_self _ _)
      · intro a
        show a ∈ (topologicalSort.sortChildren t.gradGraphChildren (s, t.arr :: v)).2 ↔ _
        rw [v1, List.map_append, List.mem_append, List.map_singleton, List.mem_singleton,
          List.mem_cons]
        tauto

theorem snoc_eq_split {s pre post : List Tensor} {t x : Tensor}
    (h : s ++ [t] = pre ++ x :: post) :
    (post = [] ∧ pre = s ∧ x = t) ∨ ∃ post', post = post' ++ [t] ∧ s = pre ++ x :: post' := by
  rcases List.eq_nil_or_concat post with rfl | ⟨post', t', rfl⟩
  · left
    have h1 := List.append_inj' h rfl
    exact ⟨rfl, h1.1.symm, (List.cons.inj h1.2).1.symm⟩
  · right
    have h2 : s ++ [t] = (pre ++ x :: post') ++ [t'] := by
      rw [h]
      simp
    have h1 := List.append_inj' h2 rfl
    have h3 : t = t' := (List.cons.inj h1.2).1
    exact ⟨post', by rw [h3, List.concat_eq_append], h1.1⟩

theorem OperandsFirst.snoc {s : List Tensor} {t : Tensor} (hs : OperandsFirst s)
    (ht : ∀ c ∈ t.gradGraphChildren, c.arr ∈ s.map (fun y => y.arr)) :
    OperandsFirst (s ++ [t]) := by
  intro pre x post he c hc
  rcases snoc_eq_split he with ⟨_, hp, hx⟩ | ⟨post', _, hs'⟩
  · subst hp
    subst hx
    exact ht c hc
  · exact hs pre x post' hs' c hc

theorem sortChildren_inv (K : Nat → Prop) : ∀ (cs : List Tensor),
    (∀ c ∈ cs, ∀ st, Inv K st → Inv K (topologicalSort c st) ∧
      c.arr ∈ (topologicalSort c st).1.map (fun y => y.arr)) →
    ∀ st, Inv K st → Inv K (topologicalSort.sortChildren cs st) ∧
      ∀ c ∈ cs, c.arr ∈ (topologicalSort.sortChildren cs st).1.map (fun y => y.arr)
  | [], _, st, hst => by
    rw [topologicalSort.sortChildren]
    exact ⟨hst, by simp⟩
  | c :: rest, ih, st, hst => by
    obtain ⟨i1, a1⟩ := ih c (List.mem_cons_self _ _) st hst
    obtain ⟨i2, a2⟩ := sortChildren_inv K rest
      (fun c' hc' => ih c' (List.mem_cons_of_mem _ hc')) (topologicalSort c st) i1
    rw [topologicalSort.sortChildren]
    refine ⟨i2, ?_⟩
    intro c' hc'
    rcases List.mem_cons.1 hc' with rfl | h
    · obtain ⟨new, e, _⟩ := sortChildren_adds rest
        (fun c'' _ s v => topologicalSort_adds _ c'' le_rfl s v)
        (topologicalSort c' st).1 (topologicalSort c' st).2
      rw [e, List.map_append, List.mem_append]
      exact Or.inl a1
    · exact a2 c' h

theorem topologicalSort_inv {root : Tensor} (hc : Consistent root) : ∀ (n : Nat) (t : Tensor),
    sizeOf t ≤ n → t ∈ root.nodes → ∀ (K : Nat → Prop), (∀ y ∈ t.nodes, ¬ K y.arr) →
    ∀ st, Inv K st → Inv K (topologicalSort t st) ∧
      t.arr ∈ (topologicalSort t st).1.map (fun y => y.arr) := by
  intro n
  induction n with
  | zero =>
    intro t hn
    obtain ⟨d, f, ch, a, g, z⟩ := t
    simp only [Tensor.mk.sizeOf_spec] at hn
    omega
  | succ n ih =>
    intro t hn ht K hK st hst
    obtain ⟨s, v⟩ := st
    rw [topologicalSort_eq]
    by_cases hv : v.contains t.arr = true
    · rw [if_pos hv]
      refine ⟨hst, ?_⟩
      rcases hst.2 t.arr (by simpa using hv) with h | h
      · exact h
      · exact absurd h (hK t (self_mem_nodes t))
    · rw [if_neg hv]
      have hch : ∀ c ∈ t.gradGraphChildren, ∀ st, Inv (fun a => K a ∨ a = t.arr) st →
          Inv (fun a => K a ∨ a = t.arr) (topologicalSort c st) ∧
            c.arr ∈ (topologicalSort c st).1.map (fun y => y.arr) := by
        intro c hcm st' hst'
        have hcr : c ∈ root.nodes :=
          nodes_trans _ root t c le_rfl ht (mem_nodes_iff.2 (Or.inr ⟨c, hcm, self_mem_nodes c⟩))
        refine ih c (by have := sizeOf_child_lt hcm; omega) hcr _ ?_ st' hst'
        intro y hy hKy
        rcases hKy with h | h
        · exact hK y (mem_nodes_iff.2 (Or.inr ⟨c, hcm, hy⟩)) h
        · exact hc.acyclic ht hcm hy h
      have h0 : Inv (fun a => K a ∨ a = t.arr) (s, t.arr :: v) := by
        refine ⟨hst.1, ?_⟩
        intro a ha
        rcases List.mem_cons.1 ha with rfl | h
        · exact Or.inr (Or.inr rfl)
        · rcases hst.2 a h with h' | h'
          · exact Or.inl h'
          · exact Or.inr (Or.inl h')
      obtain ⟨i1, a1⟩ := sortChildren_inv _ t.gradGraphChildren hch _ h0
      refine ⟨⟨i1.1.snoc a1, ?_⟩, ?_⟩
      · intro a ha
        show a ∈ List.map _ (_ ++ [t]) ∨ K a
        rw [List.map_append, List.mem_append, List.map_singleton, List.mem_singleton]
        rcases i1.2 a ha with h | h | h
        · exact Or.inl (Or.inl h)
        · exact Or.inr h
        · exact Or.inl (Or.inr h)
      · show t.arr ∈ List.map _ (_ ++ [t])
        simp

/-- In a list closed under operands (up to buffer identity), every tensor below a
listed buffer has its buffer listed. -/
theorem closed_reach {root : Tensor} (hc : Consistent root) {s : List Tensor}
    (hs : OperandsFirst s) (hsub : ∀ x ∈ s, x ∈ root.nodes) : ∀ (n : Nat) (x : Tensor),
    sizeOf x ≤ n → x ∈ root.nodes → x.arr ∈ s.map (fun y => y.arr) →
    ∀ y ∈ x.nodes, y.arr ∈ s.map (fun y => y.arr) := by
  intro n
  induction n with
  | zero =>
    intro t hn
    obtain ⟨d, f, ch, a, g, z⟩ := t
    simp only [Tensor.mk.sizeOf_spec] at hn
    omega
  | succ n ih =>
    intro x hn hx hxs y hy
    rcases mem_nodes_iff.1 hy with rfl | ⟨c, hcm, hyc⟩
    · exact hxs
    · obtain ⟨x', hx', he⟩ := List.mem_map.1 hxs
      have hch := hc x' (hsub x' hx') x hx he
      obtain ⟨pre, post, hsplit⟩ := List.append_of_mem hx'
      have hcs : c.arr ∈ pre.map (fun y => y.arr) := hs pre x' post hsplit c (hch ▸ hcm)
      have hcs' : c.arr ∈ s.map (fun y => y.arr) := by
        rw [hsplit, List.map_append, List.mem_append]
        exact Or.inl hcs
      have hcr : c ∈ root.nodes :=
        nodes_trans _ root x c le_rfl hx (mem_nodes_iff.2 (Or.inr ⟨c, hcm, self_mem_nodes c⟩))
      exact ih c (by have := sizeOf_child_lt hcm; omega) hcr hcs' y hyc

/-- The loop of `backward` over a list of tensors returns exactly when the rules of
the tensors run one after the other. -/
theorem foldlM_rules_iff {α : Type} [LinearOrderedField α] (m : Libm α) :
    ∀ (l : List Tensor) (h h' : Heap α),
    l.foldlM (fun (h : Heap α) (arr : Tensor) =>
        BackwardFn.call m arr.backwardFn (arr.getGradient h).2 (arr.getGradient h).1
          arr.gradGraphChildren) h = .ok h' ↔ RulesRun m l h h'
  | [], h, h' => by
    simp only [List.foldlM_nil, RulesRun]
    constructor
    · intro e
      cases e
      rfl
    · intro e
      rw [e]
      rfl
  | t :: rest, h, h' => by
    rw [List.foldlM_cons]
    simp only [RulesRun]
    cases hcall : BackwardFn.call m t.backwardFn (t.getGradient h).2 (t.getGradient h).1
        t.gradGraphChildren with
    | error e =>
      constructor
      · intro hb
        cases hb
      · rintro ⟨h1, h2, _⟩
        cases h2
    | ok h1 =>
      rw [bind_ok, foldlM_rules_iff m rest h1 h']
      constructor
      · intro hr
        exact ⟨h1, rfl, hr⟩
      · rintro ⟨h2, e2, hr⟩
        cases e2
        exact hr

/-- C29. Topological order of the backward pass. For a graph in which a buffer
determines its operands, the list `sorted` built by the depth-first sort of `backward`
holds reachable tensors only, holds every reachable buffer and holds no buffer twice;
it ends with the root; every element comes after the buffers of all its operands; in
the reverse list, when an element is reached every reachable tensor that has its
buffer as an operand (once or several times) has its own buffer among the elements
before it; and `backward` returns exactly when the seed is added to the gradient of
the root and then the backward rules run over the reverse list: the rule of each
element is invoked once, in this order, on the heap left by the invocation before. -/
theorem topological_order {α : Type} [LinearOrderedField α] (root : Tensor)
    (hc : Consistent root) :
    (∀ x ∈ (topologicalSort root ([], [])).1, x ∈ root.nodes) ∧
    (∀ y ∈ root.nodes, y.arr ∈ (topologicalSort root ([], [])).1.map (fun y => y.arr)) ∧
    ((topologicalSort root ([], [])).1.map (fun y => y.arr)).Nodup ∧
    (topologicalSort root ([], [])).1.getLast? = some root ∧
    (∀ pre x post, (topologicalSort root ([], [])).1 = pre ++ x :: post →
      ∀ c ∈ x.gradGraphChildren, c.arr ∈ pre.map (fun y => y.arr)) ∧
    (∀ pre x post, (topologicalSort root ([], [])).1.reverse = pre ++ x :: post →
      ∀ p ∈ root.nodes, ∀ c ∈ p.gradGraphChildren, c.arr = x.arr →
        p.arr ∈ pre.map (fun y => y.arr)) ∧
    (∀ (m : Libm α) (h h' : Heap α), backward m h root = .ok h' ↔
      ∃ (o : Tensor × Heap α) (h1 : Heap α), ones h root.dims = .ok o ∧
        root.setGradient o.2 o.1 = .ok h1 ∧
        RulesRun m (topologicalSort root ([], [])).1.reverse h1 h') := by
  obtain ⟨new, e, m, d, _⟩ := topologicalSort_adds _ root le_rfl [] []
  rw [List.nil_append] at e
  have hinv := topologicalSort_inv hc _ root le_rfl (self_mem_nodes root) (fun _ => False)
    (fun _ _ h => h) ([], []) ⟨by intro pre x post h; simp at h, by simp⟩
  have hsub : ∀ x ∈ (topologicalSort root ([], [])).1, x ∈ root.nodes := by
    intro x hx
    rw [e] at hx
    exact (m x hx).1
  have hall : ∀ y ∈ root.nodes,
      y.arr ∈ (topologicalSort root ([], [])).1.map (fun y => y.arr) :=
    closed_reach hc hinv.1.1 hsub _ root le_rfl (self_mem_nodes root) hinv.2
  have hnd : ((topologicalSort root ([], [])).1.map (fun y => y.arr)).Nodup := by
    rw [e]
    exact d
  refine ⟨hsub, hall, hnd, ?_, hinv.1.1, ?_, ?_⟩
  · rw [topologicalSort_eq]
    simp
  rotate_left
  · intro m' h h'
    have hb : backward m' h root = (ones h root.dims >>= fun o =>
        root.setGradient o.2 o.1 >>= fun h1 =>
          (topologicalSort root ([], [])).1.reverse.foldlM (fun (h : Heap α) (arr : Tensor) =>
            BackwardFn.call m' arr.backwardFn (arr.getGradient h).2 (arr.getGradient h).1
              arr.gradGraphChildren) h1) := rfl
    rw [hb]
    cases ho : ones h root.dims with
    | error e =>
      constructor
      · intro hx
        cases hx
      · rintro ⟨o, h1, e1, _⟩
        cases e1
    | ok o =>
      rw [bind_ok]
      cases hs : root.setGradient o.2 o.1 with
      | error e =>
        constructor
        · intro hx
          cases hx
        · rintro ⟨o', h1, e1, e2, _⟩
          cases e1
          rw [hs] at e2
          cases e2
      | ok h1 =>
        rw [bind_ok, foldlM_rules_iff]
        constructor
        · intro hr
          exact ⟨o, h1, rfl, hs, hr⟩
        · rintro ⟨o', h1', e1, e2, hr⟩
          cases e1
          rw [hs] at e2
          cases e2
          exact hr
  · intro pre x post hrev p hp c hcp hcx
    have hs : (topologicalSort root ([], [])).1 = post.reverse ++ x :: pre.reverse := by
      rw [← List.reverse_reverse (topologicalSort root ([], [])).1, hrev]
      simp
    obtain ⟨p', hp', he⟩ := List.mem_map.1 (hall p hp)
    have hch : p'.gradGraphChildren = p.gradGraphChildren := hc p' (hsub p' hp') p hp he
    rw [hs, List.mem_append, List.mem_cons] at hp'
    rcases hp' with h | h | h
    · -- a consumer sorted before `x` would have `x` before it
      exfalso
      obtain ⟨A, B, hAB⟩ := List.append_of_mem h
      have hs2 : (topologicalSort root ([], [])).1 = A ++ p' :: (B ++ x :: pre.reverse) := by
        rw [hs, hAB]
        simp
      have h1 := hinv.1.1 A p' _ hs2 c (hch ▸ hcp)
      rw [hs2, List.map_append, List.nodup_append] at hnd
      refine hnd.2.2 h1 ?_
      rw [hcx]
      simp
    · exfalso
      subst h
      exact hc.acyclic (hsub p' (by rw [hs]; simp)) (hch ▸ hcp) (self_mem_nodes c) hcx
    · rw [← he]
      exact List.mem_map.2 ⟨p', List.mem_reverse.1 h, rfl⟩

/-- Instance of C29: the diamond `b * (a + b)` with `b = a * a`. -/
theorem topological_order_witness :
    Consistent examples.diamond ∧
      ((topologicalSort examples.diamond ([], [])).1.map (fun y => y.arr)).Nodup :=
  ⟨by simp [Consistent, nodes, nodes.nodesList, examples.diamond, examples.gb, examples.gc,
      examples.ga],
    (@topological_order ℚ _ examples.diamond (by
      simp [Consistent, nodes, nodes.nodesList, examples.diamond, examples.gb, examples.gc,
        examples.ga])).2.2.1⟩

end Tensor

end num

namespace num

/-! ### `get` of what `set` stored -/

section SetThenGet

variable {α : Type} [LinearOrderedField α]

end SetThenGet

end num

namespace num

/-! ### Broadcasting when the bigger operand has the lower rank -/

/-- The `while` loop advancing the index into a rank-2 smaller operand whose row
counter never runs out before the main loop ends: only the column moves. -/
theorem advanceSmall_row (r c K i : Nat) (hc : 0 < c) (hn : i + 1 < c * K) :
    (advanceSmall [(r : Int), (c : Int)] [0, (K : Int)] 2
        ([0, ((i % c : Nat) : Int)], [0, ((K - i / c : Nat) : Int)])).1
      = [0, (((i + 1) % c : Nat) : Int)] ∧
    (advanceSmall [(r : Int), (c : Int)] [0, (K : Int)] 2
        ([0, ((i % c : Nat) : Int)], [0, ((K - i / c : Nat) : Int)])).2.1
      = [0, ((K - (i + 1) / c : Nat) : Int)] := by
  have hdm := Nat.div_add_mod i c
  have hml := Nat.mod_lt i hc
  by_cases hcase : i % c + 1 < c
  · have h1 : (i + 1) / c = i / c ∧ (i + 1) % c = i % c + 1 :=
      (Nat.div_mod_unique hc).2 ⟨by omega, hcase⟩
    rw [h1.1, h1.2]
    generalize i % c = m at *
    generalize K - i / c = L at *
    have hlt : ¬ ((c : Int) ≤ (m : Int) + 1) := by omega
    simp [advanceSmall, hlt]
  · have h1 : (i + 1) / c = i / c + 1 ∧ (i + 1) % c = 0 :=
      (Nat.div_mod_unique hc).2 ⟨by rw [Nat.mul_add]; omega, hc⟩
    have h2 : i / c + 1 < K := by
      have h3 : c * (i / c + 1) < c * K := by rw [Nat.mul_add]; omega
      exact Nat.lt_of_mul_lt_mul_left h3
    rw [h1.1, h1.2]
    have hL : K - i / c = (K - (i / c + 1)) + 1 := by omega
    rw [hL]
    generalize i % c = m at *
    generalize K - (i / c + 1) = L at *
    have hge : (c : Int) ≤ (m : Int) + 1 := by omega
    have hL0 : L ≠ 0 := by omega
    simp [advanceSmall, hge, hL0]

section LowRank

variable {α : Type} [LinearOrderedField α]

/-- `applyBinaryWithBroadcast` on `a` of shape `(n)` and `b` of shape `(r, c)` with
fewer elements, `c` dividing `n`: `numDimsDiff` is `-1`, the only axis compared is the
last one of `b`, and the result combines `a[i]` with `b[0, i mod c]`. -/
theorem broadcast_low_rank_ok (h : Heap α) (a b : Tensor) (fn : α → α → α) (n r c : Nat)
    (ha : a.WF h) (hb : b.WF h) (had : a.dims = [(n : Int)])
    (hbd : b.dims = [(r : Int), (c : Int)]) (hlt : b.sz < a.sz) (hdiv : n % c = 0) :
    applyBinaryWithBroadcast h a b fn
      = .ok ({ a with arr := h.bufs.length, gradArr := h.bufs.length + 1 },
          ⟨h.bufs ++ [(List.range n).map (fun i =>
            fn ((h.buf a.arr).getD i 0) ((h.buf b.arr).getD (i % c) 0)),
            h.buf a.gradArr]⟩) := by
  obtain ⟨_, hapos, hasz, haarr, _, halen, haglen⟩ := ha
  obtain ⟨_, hbpos, hbsz, hbarr, _, hblen, _⟩ := hb
  have hal : a.dims.length = 1 := by rw [had]; rfl
  have hbl : b.dims.length = 2 := by rw [hbd]; rfl
  have hn : a.sz = n := by
    rw [had] at hasz
    simp at hasz
    exact hasz
  have hrc : b.sz = r * c := by
    rw [hbd] at hbsz
    simp at hbsz
    exact_mod_cast hbsz
  have hcpos : 0 < c := by
    have := hbpos (c : Int) (by rw [hbd]; simp)
    omega
  have hrpos : 0 < r := by
    have := hbpos (r : Int) (by rw [hbd]; simp)
    omega
  have hK : c * (n / c) = n := Nat.mul_div_cancel' (Nat.dvd_of_mod_eq_zero hdiv)
  have hsw : swappedOf a b = false := by
    simp only [swappedOf, decide_eq_false_iff_not]
    omega
  have hB : biggerOf a b = a := by simp [biggerOf, hsw]
  have hS : smallerOf a b = b := by simp [smallerOf, hsw]
  have key : applyBinaryWithBroadcast h a b fn
      = (dimRepsLoop (biggerOf a b) (smallerOf a b)
            (((biggerOf a b).dims.length : Int) - ((smallerOf a b).dims.length : Int))
            (biggerOf a b).dims.length (List.replicate (smallerOf a b).dims.length 0)
          >>= fun dimReps =>
            forLoop (biggerOf a b).sz
              (fun _ st => broadcastStep fn (swappedOf a b) (biggerOf a b) (smallerOf a b)
                ((biggerOf a b).clone h).1 dimReps st)
              (((biggerOf a b).clone h).2, IntArrRef.fill (biggerOf a b).dims.length 0,
                IntArrRef.fill (smallerOf a b).dims.length 0, dimReps)
            >>= fun r => .ok (((biggerOf a b).clone h).1, r.1)) := rfl
  have hdr : dimRepsLoop a b (((1 : Nat) : Int) - ((2 : Nat) : Int)) 1 (List.replicate 2 0)
      = .ok [0, ((n / c : Nat) : Int)] := by
    have htm : (n : Int).tmod (c : Int) = 0 := by
      rw [Int.tmod_eq_emod (by omega) (by omega)]
      exact_mod_cast hdiv
    have htd : (n : Int).tdiv (c : Int) = ((n / c : Nat) : Int) := by
      rw [Int.tdiv_eq_ediv (by omega) (by omega)]
      norm_cast
    simp [dimRepsLoop, had, hbd, htm, htd]
  have hloop : ∃ st', forLoop a.sz
      (fun _ st => broadcastStep fn false a b
        { a with arr := h.bufs.length, gradArr := h.bufs.length + 1 }
        [0, ((n / c : Nat) : Int)] st)
      ((⟨h.bufs ++ [h.buf a.arr, h.buf a.gradArr]⟩ : Heap α), IntArrRef.fill 1 0,
        IntArrRef.fill 2 0, [0, ((n / c : Nat) : Int)]) = .ok st' ∧
      st'.1 = ⟨h.bufs ++ [(List.range n).map (fun i =>
        fn ((h.buf a.arr).getD i 0) ((h.buf b.arr).getD (i % c) 0)), h.buf a.gradArr]⟩ := by
    refine forLoop_inv'
      (fun i (st : Heap α × IntArrRef × IntArrRef × List Int) =>
        (∃ data : List α, st.1 = ⟨h.bufs ++ [data, h.buf a.gradArr]⟩ ∧ data.length = n ∧
          ∀ p, p < i → data[p]? = some (fn ((h.buf a.arr).getD p 0)
            ((h.buf b.arr).getD (p % c) 0))) ∧
        (i < n → st.2.1 = [(i : Int)] ∧ st.2.2.1 = [0, ((i % c : Nat) : Int)] ∧
          st.2.2.2 = [0, ((n / c - i / c : Nat) : Int)]))
      _ _ _ _ ?_ ?_ ?_
    · refine ⟨⟨h.buf a.arr, rfl, by rw [halen, hn], by intro p hp; omega⟩, fun _ => ?_⟩
      simp [IntArrRef.fill]
    · rintro i ⟨hp, bI, sI, lf⟩ hi0 ⟨⟨data, hs, hl, hpre⟩, hidx⟩
      have hi : i < n := by omega
      obtain ⟨e1, e2, e3⟩ := hidx hi
      simp only at hs e1 e2 e3
      subst hs e1 e2 e3
      have hv : ValidIdx a.dims [(i : Int)] := by
        rw [had]
        simp [ValidIdx]
        omega
      have hr : (rowMajor a.dims [(i : Int)]).toNat = i := by
        rw [had]
        simp [rowMajor]
      have hgA : a.getSingle (⟨h.bufs ++ [data, h.buf a.gradArr]⟩ : Heap α) [(i : Int)]
          = .ok ((h.buf a.arr).getD i 0) := by
        rw [getSingle_append_left _ haarr, getSingle_valid hv, hr, Heap.mk_bufs]
        exact Heap.read_eq_ok (getElem?_eq_getD 0 (by omega))
      have hgB : b.getSingle (⟨h.bufs ++ [data, h.buf a.gradArr]⟩ : Heap α)
          [0, ((i % c : Nat) : Int)] = .ok ((h.buf b.arr).getD (i % c) 0) := by
        rw [getSingle_append_left _ hbarr, Heap.mk_bufs]
        have := @getSingle2 α _ h b r c 0 (i % c) hbd (by rw [hblen, hrc]) hrpos
          (Nat.mod_lt _ hcpos)
        simpa using this
      have hw : ∀ v : α, Tensor.setSingle (⟨h.bufs ++ [data, h.buf a.gradArr]⟩ : Heap α)
          { a with arr := h.bufs.length, gradArr := h.bufs.length + 1 } v [(i : Int)]
          = .ok ⟨h.bufs ++ [data.set i v, h.buf a.gradArr]⟩ := by
        intro v
        rw [setSingle_valid (by exact hv)]
        show Heap.write _ _ (((rowMajor a.dims [(i : Int)]).toNat : Nat) : Int) v = _
        rw [hr]
        simpa using Heap.write_append h.bufs [h.buf a.gradArr] v (by omega : i < data.length)
      simp only [broadcastStep, hgA, hgB, hw, bind_ok, Bool.false_eq_true, if_false]
      refine ⟨_, rfl, ⟨_, rfl, by simpa using hl, ?_⟩, ?_⟩
      · intro p hp
        rcases Nat.lt_or_ge p i with hlt' | hge
        · rw [List.getElem?_set_ne (by omega)]; exact hpre p hlt'
        · have hpe : p = i := by omega
          subst hpe
          rw [List.getElem?_set_self (by omega)]
      · intro hi1
        have hadv := advanceSmall_row r c (n / c) i hcpos (by rw [hK]; exact hi1)
        refine ⟨?_, ?_, ?_⟩
        · have hnl : ¬ ((n : Int) ≤ (i : Int) + 1) := by omega
          simp [Tensor.idxIncr, Tensor.idxIncrLoop, had, hnl]
        · simp only [hbd, hbl]
          exact hadv.1
        · simp only [hbd, hbl]
          exact hadv.2
    · rintro st ⟨⟨data, hs, hl, hpre⟩, _⟩
      rw [hn] at hpre
      rw [hs, list_eq_map_range hl hpre]
  obtain ⟨st', hl1, hl2⟩ := hloop
  rw [key, hB, hS, hsw, hal, hbl, hdr, bind_ok, clone_ok h a halen haglen, hl1, bind_ok, hl2]

/-- C32. Broadcasting when the operand with more elements has the lower rank: for `a`
of shape `(n)` and `b` of shape `(r, c)` with fewer elements than `a` and `c`
dividing `n` (nothing is asked of `r`, the leading axis of `b`, which has no partner
in `a`), `add(a, b)` throws nothing and returns a new tensor of shape `(n)` with
`out[i] = a[i] + b[0, i mod c]` for every `i < n`; the rows of `b` after the first
are not used. The shapes `(12)` and `(3, 2)` are the case `n = 12`, `r = 3`,
`c = 2`. -/
theorem add_lower_rank_bigger (h : Heap α) (a b : Tensor) (n r c : Nat) (ha : a.WF h)
    (hb : b.WF h) (had : a.dims = [(n : Int)]) (hbd : b.dims = [(r : Int), (c : Int)])
    (hlt : b.sz < a.sz) (hdiv : n % c = 0) :
    ∃ (out : Tensor) (h' : Heap α), opAdd h a b = .ok (out, h') ∧
      out.dims = [(n : Int)] ∧ out.arr = h.bufs.length ∧
      (∀ q, q < h.bufs.length → h'.buf q = h.buf q) ∧
      ∀ i, i < n → ∃ x y : α, a.getSingle h [(i : Int)] = .ok x ∧
        b.getSingle h [0, ((i % c : Nat) : Int)] = .ok y ∧
        out.getSingle h' [(i : Int)] = .ok (x + y) := by
  have hab : opAdd h a b = (applyBinaryWithBroadcast h a b (fun a b : α => a + b) >>= fun out =>
      .ok ({ out.1 with gradGraphChildren := [a, b], backwardFn := .Add }, out.2)) := rfl
  have hcpos : 0 < c := by
    have := hb.2.1 (c : Int) (by rw [hbd]; simp)
    omega
  have hrpos : 0 < r := by
    have := hb.2.1 (r : Int) (by rw [hbd]; simp)
    omega
  have hn : a.sz = n := by
    have := ha.2.2.1
    rw [had] at this
    simp at this
    exact this
  have hrc : b.sz = r * c := by
    have := hb.2.2.1
    rw [hbd] at this
    simp at this
    exact_mod_cast this
  rw [hab, broadcast_low_rank_ok h a b _ n r c ha hb had hbd hlt hdiv, bind_ok]
  refine ⟨_, _, rfl, had, rfl, fun q hq => buf_app _ hq, ?_⟩
  intro i hi
  have hv : ValidIdx a.dims [(i : Int)] := by
    rw [had]
    simp [ValidIdx]
    omega
  have hr : (rowMajor a.dims [(i : Int)]).toNat = i := by
    rw [had]
    simp [rowMajor]
  refine ⟨(h.buf a.arr).getD i 0, (h.buf b.arr).getD (i % c) 0, ?_, ?_, ?_⟩
  · rw [getSingle_valid hv, hr]
    exact Heap.read_eq_ok (getElem?_eq_getD 0 (by rw [ha.2.2.2.2.2.1, hn]; exact hi))
  · have := @getSingle2 α _ h b r c 0 (i % c) hbd (by rw [hb.2.2.2.2.2.1, hrc]) hrpos
      (Nat.mod_lt _ hcpos)
    simpa using this
  · refine (getSingle_valid (by exact hv)).trans ?_
    show Heap.read _ _ (((rowMajor a.dims [(i : Int)]).toNat : Nat) : Int) = _
    rw [hr]
    apply Heap.read_eq_ok
    dsimp only
    rw [Heap.buf_append_length, List.getElem?_map, List.getElem?_range hi]
    rfl

/-- Instance of C32: the example data of twelve elements viewed with shape `(12)` and
the `3 × 2` example matrix `[[1, 0], [2, 1], [0, 3]]`; only its row `[1, 0]` is added. -/
theorem add_lower_rank_bigger_witness :
    (opAdd examples.heap examples.v12 examples.m32).toBool = true ∧
    (opAdd examples.heap examples.v12 examples.m32).map
      (fun r => (r.1.dims, r.2.buf r.1.arr))
      = .ok ([12], [2, 2, 4, 4, 6, 6, 8, 8, 10, 10, 12, 12]) := by
  constructor
  · obtain ⟨out, h', e, _⟩ := add_lower_rank_bigger examples.heap examples.v12
      examples.m32 12 3 2 (by unfold Tensor.WF; decide) (by unfold Tensor.WF; decide) rfl rfl
      (by decide) (by decide)
    rw [e]
    rfl
  · decide!

end LowRank

end num
